import Mathlib

/-!
# threads: hazard-pointer reclamation domain, lock-free queue and stack

A sequential (single-threaded) embedding of `hazard_pointer.h`, `queue.h` and
`stack.h`, and a line-by-line interleaving of two threads that call
`stack::pop`.

Modelling conventions.

* A `void*` is a natural number, `0` being `nullptr`.
* A singly linked list that the code only walks from its head (the slot list
  `__head`, the retired list `__pending_list`) is a Lean `List`, head first;
  the null list is `[]`.
* A `hazard_node*` handed out by `reference` is the position of the node
  counted from the tail of the slot list: nodes are only ever linked at the
  head and never unlinked, so this number identifies the node for good.
* The deleter stored in a retired entry is identified by a number; calling it
  is an observable event, and every operation returns the list of deleter
  calls it performed, in order.
* `compare_exchange_strong` whose expected value was loaded immediately
  before, with no other thread running, succeeds; the failure path is
  modelled wherever the compared values can differ.
* `std::atomic` members without an initialiser are taken to start at zero.
* `size_t` counters are natural numbers (they count objects that exist in
  memory at once); the `int` counters of the containers wrap at 32 bits.
-/

namespace threads

/-! ## std::unordered_map as an association list -/

/-- Lookup, as `std::unordered_map::find`. -/
def map_find {β : Type} : List (Nat × β) → Nat → Option β
  | [], _ => none
  | (k, v) :: m, key => if key = k then some v else map_find m key

/-- Insert-or-assign, as `m[key] = v`. -/
def map_assign {β : Type} : List (Nat × β) → Nat → β → List (Nat × β)
  | [], key, v => [(key, v)]
  | (k, w) :: m, key, v =>
    if key = k then (k, v) :: m else (k, w) :: map_assign m key v

/-- Insert without overwriting, as `std::unordered_map::insert`; the flag is
the `second` of the returned pair (whether the insertion took place). -/
def map_insert {β : Type} (m : List (Nat × β)) (key : Nat) (v : β) :
    List (Nat × β) × Bool :=
  match map_find m key with
  | some _ => (m, false)
  | none => (m ++ [(key, v)], true)

/-! ## hazard_pointer.h -/

/-- A hazard slot (`class hazard_node`); `next` is the tail of the list. -/
structure hazard_node where
  occupied : Bool
  hazard_ptr : Nat
deriving DecidableEq

/-- A retired entry (`struct hazard_pending_node`). -/
structure hazard_pending_node where
  ptr : Nat
  deleter : Nat
deriving DecidableEq

/-- The order in which a range-for visits a `std::unordered_map`: left
unspecified by the language, so any rearrangement of the stored pairs. -/
structure IterationOrder where
  arrange : List (Nat × hazard_pending_node) → List (Nat × hazard_pending_node)
  perm : ∀ l, (arrange l).Perm l

/-- Visiting the pairs in the order they were inserted. -/
def insertion_order : IterationOrder where
  arrange := fun l => l
  perm := fun l => List.Perm.refl l

/-- Visiting the pairs in the reverse of the order they were inserted. -/
def reverse_order : IterationOrder where
  arrange := fun l => l.reverse
  perm := fun l => List.reverse_perm l

/-- The reclamation domain (`class hazard_pointer`). -/
structure hazard_pointer where
  __size : Nat
  __head : List hazard_node
  __pending_size : Nat
  __threshold_of_clean_up : Nat
  __pending_list : List hazard_pending_node
deriving DecidableEq

namespace hazard_pointer

/-- The constructor `hazard_pointer(size_t threshold)`. -/
def new (threshold : Nat) : hazard_pointer where
  __size := 0
  __head := []
  __pending_size := 0
  __threshold_of_clean_up := threshold
  __pending_list := []

/-- The accessor `size()`. -/
def size (hp : hazard_pointer) : Nat := hp.__size

/-- The accessor `pending_size()`. -/
def pending_size (hp : hazard_pointer) : Nat := hp.__pending_size

/-- The accessor `threshold()`. -/
def threshold (hp : hazard_pointer) : Nat := hp.__threshold_of_clean_up

/-- The mutator `set_threshold(threshold)`. -/
def set_threshold (hp : hazard_pointer) (threshold : Nat) : hazard_pointer :=
  { hp with __threshold_of_clean_up := threshold }

/-- The first loop of `check_threshold` (lines 82-89): every non-null
`hazard_ptr` goes into `filter` with flag `false`. -/
def collect_hazards : List hazard_node → List (Nat × Bool) → List (Nat × Bool)
  | [], filter => filter
  | hn :: rest, filter =>
    if hn.hazard_ptr = 0 then collect_hazards rest filter
    else collect_hazards rest (map_assign filter hn.hazard_ptr false)

/-- The local variables of the second loop of `check_threshold`, with the
deleter calls made so far. -/
structure scan_state where
  filter : List (Nat × Bool)
  new_list_filter : List (Nat × hazard_pending_node)
  calls : List hazard_pending_node

/-- One iteration of the second loop of `check_threshold` (lines 95-121) on
the retired entry `e`. -/
def scan_step (s : scan_state) (e : hazard_pending_node) : scan_state :=
  match map_find s.filter e.ptr with
  | none =>
    { s with filter := map_assign s.filter e.ptr true, calls := s.calls ++ [e] }
  | some false =>
    { s with new_list_filter := (map_insert s.new_list_filter e.ptr e).1 }
  | some true => s

/-- The chain built by lines 128-131: each visited survivor is linked in
front of the ones visited before. -/
def link_survivors (visited : List (Nat × hazard_pending_node)) :
    List hazard_pending_node :=
  visited.foldl (fun new_list it => it.2 :: new_list) []

/-- The private member `check_threshold()`. Returns the new state and the
deleter calls made, in order. -/
def check_threshold (ord : IterationOrder) (hp : hazard_pointer) :
    hazard_pointer × List hazard_pending_node :=
  if hp.__pending_size < hp.__threshold_of_clean_up then (hp, [])
  else
    let hp1 := { hp with __pending_size := 0 }
    let list := hp1.__pending_list
    let hp2 := { hp1 with __pending_list := [] }
    match list with
    | [] => (hp2, [])
    | _ :: _ =>
      let hp3 := { hp2 with __pending_size := 0 }
      let filter := collect_hazards hp3.__head []
      let s := list.foldl scan_step { filter := filter, new_list_filter := [], calls := [] }
      if s.new_list_filter.length > 0 then
        let new_list := link_survivors (ord.arrange s.new_list_filter)
        match hp3.__pending_list with
        | [] => ({ hp3 with __pending_list := new_list }, s.calls)
        | cur :: more =>
          ({ hp3 with
              __pending_list := new_list.reverse ++ (cur :: more),
              __pending_size := hp3.__pending_size + new_list.length }, s.calls)
      else (hp3, s.calls)

/-- The private member `clear_forcely()`: the loop state is the
`unordered_set` of pointers seen and the deleter calls made. -/
def clear_forcely_step (s : List Nat × List hazard_pending_node)
    (e : hazard_pending_node) : List Nat × List hazard_pending_node :=
  if e.ptr ∈ s.1 then s else (e.ptr :: s.1, s.2 ++ [e])

/-- The private member `clear_forcely()`. Returns the new state and the
deleter calls made, in order. -/
def clear_forcely (hp : hazard_pointer) : hazard_pointer × List hazard_pending_node :=
  match hp.__pending_list with
  | [] => (hp, [])
  | e :: rest =>
    ({ hp with __pending_list := [], __pending_size := 0 },
      ((e :: rest).foldl clear_forcely_step ([], [])).2)

/-- The destructor `~hazard_pointer()`: `clear_forcely`, then every slot is
deleted. -/
def destroy (hp : hazard_pointer) : hazard_pointer × List hazard_pending_node :=
  let r := clear_forcely hp
  ({ r.1 with __head := [] }, r.2)

/-- The first loop of `reference()` (lines 208-216): claim the first slot,
from the head, whose `occupied` flag is false. Returns the handle of the
claimed slot and the updated list, or `none` when every slot is occupied. -/
def claim_idle : List hazard_node → Option (Nat × List hazard_node)
  | [] => none
  | n :: rest =>
    if n.occupied = false then some (rest.length, { n with occupied := true } :: rest)
    else
      match claim_idle rest with
      | none => none
      | some (h, rest1) => some (h, n :: rest1)

/-- The member `reference()`. Returns the new state and the handle. -/
def reference (hp : hazard_pointer) : hazard_pointer × Nat :=
  match claim_idle hp.__head with
  | some (h, slots) => ({ hp with __head := slots }, h)
  | none =>
    ({ hp with
        __head := { occupied := true, hazard_ptr := 0 } :: hp.__head,
        __size := hp.__size + 1 }, hp.__head.length)

/-- Apply `f` to the slot with handle `h`. -/
def update_node (f : hazard_node → hazard_node) :
    List hazard_node → Nat → List hazard_node
  | [], _ => []
  | n :: rest, h => if h = rest.length then f n :: rest else n :: update_node f rest h

/-- The slot with handle `h`. -/
def node_at : List hazard_node → Nat → Option hazard_node
  | [], _ => none
  | n :: rest, h => if h = rest.length then some n else node_at rest h

/-- The member `hazard_node::set(ptr)` on the slot with handle `h`. -/
def set (hp : hazard_pointer) (h : Nat) (ptr : Nat) : hazard_pointer :=
  { hp with __head := update_node (fun n => { n with hazard_ptr := ptr }) hp.__head h }

/-- The member `hazard_node::dereference()` on the slot with handle `h`. -/
def dereference (hp : hazard_pointer) (h : Nat) : hazard_pointer :=
  { hp with __head :=
      update_node (fun _ => { occupied := false, hazard_ptr := 0 }) hp.__head h }

/-- The member `delete_ptr(ptr)`; `deleter` identifies the instance of
`delete_ptr_final` stored in the entry. Returns the new state and the
deleter calls made, in order. -/
def delete_ptr (ord : IterationOrder) (hp : hazard_pointer) (ptr deleter : Nat) :
    hazard_pointer × List hazard_pending_node :=
  match hp.__head with
  | [] => (hp, [])
  | _ :: _ =>
    check_threshold ord
      { hp with
          __pending_list := { ptr := ptr, deleter := deleter } :: hp.__pending_list,
          __pending_size := hp.__pending_size + 1 }

end hazard_pointer

/-! ## Node storage shared by the containers

Nodes made by `new` live in a store indexed by address: cell `a` holds the
node at address `a`, and `none` once the node has been deleted. A node
pointer is an `Option Nat`, `none` being `nullptr`; as a `void*` the node at
cell `a` is `a + 1`. -/

/-- Ways a run can leave defined behaviour or fail to return. -/
inductive Fault where
  | invalid_access
  | no_progress
deriving DecidableEq

/-- A node pointer converted to `void*`. -/
def to_void : Option Nat → Nat
  | none => 0
  | some a => a + 1

/-- Dereferencing the node pointer `a`. -/
def load {γ : Type} (heap : List (Option γ)) (a : Nat) : Except Fault γ :=
  match heap[a]? with
  | some (some node) => .ok node
  | _ => .error .invalid_access

/-- The call `delete (T*)ptr` made by `delete_ptr_final<T>`: a no-op on
`nullptr`, otherwise the cell must hold a node. -/
def delete_final {γ : Type} (heap : List (Option γ)) : Nat → Except Fault (List (Option γ))
  | 0 => .ok heap
  | a + 1 =>
    match heap[a]? with
    | some (some _) => .ok (heap.set a none)
    | _ => .error .invalid_access

/-- The effect on the store of a sequence of deleter calls. -/
def run_deleters {γ : Type} (heap : List (Option γ)) :
    List hazard_pending_node → Except Fault (List (Option γ))
  | [] => .ok heap
  | c :: calls =>
    match delete_final heap c.ptr with
    | .ok heap1 => run_deleters heap1 calls
    | .error f => .error f

/-- An `int` after an arithmetic step: reduced to 32 bits, two's complement. -/
def wrap_int (x : Int) : Int := (x + 2147483648) % 4294967296 - 2147483648

/-- The conversion from `int` to `size_t` (64 bits). -/
def to_size_t (x : Int) : Nat := (x % 18446744073709551616).toNat

/-! ## queue.h -/

/-- A queue node (`struct queue_node`). -/
structure queue_node (α : Type) where
  t : α
  next : Option Nat

/-- The class `queue<T>`, with the store of its nodes. -/
structure queue (α : Type) where
  __hp : hazard_pointer
  __size : Int
  __head : Option Nat
  __tail : Option Nat
  heap : List (Option (queue_node α))

namespace queue

variable {α : Type}

/-- The constructor `queue()`. The source default-constructs `__hp`
(threshold 10000); `threshold` generalises that. `dummy` is the content of
the uninitialised `t` of the dummy node. -/
def new (threshold : Nat) (dummy : α) : queue α where
  __hp := hazard_pointer.new threshold
  __size := 0
  __head := some 0
  __tail := some 0
  heap := [some { t := dummy, next := none }]

/-- The loop of `push` (lines 52-56): protect `__tail`, then
compare-and-set its `next` from null to the new node `n`. Each retry costs
one unit of `fuel`. -/
def push_loop (hpn : Nat) (tail : Option Nat) (n : Nat) :
    Nat → hazard_pointer → List (Option (queue_node α)) →
      Except Fault (hazard_pointer × List (Option (queue_node α)))
  | 0, _, _ => .error .no_progress
  | fuel + 1, hp, heap =>
    let hp1 := hp.set hpn (to_void tail)
    match tail with
    | none => .error .invalid_access
    | some tn =>
      match load heap tn with
      | .error f => .error f
      | .ok node =>
        match node.next with
        | none => .ok (hp1, heap.set tn (some { node with next := some n }))
        | some _ => push_loop hpn tail n fuel hp1 heap

/-- The member `push(t)`. -/
def push (fuel : Nat) (q : queue α) (t : α) : Except Fault (queue α) :=
  let r := q.__hp.reference
  let n := q.heap.length
  let heap1 := q.heap ++ [some { t := t, next := none }]
  match push_loop r.2 q.__tail n fuel r.1 heap1 with
  | .error f => .error f
  | .ok (hp1, heap2) =>
    .ok { __hp := hp1.dereference r.2
          __size := wrap_int (q.__size + 1)
          __head := q.__head
          __tail := some n
          heap := heap2 }

/-- The member `pop(t)`; `t` is the content of the out-parameter before the
call, and the result carries the returned flag and the content after it.
The compare-and-set of `__head` (line 75) expects the value loaded at line
67 and succeeds. -/
def pop (ord : IterationOrder) (q : queue α) (t : α) :
    Except Fault (queue α × Bool × α) :=
  let r := q.__hp.reference
  let hp1 := r.1.set r.2 (to_void q.__head)
  match q.__head with
  | none => .error .invalid_access
  | some hn =>
    match load q.heap hn with
    | .error f => .error f
    | .ok node =>
      match node.next with
      | none => .ok ({ q with __hp := hp1.dereference r.2 }, false, t)
      | some hnn =>
        let hp2 := hp1.set r.2 (to_void (some hnn))
        match load q.heap hnn with
        | .error f => .error f
        | .ok new_head =>
          let hp3 := hp2.dereference r.2
          let d := hp3.delete_ptr ord (to_void (some hn)) 0
          match run_deleters q.heap d.2 with
          | .error f => .error f
          | .ok heap1 =>
            .ok ({ __hp := d.1
                   __size := wrap_int (q.__size - 1)
                   __head := some hnn
                   __tail := q.__tail
                   heap := heap1 }, true, new_head.t)

/-- The loop of `contains` (lines 87-96), one node per unit of `fuel`. -/
def contains_loop [DecidableEq α] (hpn : Nat) (t : α) (heap : List (Option (queue_node α))) :
    Nat → hazard_pointer → Option Nat → Except Fault (hazard_pointer × Bool)
  | 0, _, _ => .error .no_progress
  | _ + 1, hp, none => .ok (hp, false)
  | fuel + 1, hp, some hn =>
    let hp1 := hp.set hpn (to_void (some hn))
    match load heap hn with
    | .error f => .error f
    | .ok node =>
      if node.t = t then .ok (hp1, true)
      else contains_loop hpn t heap fuel hp1 node.next

/-- The member `contains(t)`. -/
def contains [DecidableEq α] (fuel : Nat) (q : queue α) (t : α) :
    Except Fault (queue α × Bool) :=
  let r := q.__hp.reference
  match contains_loop r.2 t q.heap fuel r.1 q.__head with
  | .error f => .error f
  | .ok (hp1, rst) => .ok ({ q with __hp := hp1.dereference r.2 }, rst)

/-- The member `size()`. -/
def size (q : queue α) : Nat := to_size_t q.__size

/-- The member `empty()`. -/
def empty (q : queue α) : Except Fault Bool :=
  match q.__head with
  | none => .error .invalid_access
  | some hn =>
    match load q.heap hn with
    | .error f => .error f
    | .ok node => .ok node.next.isNone

end queue

/-! ## stack.h -/

/-- A stack node (`struct stack_node`). -/
structure stack_node (α : Type) where
  t : α
  next : Option Nat

/-- The class `stack<T>`, with the store of its nodes. -/
structure stack (α : Type) where
  __hp : hazard_pointer
  __size : Int
  __head : Option Nat
  heap : List (Option (stack_node α))

namespace stack

variable {α : Type}

/-- The constructor `stack()`. The source default-constructs `__hp`
(threshold 10000); `threshold` generalises that. -/
def new (threshold : Nat) : stack α where
  __hp := hazard_pointer.new threshold
  __size := 0
  __head := none
  heap := []

/-- The member `push(t)`. The compare-and-set of `__head` (line 49) expects
the value loaded at line 48 and succeeds. -/
def push (s : stack α) (t : α) : stack α :=
  { __hp := s.__hp
    __size := wrap_int (s.__size + 1)
    __head := some s.heap.length
    heap := s.heap ++ [some { t := t, next := s.__head }] }

/-- The member `pop(t)`; `t` is the content of the out-parameter before the
call, and the result carries the returned flag and the content after it.
The compare-and-set of `__head` (line 62) expects the value loaded at line
55 and succeeds. -/
def pop (ord : IterationOrder) (s : stack α) (t : α) :
    Except Fault (stack α × Bool × α) :=
  let r := s.__hp.reference
  let hp1 := r.1.set r.2 (to_void s.__head)
  match s.__head with
  | none => .ok ({ s with __hp := hp1.dereference r.2 }, false, t)
  | some hn =>
    match load s.heap hn with
    | .error f => .error f
    | .ok node =>
      let hp2 := hp1.dereference r.2
      let d := hp2.delete_ptr ord (to_void (some hn)) 0
      match run_deleters s.heap d.2 with
      | .error f => .error f
      | .ok heap1 =>
        .ok ({ __hp := d.1
               __size := wrap_int (s.__size - 1)
               __head := node.next
               heap := heap1 }, true, node.t)

/-- The member `size()`. -/
def size (s : stack α) : Nat := to_size_t s.__size

end stack

/-! ## Operation sequences -/

/-- A call on a container. -/
inductive container_op (α : Type) where
  | push (v : α)
  | pop

/-- Run a sequence of calls on a queue. `t` is the variable passed as the
out-parameter of every `pop`; the result lists, for each `pop`, the returned
flag and the content of `t` after the call. -/
def queue.run {α : Type} (fuel : Nat) (ord : IterationOrder) :
    List (container_op α) → queue α → α → Except Fault (queue α × List (Bool × α))
  | [], q, _ => .ok (q, [])
  | .push v :: ops, q, t =>
    match q.push fuel v with
    | .error f => .error f
    | .ok q1 => queue.run fuel ord ops q1 t
  | .pop :: ops, q, t =>
    match q.pop ord t with
    | .error f => .error f
    | .ok (q1, b, t1) =>
      match queue.run fuel ord ops q1 t1 with
      | .error f => .error f
      | .ok (q2, out) => .ok (q2, (b, t1) :: out)

/-- Run a sequence of calls on a stack, as `queue.run`. -/
def stack.run {α : Type} (ord : IterationOrder) :
    List (container_op α) → stack α → α → Except Fault (stack α × List (Bool × α))
  | [], s, _ => .ok (s, [])
  | .push v :: ops, s, t => stack.run ord ops (s.push v) t
  | .pop :: ops, s, t =>
    match s.pop ord t with
    | .error f => .error f
    | .ok (s1, b, t1) =>
      match stack.run ord ops s1 t1 with
      | .error f => .error f
      | .ok (s2, out) => .ok (s2, (b, t1) :: out)

/-- The reference FIFO, following the specification: values pushed and not
yet popped, oldest first; `pop` hands out the oldest, or reports false and
leaves `t` alone when there is none. -/
def fifo_run {α : Type} : List (container_op α) → List α → α → List (Bool × α)
  | [], _, _ => []
  | .push v :: ops, l, t => fifo_run ops (l ++ [v]) t
  | .pop :: ops, [], t => (false, t) :: fifo_run ops [] t
  | .pop :: ops, x :: l, _ => (true, x) :: fifo_run ops l x

/-- The reference LIFO, following the specification: values pushed and not
yet popped, most recent first; `pop` hands out the most recent, or reports
false and leaves `t` alone when there is none. -/
def lifo_run {α : Type} : List (container_op α) → List α → α → List (Bool × α)
  | [], _, _ => []
  | .push v :: ops, l, t => lifo_run ops (v :: l) t
  | .pop :: ops, [], t => (false, t) :: lifo_run ops [] t
  | .pop :: ops, x :: l, _ => (true, x) :: lifo_run ops l x

/-- A call on the reclamation domain: `reference()`, `set(ptr)` and
`dereference()` on the slot with handle `h`, `delete_ptr(ptr)`. -/
inductive domain_op where
  | reference
  | set (h : Nat) (ptr : Nat)
  | dereference (h : Nat)
  | delete_ptr (ptr : Nat) (deleter : Nat)
deriving DecidableEq

/-- A domain in use: its state, the handles given out by `reference` and not
yet given back by `dereference`, and the deleter calls made so far. -/
structure domain_run where
  hp : hazard_pointer
  held : List Nat
  calls : List hazard_pending_node

/-- One call on a domain in use. -/
def domain_step (ord : IterationOrder) (s : domain_run) : domain_op → domain_run
  | .reference =>
    let r := s.hp.reference
    { s with hp := r.1, held := r.2 :: s.held }
  | .set h ptr => { s with hp := s.hp.set h ptr }
  | .dereference h => { s with hp := s.hp.dereference h, held := s.held.erase h }
  | .delete_ptr ptr deleter =>
    let r := s.hp.delete_ptr ord ptr deleter
    { s with hp := r.1, calls := s.calls ++ r.2 }

/-- A sequence of calls on a fresh domain with the given threshold. -/
def domain_run.run (ord : IterationOrder) (threshold : Nat) (ops : List domain_op) :
    domain_run :=
  ops.foldl (domain_step ord)
    { hp := hazard_pointer.new threshold, held := [], calls := [] }

/-- The pointers passed to `delete_ptr` in a sequence of calls. -/
def retired_ptrs : List domain_op → List Nat
  | [] => []
  | .delete_ptr ptr _ :: ops => ptr :: retired_ptrs ops
  | _ :: ops => retired_ptrs ops

/-- Every deleter call of a domain's life: those made during the calls, then
those made by the destructor. -/
def lifetime_calls (ord : IterationOrder) (threshold : Nat) (ops : List domain_op) :
    List hazard_pending_node :=
  let s := domain_run.run ord threshold ops
  s.calls ++ s.hp.destroy.2

/-! ## Definitions used to state and prove the properties -/

/-- The non-null protected pointers of a slot list. -/
def protected_ptrs (slots : List hazard_node) : List Nat :=
  (slots.map (fun hn => hn.hazard_ptr)).filter (fun p => p ≠ 0)

/-- The locals at the end of the second loop of `check_threshold`. -/
def scan_result (hp : hazard_pointer) : hazard_pointer.scan_state :=
  hp.__pending_list.foldl hazard_pointer.scan_step
    { filter := hazard_pointer.collect_hazards hp.__head [], new_list_filter := [], calls := [] }

/-- What holds of the locals of the second loop of `check_threshold` after
the entries `done` have been walked, `H` being the protected pointers. -/
structure scan_inv (H : List Nat) (done : List hazard_pending_node)
    (s : hazard_pointer.scan_state) : Prop where
  filter_eq : ∀ p, map_find s.filter p =
    if p ∈ H then some false else if p ∈ s.calls.map (fun e => e.ptr) then some true else none
  calls_nodup : (s.calls.map (fun e => e.ptr)).Nodup
  calls_mem : ∀ p, p ∈ s.calls.map (fun e => e.ptr) ↔ p ∈ done.map (fun e => e.ptr) ∧ p ∉ H
  keys_nodup : (s.new_list_filter.map Prod.fst).Nodup
  keys_eq : ∀ kv ∈ s.new_list_filter, kv.2.ptr = kv.1
  keys_mem : ∀ p, p ∈ s.new_list_filter.map Prod.fst ↔ p ∈ done.map (fun e => e.ptr) ∧ p ∈ H
  subperm : (s.calls ++ s.new_list_filter.map Prod.snd).Subperm done

/-- Every handle in `held` names a slot whose `occupied` flag is set. -/
def held_occupied (slots : List hazard_node) (held : List Nat) : Prop :=
  ∀ h ∈ held, ∃ n, hazard_pointer.node_at slots h = some n ∧ n.occupied = true

/-- The handles held are pairwise distinct and each names an occupied slot. -/
def held_inv (s : domain_run) : Prop :=
  s.held.Nodup ∧ held_occupied s.hp.__head s.held

/-- Every slot is unoccupied and protects nothing: the state of the slot
list between two calls of a container on one thread. -/
def slots_idle (slots : List hazard_node) : Prop :=
  ∀ n ∈ slots, n = { occupied := false, hazard_ptr := 0 }

/-- The cell `a` of the store holds a node. -/
def live {γ : Type} (heap : List (Option γ)) (a : Nat) : Prop :=
  ∃ node, heap[a]? = some (some node)

/-- The retired list of a container: distinct pointers, each the address of
a node still in the store and none of them in `keep` (the nodes linked in
the container). -/
def pending_ok {γ : Type} (heap : List (Option γ)) (pending : List hazard_pending_node)
    (keep : List Nat) : Prop :=
  (pending.map (fun e => e.ptr)).Nodup ∧
  ∀ e ∈ pending, ∃ a, e.ptr = a + 1 ∧ live heap a ∧ a ∉ keep

/-- The nodes linked from `hd`, top first, with their addresses and values. -/
def stack_chain {α : Type} (heap : List (Option (stack_node α))) :
    Option Nat → List (Nat × α) → Prop
  | hd, [] => hd = none
  | hd, (a, v) :: rest =>
    hd = some a ∧ ∃ nxt, heap[a]? = some (some { t := v, next := nxt }) ∧
      stack_chain heap nxt rest

/-- The state of a stack between two calls on one thread: `c` lists the
linked nodes, top first. -/
structure stack_inv {α : Type} (s : stack α) (c : List (Nat × α)) : Prop where
  chain : stack_chain s.heap s.__head c
  nodup : (c.map Prod.fst).Nodup
  idle : slots_idle s.__hp.__head
  pending : pending_ok s.heap s.__hp.__pending_list (c.map Prod.fst)

/-- The nodes linked from the node at `a`, which holds `v`: `c` lists the
nodes after it with their addresses and values, and the last `next` is
null. -/
def queue_chain {α : Type} (heap : List (Option (queue_node α))) :
    Nat → α → List (Nat × α) → Prop
  | a, v, [] => heap[a]? = some (some { t := v, next := none })
  | a, v, (b, w) :: rest =>
    heap[a]? = some (some { t := v, next := some b }) ∧ queue_chain heap b w rest

/-- The address of the last node of a chain that starts at `a`. -/
def last_addr {α : Type} : Nat → List (Nat × α) → Nat
  | a, [] => a
  | _, (b, _) :: rest => last_addr b rest

/-- The state of a queue between two calls on one thread: the dummy node is
at `d` and holds `dv`, and `c` lists the nodes after it, oldest first. -/
structure queue_inv {α : Type} (q : queue α) (d : Nat) (dv : α) (c : List (Nat × α)) :
    Prop where
  head : q.__head = some d
  tail : q.__tail = some (last_addr d c)
  chain : queue_chain q.heap d dv c
  nodup : (d :: c.map Prod.fst).Nodup
  idle : slots_idle q.__hp.__head
  pending : pending_ok q.heap q.__hp.__pending_list (d :: c.map Prod.fst)

/-- A domain past its threshold (count 5, threshold 3): one slot protects
pointer 5, and the retired list holds 5 twice, 7 twice and 9. -/
def sample_domain : hazard_pointer where
  __size := 2
  __head := [{ occupied := true, hazard_ptr := 5 }, { occupied := false, hazard_ptr := 0 }]
  __pending_size := 5
  __threshold_of_clean_up := 3
  __pending_list :=
    [{ ptr := 5, deleter := 0 }, { ptr := 7, deleter := 0 }, { ptr := 7, deleter := 1 },
     { ptr := 5, deleter := 2 }, { ptr := 9, deleter := 0 }]

/-- A life of a domain: pointer 5 is protected while 5 and 7 are retired,
released before 9 is retired. -/
def sample_ops : List domain_op :=
  [.reference, .set 0 5, .delete_ptr 5 0, .delete_ptr 7 0, .dereference 0, .delete_ptr 9 0]

/-! ## Destructors, deleter calls and events of the containers -/

/-- The number of `push` calls in a sequence. -/
def pushes {α : Type} : List (container_op α) → Nat
  | [] => 0
  | .push _ :: ops => pushes ops + 1
  | .pop :: ops => pushes ops

/-- The number of `pop` calls that returned true, given what the pops of a
run returned. -/
def true_pops {α : Type} : List (Bool × α) → Nat
  | [] => 0
  | (true, _) :: out => true_pops out + 1
  | (false, _) :: out => true_pops out

/-- The deleter calls made by `stack::pop` (inside `__hp.delete_ptr(hn)`,
line 65), in order; none when `pop` returns false. -/
def stack.pop_calls {α : Type} (ord : IterationOrder) (s : stack α) :
    List hazard_pending_node :=
  let r := s.__hp.reference
  let hp1 := r.1.set r.2 (to_void s.__head)
  match s.__head with
  | none => []
  | some hn =>
    match load s.heap hn with
    | .error _ => []
    | .ok _ => ((hp1.dereference r.2).delete_ptr ord (to_void (some hn)) 0).2

/-- The deleter calls made during a sequence of calls on a stack, in order. -/
def stack.run_calls {α : Type} (ord : IterationOrder) :
    List (container_op α) → stack α → α → List hazard_pending_node
  | [], _, _ => []
  | .push v :: ops, s, t => stack.run_calls ord ops (s.push v) t
  | .pop :: ops, s, t =>
    match s.pop ord t with
    | .error _ => []
    | .ok (s1, _, t1) => s.pop_calls ord ++ stack.run_calls ord ops s1 t1

/-- The loop of `~stack()` (lines 31-41): `hn` equals `__head` on entry of
every iteration, so the compare-and-set succeeds, the node is deleted and
the walk goes on with its `next`. One node per unit of `fuel`. -/
def stack.destroy_loop {α : Type} :
    Nat → Option Nat → List (Option (stack_node α)) →
      Except Fault (List (Option (stack_node α)))
  | 0, _, _ => .error .no_progress
  | _ + 1, none, heap => .ok heap
  | fuel + 1, some hn, heap =>
    match load heap hn with
    | .error f => .error f
    | .ok node => stack.destroy_loop fuel node.next (heap.set hn none)

/-- The destruction of a stack: the body of `~stack()`, then the destructor
of the member `__hp`, whose deleter calls act on the node store. Returns the
store and the deleter calls of the domain's destructor. -/
def stack.destroy {α : Type} (fuel : Nat) (s : stack α) :
    Except Fault (List (Option (stack_node α)) × List hazard_pending_node) :=
  match stack.destroy_loop fuel s.__head s.heap with
  | .error f => .error f
  | .ok heap1 =>
    match run_deleters heap1 s.__hp.destroy.2 with
    | .error f => .error f
    | .ok heap2 => .ok (heap2, s.__hp.destroy.2)

/-- The life of a stack: constructed, used on one thread, destroyed. Returns
every deleter call made, in order. -/
def stack.lifetime_calls {α : Type} (fuel : Nat) (ord : IterationOrder) (threshold : Nat)
    (ops : List (container_op α)) (t : α) : Except Fault (List hazard_pending_node) :=
  match stack.run ord ops (stack.new threshold) t with
  | .error f => .error f
  | .ok (s1, _) =>
    match s1.destroy fuel with
    | .error f => .error f
    | .ok (_, calls) => .ok (stack.run_calls ord ops (stack.new threshold) t ++ calls)

/-- Whether a call of `delete_ptr` in state `hp` starts a scan: it reaches
`check_threshold` (the slot list is not empty) with a count, just
incremented, that passes the check of line 69. -/
def delete_ptr_scans (hp : hazard_pointer) : Nat :=
  match hp.__head with
  | [] => 0
  | _ :: _ => if hp.__pending_size + 1 < hp.__threshold_of_clean_up then 0 else 1

/-- The number of scans started by a sequence of calls on a domain in use. -/
def scans_initiated (ord : IterationOrder) : List domain_op → domain_run → Nat
  | [], _ => 0
  | .delete_ptr ptr deleter :: ops, s =>
    delete_ptr_scans s.hp +
      scans_initiated ord ops (domain_step ord s (.delete_ptr ptr deleter))
  | op :: ops, s => scans_initiated ord ops (domain_step ord s op)

/-- What a `pop` does to the popped node and to its hazard slot, in program
order. -/
inductive pop_event where
  | protect (ptr : Nat)
  | read_next (a : Nat)
  | cas_head
  | release
  | read_value (a : Nat)
  | retire (ptr : Nat)
deriving DecidableEq

/-- The events of `stack::pop` (lines 54-67) in program order: `set(hn)` (57),
`hn->next` and the compare-and-set (62), `dereference()` (63), `t = hn->t`
(64), `delete_ptr(hn)` (65); on an empty stack `set(hn)` (57) and
`dereference()` (59). -/
def stack.pop_events {α : Type} (s : stack α) : List pop_event :=
  match s.__head with
  | none => [.protect 0, .release]
  | some hn =>
    [.protect (to_void (some hn)), .read_next hn, .cas_head, .release, .read_value hn,
      .retire (to_void (some hn))]

/-- The events of `queue::pop` (lines 64-80) in program order, `hnn` being
the `next` of the head node: `set(hn)` (68), `hn->next` (69), `set(hnn)`
(74), the compare-and-set (75), `t = hnn->t` (76), `dereference()` (77),
`delete_ptr(hn)` (78); on an empty queue `set(hn)`, `hn->next` and
`dereference()` (71). -/
def queue.pop_events {α : Type} (q : queue α) : List pop_event :=
  match q.__head with
  | none => []
  | some hn =>
    match load q.heap hn with
    | .error _ => [.protect (to_void (some hn)), .read_next hn]
    | .ok node =>
      match node.next with
      | none => [.protect (to_void (some hn)), .read_next hn, .release]
      | some hnn =>
        [.protect (to_void (some hn)), .read_next hn, .protect (to_void (some hnn)),
          .cas_head, .read_value hnn, .release, .retire (to_void (some hn))]

/-- The deleter calls made so far in the life of a container: together with
the retired list they name distinct pointers, and each call freed a cell of
the store. -/
def calls_inv {γ : Type} (heap : List (Option γ)) (pending calls : List hazard_pending_node) :
    Prop :=
  ((calls ++ pending).map (fun e => e.ptr)).Nodup ∧
  ∀ e ∈ calls, ∃ a, e.ptr = a + 1 ∧ heap[a]? = some none

/-! ## Two threads calling `stack::pop`

The calls of two threads are interleaved line by line: a thread keeps its
place in `stack::pop` and its locals, and a step runs the next line of one
thread on the shared stack. Every shared access of the source is a
sequentially consistent atomic or a plain read of a node, so each line is
one step; `reference()` and `delete_ptr()` run as one step each. -/

/-- The line of `stack::pop` (stack.h) a thread is about to run. -/
inductive pop_pc where
  | l54
  | l55
  | l57
  | l58
  | l59
  | l62
  | l63
  | l64
  | l65
  | l66
deriving DecidableEq

/-- A thread that calls `stack::pop` again and again: the line it is at, its
locals `hazard_node` and `hn`, its out-parameter `t`, and what its finished
calls returned. -/
structure pop_thread (α : Type) where
  pc : pop_pc
  hazard_node : Nat
  hn : Option Nat
  t : α
  returned : List (Bool × α)

/-- A thread about to call `pop(t)` for the first time. -/
def pop_thread.init {α : Type} (t : α) : pop_thread α where
  pc := .l54
  hazard_node := 0
  hn := none
  t := t
  returned := []

/-- One line of `stack::pop` run by the thread `th` on the shared stack `s`:
line 54 `reference()`, 55 `hn = __head.load()`, 57 `set(hn)`, 58 the test of
`hn`, 59-60 `dereference()` and `return false`, 62 the read of `hn->next` and
the compare-and-set of `__head` (on failure `hn` takes the current head and
the loop goes back to 57), 63 `dereference()`, 64 `t = hn->t`, 65
`delete_ptr(hn)`, 66-67 `--__size` and `return true`. -/
def stack.pop_step {α : Type} (ord : IterationOrder) (s : stack α) (th : pop_thread α) :
    Except Fault (stack α × pop_thread α) :=
  match th.pc with
  | .l54 =>
    let r := s.__hp.reference
    .ok ({ s with __hp := r.1 }, { th with pc := .l55, hazard_node := r.2 })
  | .l55 => .ok (s, { th with pc := .l57, hn := s.__head })
  | .l57 =>
    .ok ({ s with __hp := s.__hp.set th.hazard_node (to_void th.hn) }, { th with pc := .l58 })
  | .l58 =>
    match th.hn with
    | none => .ok (s, { th with pc := .l59 })
    | some _ => .ok (s, { th with pc := .l62 })
  | .l59 =>
    .ok ({ s with __hp := s.__hp.dereference th.hazard_node },
      { th with pc := .l54, returned := th.returned ++ [(false, th.t)] })
  | .l62 =>
    match th.hn with
    | none => .error .invalid_access
    | some hn =>
      match load s.heap hn with
      | .error f => .error f
      | .ok node =>
        if s.__head = th.hn then .ok ({ s with __head := node.next }, { th with pc := .l63 })
        else .ok (s, { th with pc := .l57, hn := s.__head })
  | .l63 =>
    .ok ({ s with __hp := s.__hp.dereference th.hazard_node }, { th with pc := .l64 })
  | .l64 =>
    match th.hn with
    | none => .error .invalid_access
    | some hn =>
      match load s.heap hn with
      | .error f => .error f
      | .ok node => .ok (s, { th with pc := .l65, t := node.t })
  | .l65 =>
    let d := s.__hp.delete_ptr ord (to_void th.hn) 0
    match run_deleters s.heap d.2 with
    | .error f => .error f
    | .ok heap1 => .ok ({ s with __hp := d.1, heap := heap1 }, { th with pc := .l66 })
  | .l66 =>
    .ok ({ s with __size := wrap_int (s.__size - 1) },
      { th with pc := .l54, returned := th.returned ++ [(true, th.t)] })

/-- The two threads. -/
inductive thread_id where
  | A
  | B
deriving DecidableEq

/-- A stack shared by two threads that call `pop`. -/
structure pop_system (α : Type) where
  shared : stack α
  a : pop_thread α
  b : pop_thread α

/-- Both threads about to call `pop` on the stack `s`. -/
def pop_system.init {α : Type} (s : stack α) (t : α) : pop_system α where
  shared := s
  a := pop_thread.init t
  b := pop_thread.init t

/-- The thread `id` runs its next line. -/
def pop_system.step {α : Type} (ord : IterationOrder) (sys : pop_system α) :
    thread_id → Except Fault (pop_system α)
  | .A =>
    match sys.shared.pop_step ord sys.a with
    | .error f => .error f
    | .ok (s1, th) => .ok { sys with shared := s1, a := th }
  | .B =>
    match sys.shared.pop_step ord sys.b with
    | .error f => .error f
    | .ok (s1, th) => .ok { sys with shared := s1, b := th }

/-- A schedule: the threads run their lines in the listed order. -/
def pop_system.run {α : Type} (ord : IterationOrder) :
    List thread_id → pop_system α → Except Fault (pop_system α)
  | [], sys => .ok sys
  | id :: schedule, sys =>
    match sys.step ord id with
    | .error f => .error f
    | .ok sys1 => pop_system.run ord schedule sys1

/-- No slot protects a pointer. -/
def slots_clear (slots : List hazard_node) : Prop :=
  ∀ n ∈ slots, n.hazard_ptr = 0

/-- The state of a stack shared by threads none of which protects a pointer
at the moment: as `stack_inv`, but slots may be occupied. -/
structure stack_inv_clear {α : Type} (s : stack α) (c : List (Nat × α)) : Prop where
  chain : stack_chain s.heap s.__head c
  nodup : (c.map Prod.fst).Nodup
  clear : slots_clear s.__hp.__head
  pending : pending_ok s.heap s.__hp.__pending_list (c.map Prod.fst)

/-! ## Lemmas on the reclamation domain -/

open hazard_pointer

theorem map_find_assign {β : Type} (m : List (Nat × β)) (k : Nat) (v : β) (p : Nat) :
    map_find (map_assign m k v) p = if p = k then some v else map_find m p := by
  induction m with
  | nil => simp [map_assign, map_find]
  | cons kv m ih =>
    obtain ⟨k1, w⟩ := kv
    by_cases h : k = k1
    · subst h
      by_cases hp : p = k <;> simp [map_assign, map_find, hp]
    · by_cases hp : p = k
      · subst hp
        simp [map_assign, map_find, h, ih]
      · have h1 : ¬ k1 = k := fun e => h e.symm
        by_cases hp1 : p = k1 <;> simp [map_assign, map_find, h, h1, hp, hp1, ih]

theorem map_find_eq_none {β : Type} (m : List (Nat × β)) (p : Nat) :
    map_find m p = none ↔ p ∉ m.map Prod.fst := by
  induction m with
  | nil => simp [map_find]
  | cons kv m ih =>
    obtain ⟨k1, w⟩ := kv
    by_cases hp : p = k1 <;> simp [map_find, hp, ih]

theorem map_find_collect_hazards (slots : List hazard_node) (f : List (Nat × Bool)) (p : Nat) :
    map_find (collect_hazards slots f) p =
      if p ∈ protected_ptrs slots then some false else map_find f p := by
  induction slots generalizing f with
  | nil => simp [collect_hazards, protected_ptrs]
  | cons hn rest ih =>
    unfold collect_hazards
    by_cases h0 : hn.hazard_ptr = 0
    · rw [if_pos h0, ih]
      have : p ∈ protected_ptrs (hn :: rest) ↔ p ∈ protected_ptrs rest := by
        simp only [protected_ptrs, List.map_cons, List.mem_filter, List.mem_cons, h0]
        constructor
        · rintro ⟨h1 | h1, h2⟩
          · subst h1; simp at h2
          · exact ⟨h1, h2⟩
        · rintro ⟨h1, h2⟩
          exact ⟨Or.inr h1, h2⟩
      simp only [this]
    · rw [if_neg h0, ih, map_find_assign]
      have : p ∈ protected_ptrs (hn :: rest) ↔ (p = hn.hazard_ptr ∨ p ∈ protected_ptrs rest) := by
        simp only [protected_ptrs, List.map_cons, List.mem_filter, List.mem_cons]
        constructor
        · rintro ⟨h1 | h1, h2⟩
          · exact Or.inl h1
          · exact Or.inr ⟨h1, h2⟩
        · rintro (h1 | ⟨h1, h2⟩)
          · subst h1; exact ⟨Or.inl rfl, by simpa using h0⟩
          · exact ⟨Or.inr h1, h2⟩
      simp only [this]
      by_cases h1 : p ∈ protected_ptrs rest
      · simp [h1]
      · by_cases h2 : p = hn.hazard_ptr <;> simp [h1, h2]

theorem scan_step_freed (s : scan_state) (e : hazard_pending_node)
    (h : map_find s.filter e.ptr = some true) : scan_step s e = s := by
  simp [scan_step, h]

theorem scan_step_free (s : scan_state) (e : hazard_pending_node)
    (h : map_find s.filter e.ptr = none) :
    scan_step s e =
      { s with filter := map_assign s.filter e.ptr true, calls := s.calls ++ [e] } := by
  simp [scan_step, h]

theorem scan_step_keep (s : scan_state) (e : hazard_pending_node)
    (h : map_find s.filter e.ptr = some false)
    (hk : e.ptr ∉ s.new_list_filter.map Prod.fst) :
    scan_step s e = { s with new_list_filter := s.new_list_filter ++ [(e.ptr, e)] } := by
  have hn := (map_find_eq_none s.new_list_filter e.ptr).2 hk
  simp [scan_step, h, map_insert, hn]

theorem scan_step_duplicate (s : scan_state) (e : hazard_pending_node)
    (h : map_find s.filter e.ptr = some false)
    (hk : e.ptr ∈ s.new_list_filter.map Prod.fst) :
    scan_step s e = s := by
  have hn : map_find s.new_list_filter e.ptr ≠ none :=
    fun c => (map_find_eq_none s.new_list_filter e.ptr).1 c hk
  obtain ⟨v, hv⟩ := Option.ne_none_iff_exists'.1 hn
  simp [scan_step, h, map_insert, hv]

theorem scan_inv_unchanged {H : List Nat} {done : List hazard_pending_node} {s : scan_state}
    (e : hazard_pending_node) (h : scan_inv H done s)
    (hcase : (e.ptr ∉ H ∧ e.ptr ∈ s.calls.map (fun e => e.ptr)) ∨
      (e.ptr ∈ H ∧ e.ptr ∈ s.new_list_filter.map Prod.fst)) :
    scan_inv H (done ++ [e]) s where
  filter_eq := h.filter_eq
  calls_nodup := h.calls_nodup
  calls_mem := by
    intro p
    rw [h.calls_mem p]
    simp only [List.map_append, List.mem_append, List.map_cons, List.map_nil, List.mem_singleton]
    constructor
    · rintro ⟨h1, h2⟩
      exact ⟨Or.inl h1, h2⟩
    · rintro ⟨h1 | h1, h2⟩
      · exact ⟨h1, h2⟩
      · subst h1
        rcases hcase with ⟨_, hc⟩ | ⟨hH, _⟩
        · exact ⟨((h.calls_mem _).1 hc).1, h2⟩
        · exact absurd hH h2
  keys_nodup := h.keys_nodup
  keys_eq := h.keys_eq
  keys_mem := by
    intro p
    rw [h.keys_mem p]
    simp only [List.map_append, List.mem_append, List.map_cons, List.map_nil, List.mem_singleton]
    constructor
    · rintro ⟨h1, h2⟩
      exact ⟨Or.inl h1, h2⟩
    · rintro ⟨h1 | h1, h2⟩
      · exact ⟨h1, h2⟩
      · subst h1
        rcases hcase with ⟨hH, _⟩ | ⟨_, hk⟩
        · exact absurd h2 hH
        · exact ⟨((h.keys_mem _).1 hk).1, h2⟩
  subperm := h.subperm.trans (List.sublist_append_left done [e]).subperm

theorem scan_inv_step {H : List Nat} {done : List hazard_pending_node} {s : scan_state}
    (e : hazard_pending_node) (h : scan_inv H done s) :
    scan_inv H (done ++ [e]) (scan_step s e) := by
  have hf := h.filter_eq e.ptr
  by_cases hH : e.ptr ∈ H
  · rw [if_pos hH] at hf
    by_cases hk : e.ptr ∈ s.new_list_filter.map Prod.fst
    · rw [scan_step_duplicate s e hf hk]
      exact scan_inv_unchanged e h (Or.inr ⟨hH, hk⟩)
    · rw [scan_step_keep s e hf hk]
      refine ⟨h.filter_eq, h.calls_nodup, ?_, ?_, ?_, ?_, ?_⟩
      · intro p
        rw [h.calls_mem p]
        simp only [List.map_append, List.mem_append, List.map_cons, List.map_nil,
          List.mem_singleton]
        constructor
        · rintro ⟨h1, h2⟩
          exact ⟨Or.inl h1, h2⟩
        · rintro ⟨h1 | h1, h2⟩
          · exact ⟨h1, h2⟩
          · subst h1
            exact absurd hH h2
      · simp only [List.map_append, List.map_cons, List.map_nil]
        exact List.Nodup.append h.keys_nodup (List.nodup_singleton _)
          (by
            intro a ha hb
            rw [List.mem_singleton] at hb
            subst hb
            exact hk ha)
      · intro kv hkv
        simp only [List.mem_append, List.mem_singleton] at hkv
        rcases hkv with hkv | hkv
        · exact h.keys_eq kv hkv
        · subst hkv; rfl
      · intro p
        simp only [List.map_append, List.mem_append, List.map_cons, List.map_nil,
          List.mem_singleton]
        rw [h.keys_mem p]
        constructor
        · rintro (⟨h1, h2⟩ | h1)
          · exact ⟨Or.inl h1, h2⟩
          · subst h1; exact ⟨Or.inr rfl, hH⟩
        · rintro ⟨h1 | h1, h2⟩
          · exact Or.inl ⟨h1, h2⟩
          · exact Or.inr h1
      · simp only [List.map_append, List.map_cons, List.map_nil]
        rw [← List.append_assoc]
        exact (List.subperm_append_right [e]).2 h.subperm
  · rw [if_neg hH] at hf
    by_cases hc : e.ptr ∈ s.calls.map (fun e => e.ptr)
    · rw [if_pos hc] at hf
      rw [scan_step_freed s e hf]
      exact scan_inv_unchanged e h (Or.inl ⟨hH, hc⟩)
    · rw [if_neg hc] at hf
      rw [scan_step_free s e hf]
      refine ⟨?_, ?_, ?_, h.keys_nodup, h.keys_eq, ?_, ?_⟩
      · intro p
        simp only [map_find_assign, h.filter_eq p, List.map_append, List.mem_append,
          List.map_cons, List.map_nil, List.mem_singleton]
        by_cases hp : p = e.ptr
        · subst hp; simp [hH]
        · simp [hp]
      · simp only [List.map_append, List.map_cons, List.map_nil]
        exact List.Nodup.append h.calls_nodup (List.nodup_singleton _)
          (by
            intro a ha hb
            rw [List.mem_singleton] at hb
            subst hb
            exact hc ha)
      · intro p
        simp only [List.map_append, List.mem_append, List.map_cons, List.map_nil,
          List.mem_singleton]
        rw [h.calls_mem p]
        constructor
        · rintro (⟨h1, h2⟩ | h1)
          · exact ⟨Or.inl h1, h2⟩
          · subst h1; exact ⟨Or.inr rfl, hH⟩
        · rintro ⟨h1 | h1, h2⟩
          · exact Or.inl ⟨h1, h2⟩
          · exact Or.inr h1
      · intro p
        rw [h.keys_mem p]
        simp only [List.map_append, List.mem_append, List.map_cons, List.map_nil,
          List.mem_singleton]
        constructor
        · rintro ⟨h1, h2⟩
          exact ⟨Or.inl h1, h2⟩
        · rintro ⟨h1 | h1, h2⟩
          · exact ⟨h1, h2⟩
          · subst h1
            exact absurd h2 hH
      · have hp : (s.calls ++ [e] ++ s.new_list_filter.map Prod.snd).Perm
            ((s.calls ++ s.new_list_filter.map Prod.snd) ++ [e]) := by
          rw [List.append_assoc, List.append_assoc]
          exact List.Perm.append_left _ List.perm_append_comm
        exact hp.subperm.trans ((List.subperm_append_right [e]).2 h.subperm)

theorem scan_inv_foldl {H : List Nat} (l : List hazard_pending_node) :
    ∀ {done : List hazard_pending_node} {s : scan_state}, scan_inv H done s →
      scan_inv H (done ++ l) (l.foldl scan_step s) := by
  induction l with
  | nil => intro done s h; simpa using h
  | cons e l ih =>
    intro done s h
    have := ih (scan_inv_step e h)
    simpa [List.append_assoc] using this

theorem scan_inv_init (slots : List hazard_node) :
    scan_inv (protected_ptrs slots) []
      { filter := collect_hazards slots [], new_list_filter := [], calls := [] } where
  filter_eq := by
    intro p
    simp [map_find_collect_hazards, map_find]
  calls_nodup := by simp
  calls_mem := by simp
  keys_nodup := by simp
  keys_eq := by simp
  keys_mem := by simp
  subperm := by simp

theorem scan_result_inv (hp : hazard_pointer) :
    scan_inv (protected_ptrs hp.__head) hp.__pending_list (scan_result hp) := by
  have := scan_inv_foldl hp.__pending_list (scan_inv_init hp.__head)
  simpa [scan_result] using this

theorem link_survivors_eq (l : List (Nat × hazard_pending_node)) :
    link_survivors l = (l.map Prod.snd).reverse := by
  have key : ∀ (l : List (Nat × hazard_pending_node)) (acc : List hazard_pending_node),
      l.foldl (fun new_list it => it.2 :: new_list) acc = (l.map Prod.snd).reverse ++ acc := by
    intro l
    induction l with
    | nil => intro acc; simp
    | cons a l ih => intro acc; simp [ih]
  simpa [link_survivors] using key l []

theorem check_threshold_eq (ord : IterationOrder) (hp : hazard_pointer)
    (h : hp.__threshold_of_clean_up ≤ hp.__pending_size) :
    check_threshold ord hp =
      ({ hp with
          __pending_size := 0,
          __pending_list := link_survivors (ord.arrange (scan_result hp).new_list_filter) },
        (scan_result hp).calls) := by
  unfold check_threshold
  rw [if_neg (Nat.not_lt.2 h)]
  have harr : ∀ l : List (Nat × hazard_pending_node), l.length = 0 →
      link_survivors (ord.arrange l) = [] := by
    intro l hl
    have h0 : l = [] := List.length_eq_zero.1 hl
    subst h0
    have h1 : ord.arrange [] = [] := List.Perm.eq_nil (ord.perm [])
    rw [h1]
    rfl
  cases hl : hp.__pending_list with
  | nil =>
    have h1 : (scan_result hp).new_list_filter = [] := by simp [scan_result, hl]
    have h2 : (scan_result hp).calls = [] := by simp [scan_result, hl]
    simp only [h1, h2]
    rw [harr [] rfl]
  | cons e rest =>
    have hs : (e :: rest).foldl scan_step
        { filter := collect_hazards hp.__head [], new_list_filter := [], calls := [] } =
        scan_result hp := by
      simp [scan_result, hl]
    simp only [hs]
    by_cases hlen : (scan_result hp).new_list_filter.length > 0
    · rw [if_pos hlen]
    · rw [if_neg hlen]
      rw [harr _ (by omega)]

theorem link_survivors_perm (ord : IterationOrder) (l : List (Nat × hazard_pending_node)) :
    (link_survivors (ord.arrange l)).Perm (l.map Prod.snd) := by
  rw [link_survivors_eq]
  exact (List.reverse_perm _).trans ((ord.perm l).map Prod.snd)

theorem map_ptr_snd (s : scan_state) (h : ∀ kv ∈ s.new_list_filter, kv.2.ptr = kv.1) :
    (s.new_list_filter.map Prod.snd).map (fun e => e.ptr) = s.new_list_filter.map Prod.fst := by
  rw [List.map_map]
  apply List.map_congr_left
  intro kv hkv
  exact h kv hkv

theorem check_threshold_subperm (ord : IterationOrder) (hp : hazard_pointer) :
    ((check_threshold ord hp).2 ++ (check_threshold ord hp).1.__pending_list).Subperm
      hp.__pending_list := by
  by_cases h : hp.__threshold_of_clean_up ≤ hp.__pending_size
  · rw [check_threshold_eq ord hp h]
    have hi := scan_result_inv hp
    exact ((link_survivors_perm ord _).append_left _).subperm.trans hi.subperm
  · have : check_threshold ord hp = (hp, []) := by
      unfold check_threshold
      rw [if_pos (by omega)]
    rw [this]
    exact (List.Perm.refl _).subperm

theorem subperm_map {α β : Type} (f : α → β) {l₁ l₂ : List α} (h : l₁.Subperm l₂) :
    (l₁.map f).Subperm (l₂.map f) := by
  obtain ⟨l, hp, hs⟩ := h
  exact ⟨l.map f, hp.map f, hs.map f⟩

theorem check_threshold_head (ord : IterationOrder) (hp : hazard_pointer) :
    (check_threshold ord hp).1.__head = hp.__head := by
  by_cases h : hp.__threshold_of_clean_up ≤ hp.__pending_size
  · rw [check_threshold_eq ord hp h]
  · have : check_threshold ord hp = (hp, []) := by
      unfold check_threshold
      rw [if_pos (by omega)]
    rw [this]

theorem delete_ptr_head (ord : IterationOrder) (hp : hazard_pointer) (p d : Nat) :
    (hp.delete_ptr ord p d).1.__head = hp.__head := by
  unfold delete_ptr
  cases hh : hp.__head with
  | nil => simp [hh]
  | cons n rest => simp [check_threshold_head, hh]

theorem delete_ptr_subperm (ord : IterationOrder) (hp : hazard_pointer) (p d : Nat) :
    ((hp.delete_ptr ord p d).2 ++ (hp.delete_ptr ord p d).1.__pending_list).Subperm
      ({ ptr := p, deleter := d } :: hp.__pending_list) := by
  unfold delete_ptr
  cases hh : hp.__head with
  | nil => exact (List.sublist_cons_self _ _).subperm
  | cons n rest => exact check_threshold_subperm ord _

theorem clear_forcely_foldl_sublist (l : List hazard_pending_node) :
    ∀ s : List Nat × List hazard_pending_node,
      ∃ m, m.Sublist l ∧ (l.foldl clear_forcely_step s).2 = s.2 ++ m := by
  induction l with
  | nil => intro s; exact ⟨[], List.Sublist.refl _, by simp⟩
  | cons e l ih =>
    intro s
    obtain ⟨m, hm, heq⟩ := ih (clear_forcely_step s e)
    rw [List.foldl_cons, heq]
    unfold clear_forcely_step
    by_cases hmem : e.ptr ∈ s.1
    · rw [if_pos hmem]
      exact ⟨m, hm.cons e, rfl⟩
    · rw [if_neg hmem]
      exact ⟨e :: m, hm.cons₂ e, by simp⟩

theorem destroy_calls_sublist (hp : hazard_pointer) :
    hp.destroy.2.Sublist hp.__pending_list := by
  unfold destroy clear_forcely
  cases hl : hp.__pending_list with
  | nil => simp
  | cons e rest =>
    obtain ⟨m, hm, heq⟩ := clear_forcely_foldl_sublist (e :: rest) ([], [])
    simp only [heq, List.nil_append]
    exact hm

theorem domain_step_subperm (ord : IterationOrder) (s : domain_run) (op : domain_op)
    (R : List Nat)
    (h : ((s.calls ++ s.hp.__pending_list).map (fun e => e.ptr)).Subperm R) :
    (((domain_step ord s op).calls ++ (domain_step ord s op).hp.__pending_list).map
      (fun e => e.ptr)).Subperm (R ++ retired_ptrs [op]) := by
  cases op with
  | reference =>
    have : (s.hp.reference).1.__pending_list = s.hp.__pending_list := by
      unfold reference
      cases claim_idle s.hp.__head with
      | none => rfl
      | some r => rfl
    simpa [domain_step, retired_ptrs, this] using h
  | set hd p => simpa [domain_step, retired_ptrs, hazard_pointer.set] using h
  | dereference hd => simpa [domain_step, retired_ptrs, hazard_pointer.dereference] using h
  | delete_ptr p d =>
    simp only [domain_step, retired_ptrs]
    have h1 := delete_ptr_subperm ord s.hp p d
    have h2 : (s.calls ++ (s.hp.delete_ptr ord p d).2 ++
        (s.hp.delete_ptr ord p d).1.__pending_list).Subperm
        (s.calls ++ ({ ptr := p, deleter := d } :: s.hp.__pending_list)) := by
      rw [List.append_assoc]
      exact (List.subperm_append_left _).2 h1
    have h3 := subperm_map (fun e => e.ptr) h2
    refine h3.trans ?_
    have h4 : ((s.calls ++ ({ ptr := p, deleter := d } :: s.hp.__pending_list)).map
        (fun e => e.ptr)).Perm
        ((s.calls ++ s.hp.__pending_list).map (fun e => e.ptr) ++ [p]) := by
      simp only [List.map_append, List.map_cons, List.append_assoc]
      exact List.Perm.append_left _ (@List.perm_append_comm _ [p] _)
    exact h4.subperm.trans ((List.subperm_append_right [p]).2 h)

theorem retired_ptrs_cons (op : domain_op) (ops : List domain_op) :
    retired_ptrs (op :: ops) = retired_ptrs [op] ++ retired_ptrs ops := by
  cases op <;> simp [retired_ptrs]

theorem domain_foldl_subperm (ord : IterationOrder) (ops : List domain_op) :
    ∀ (s : domain_run) (R : List Nat),
      ((s.calls ++ s.hp.__pending_list).map (fun e => e.ptr)).Subperm R →
      ((((ops.foldl (domain_step ord) s).calls ++
        (ops.foldl (domain_step ord) s).hp.__pending_list).map
          (fun e => e.ptr)).Subperm (R ++ retired_ptrs ops)) := by
  induction ops with
  | nil => intro s R h; simpa [retired_ptrs] using h
  | cons op ops ih =>
    intro s R h
    have := ih _ _ (domain_step_subperm ord s op R h)
    rw [retired_ptrs_cons op ops, ← List.append_assoc]
    exact this

theorem lifetime_calls_subperm (ord : IterationOrder) (threshold : Nat)
    (ops : List domain_op) :
    ((lifetime_calls ord threshold ops).map (fun e => e.ptr)).Subperm (retired_ptrs ops) := by
  have h := domain_foldl_subperm ord ops
    { hp := hazard_pointer.new threshold, held := [], calls := [] } []
    (by simp [hazard_pointer.new])
  simp only [List.nil_append] at h
  refine List.Subperm.trans ?_ h
  unfold lifetime_calls domain_run.run
  exact subperm_map _ ((List.subperm_append_left _).2 (destroy_calls_sublist _).subperm)

theorem node_at_lt {l : List hazard_node} {h : Nat} {n : hazard_node}
    (hn : node_at l h = some n) : h < l.length := by
  induction l with
  | nil => simp [node_at] at hn
  | cons a rest ih =>
    unfold node_at at hn
    by_cases hh : h = rest.length
    · subst hh; simp
    · rw [if_neg hh] at hn
      have := ih hn
      simp only [List.length_cons]
      omega

theorem update_node_length (f : hazard_node → hazard_node) (l : List hazard_node) (h : Nat) :
    (update_node f l h).length = l.length := by
  induction l with
  | nil => rfl
  | cons a rest ih =>
    unfold update_node
    by_cases hh : h = rest.length
    · rw [if_pos hh]; simp
    · rw [if_neg hh]; simp [ih]

theorem node_at_update_node (f : hazard_node → hazard_node) (l : List hazard_node)
    (h k : Nat) :
    node_at (update_node f l h) k =
      if k = h then (node_at l k).map f else node_at l k := by
  induction l with
  | nil => simp [update_node, node_at]
  | cons a rest ih =>
    unfold update_node
    by_cases hh : h = rest.length
    · rw [if_pos hh]
      by_cases hk : k = rest.length
      · simp [node_at, hk, hh]
      · have : ¬ k = h := by rw [hh]; exact hk
        simp [node_at, hk, this]
    · rw [if_neg hh]
      by_cases hk : k = rest.length
      · subst hk
        have : ¬ rest.length = h := fun e => hh e.symm
        simp [node_at, this, update_node_length]
      · simp [node_at, hk, update_node_length, ih]

theorem node_at_mem {l : List hazard_node} {h : Nat} {n : hazard_node}
    (hn : node_at l h = some n) : n ∈ l := by
  induction l with
  | nil => simp [node_at] at hn
  | cons a rest ih =>
    unfold node_at at hn
    by_cases hh : h = rest.length
    · rw [if_pos hh] at hn
      simp only [Option.some.injEq] at hn
      subst hn
      exact List.mem_cons_self _ _
    · rw [if_neg hh] at hn
      exact List.mem_cons_of_mem _ (ih hn)

theorem claim_idle_none {l : List hazard_node} (h : claim_idle l = none) :
    ∀ n ∈ l, n.occupied = true := by
  induction l with
  | nil => simp
  | cons a rest ih =>
    unfold claim_idle at h
    by_cases ha : a.occupied = false
    · rw [if_pos ha] at h; simp at h
    · rw [if_neg ha] at h
      cases hc : claim_idle rest with
      | none =>
        intro n hn
        rcases List.mem_cons.1 hn with h1 | h1
        · subst h1; simpa using ha
        · exact ih hc n h1
      | some r => rw [hc] at h; simp at h

theorem claim_idle_some {l : List hazard_node} {h : Nat} {l1 : List hazard_node}
    (hc : claim_idle l = some (h, l1)) :
    (∃ n, node_at l h = some n ∧ n.occupied = false) ∧
      l1 = update_node (fun n => { n with occupied := true }) l h := by
  induction l generalizing h l1 with
  | nil => simp [claim_idle] at hc
  | cons a rest ih =>
    unfold claim_idle at hc
    by_cases ha : a.occupied = false
    · rw [if_pos ha] at hc
      simp only [Option.some.injEq, Prod.mk.injEq] at hc
      obtain ⟨h1, h2⟩ := hc
      subst h1
      subst h2
      exact ⟨⟨a, by simp [node_at], ha⟩, by simp [update_node]⟩
    · rw [if_neg ha] at hc
      cases hr : claim_idle rest with
      | none => rw [hr] at hc; simp at hc
      | some r =>
        obtain ⟨h2, rest1⟩ := r
        rw [hr] at hc
        simp only [Option.some.injEq, Prod.mk.injEq] at hc
        obtain ⟨h1, h3⟩ := hc
        subst h1
        subst h3
        obtain ⟨⟨n, hn, hocc⟩, hupd⟩ := ih hr
        have hlt := node_at_lt hn
        have hne : ¬ h2 = rest.length := by omega
        exact ⟨⟨n, by simp [node_at, hne, hn], hocc⟩, by simp [update_node, hne, hupd]⟩

theorem reference_fresh (hp : hazard_pointer) (held : List Nat)
    (hocc : held_occupied hp.__head held) :
    hp.reference.2 ∉ held ∧ held_occupied hp.reference.1.__head (hp.reference.2 :: held) := by
  unfold reference
  cases hc : claim_idle hp.__head with
  | none =>
    simp only
    have hnot : hp.__head.length ∉ held := by
      intro hm
      obtain ⟨n, hn, _⟩ := hocc _ hm
      exact absurd (node_at_lt hn) (Nat.lt_irrefl _)
    refine ⟨hnot, ?_⟩
    intro h hh
    rcases List.mem_cons.1 hh with h1 | h1
    · subst h1
      exact ⟨{ occupied := true, hazard_ptr := 0 }, by simp [node_at], rfl⟩
    · obtain ⟨n, hn, ho⟩ := hocc h h1
      have hne : ¬ h = hp.__head.length := fun e => hnot (e ▸ h1)
      exact ⟨n, by simp [node_at, hne, hn], ho⟩
  | some r =>
    obtain ⟨h0, l1⟩ := r
    simp only
    obtain ⟨⟨n0, hn0, hfree⟩, hupd⟩ := claim_idle_some hc
    have hnot : h0 ∉ held := by
      intro hm
      obtain ⟨n, hn, ho⟩ := hocc _ hm
      rw [hn0] at hn
      simp only [Option.some.injEq] at hn
      subst hn
      rw [hfree] at ho
      exact Bool.noConfusion ho
    refine ⟨hnot, ?_⟩
    intro h hh
    rw [hupd, node_at_update_node]
    rcases List.mem_cons.1 hh with h1 | h1
    · subst h1
      exact ⟨{ n0 with occupied := true }, by simp [hn0], rfl⟩
    · obtain ⟨n, hn, ho⟩ := hocc h h1
      have hne : ¬ h = h0 := fun e => hnot (e ▸ h1)
      exact ⟨n, by simp [hne, hn], ho⟩

theorem domain_step_held (ord : IterationOrder) (s : domain_run) (op : domain_op)
    (h : held_inv s) : held_inv (domain_step ord s op) := by
  obtain ⟨hnd, hocc⟩ := h
  cases op with
  | reference =>
    obtain ⟨h1, h2⟩ := reference_fresh s.hp s.held hocc
    exact ⟨List.nodup_cons.2 ⟨h1, hnd⟩, h2⟩
  | set hd p =>
    refine ⟨hnd, ?_⟩
    intro h hh
    obtain ⟨n, hn, ho⟩ := hocc h hh
    show ∃ n, node_at (update_node (fun n => { n with hazard_ptr := p }) s.hp.__head hd) h
      = some n ∧ n.occupied = true
    rw [node_at_update_node]
    by_cases he : h = hd
    · subst he
      exact ⟨{ n with hazard_ptr := p }, by simp [hn], ho⟩
    · exact ⟨n, by simp [he, hn], ho⟩
  | dereference hd =>
    refine ⟨hnd.erase hd, ?_⟩
    intro h hh
    have hmem : h ∈ s.held := List.mem_of_mem_erase hh
    have hne : h ≠ hd := by
      intro e
      subst e
      exact (List.Nodup.not_mem_erase hnd) hh
    obtain ⟨n, hn, ho⟩ := hocc h hmem
    show ∃ n, node_at (update_node (fun _ => { occupied := false, hazard_ptr := 0 })
      s.hp.__head hd) h = some n ∧ n.occupied = true
    rw [node_at_update_node]
    exact ⟨n, by simp [hne, hn], ho⟩
  | delete_ptr p d =>
    refine ⟨hnd, ?_⟩
    show held_occupied (s.hp.delete_ptr ord p d).1.__head s.held
    rw [delete_ptr_head]
    exact hocc

theorem domain_foldl_held (ord : IterationOrder) (ops : List domain_op) :
    ∀ s : domain_run, held_inv s → held_inv (ops.foldl (domain_step ord) s) := by
  induction ops with
  | nil => intro s h; exact h
  | cons op ops ih => intro s h; exact ih _ (domain_step_held ord s op h)

theorem claim_idle_length {l : List hazard_node} {h : Nat} {l1 : List hazard_node}
    (hc : claim_idle l = some (h, l1)) : l1.length = l.length ∧ h < l.length := by
  obtain ⟨⟨n, hn, _⟩, hupd⟩ := claim_idle_some hc
  exact ⟨by rw [hupd, update_node_length], node_at_lt hn⟩

/-! ## Properties of the reclamation domain -/

/-- When the count is below the threshold `check_threshold` does nothing. -/
theorem check_threshold_below (ord : IterationOrder) (hp : hazard_pointer)
    (h : ¬ hp.__threshold_of_clean_up ≤ hp.__pending_size) :
    check_threshold ord hp = (hp, []) := by
  unfold check_threshold
  rw [if_pos (by omega)]

/-- C1. A scan never calls the deleter of a retired entry whose pointer is
the non-null protected pointer of a slot at the start of the scan. -/
theorem check_threshold_spares_protected (ord : IterationOrder) (hp : hazard_pointer)
    (e : hazard_pending_node) (he : e ∈ (check_threshold ord hp).2)
    (hn : hazard_node) (hhn : hn ∈ hp.__head) (hnz : hn.hazard_ptr ≠ 0) :
    e.ptr ≠ hn.hazard_ptr := by
  by_cases h : hp.__threshold_of_clean_up ≤ hp.__pending_size
  · rw [check_threshold_eq ord hp h] at he
    have hi := scan_result_inv hp
    have h1 : e.ptr ∈ (scan_result hp).calls.map (fun e => e.ptr) := List.mem_map_of_mem _ he
    have h2 := ((hi.calls_mem e.ptr).1 h1).2
    intro heq
    apply h2
    rw [heq]
    simp only [protected_ptrs, List.mem_filter, List.mem_map]
    exact ⟨⟨hn, hhn, rfl⟩, by simpa using hnz⟩
  · rw [check_threshold_below ord hp h] at he
    simp at he

/-- C1 at `sample_domain`: the scan runs (count 5, threshold 3) and calls the
deleter of 7, while the occupied slot protects 5. -/
theorem check_threshold_spares_protected_witness :
    (sample_domain.__threshold_of_clean_up ≤ sample_domain.__pending_size ∧
      ({ ptr := 7, deleter := 0 } : hazard_pending_node) ∈
        (check_threshold insertion_order sample_domain).2 ∧
      ({ occupied := true, hazard_ptr := 5 } : hazard_node) ∈ sample_domain.__head) ∧
    (7 : Nat) ≠ 5 :=
  ⟨⟨by decide, by decide, by decide⟩,
    check_threshold_spares_protected insertion_order sample_domain
      { ptr := 7, deleter := 0 } (by decide)
      { occupied := true, hazard_ptr := 5 } (by decide) (by decide)⟩

/-- C2. A scan calls the deleter at most once per pointer value, whatever
duplicates the retired list holds, and no entry for a pointer freed in the
scan is kept on the retired list. -/
theorem check_threshold_deletes_once (ord : IterationOrder) (hp : hazard_pointer) :
    ((check_threshold ord hp).2.map (fun e => e.ptr)).Nodup ∧
    ∀ e ∈ (check_threshold ord hp).1.__pending_list,
      e.ptr ∉ (check_threshold ord hp).2.map (fun e => e.ptr) := by
  by_cases h : hp.__threshold_of_clean_up ≤ hp.__pending_size
  · rw [check_threshold_eq ord hp h]
    have hi := scan_result_inv hp
    refine ⟨hi.calls_nodup, ?_⟩
    intro e he hc
    have h1 : e.ptr ∈ (scan_result hp).new_list_filter.map Prod.fst := by
      rw [← map_ptr_snd _ hi.keys_eq]
      exact List.mem_map_of_mem _ ((link_survivors_perm ord _).subset he)
    exact ((hi.calls_mem e.ptr).1 hc).2 ((hi.keys_mem e.ptr).1 h1).2
  · rw [check_threshold_below ord hp h]
    exact ⟨by simp, fun e _ h1 => by simp at h1⟩

/-- C2 at `sample_domain`, whose retired list holds 7 twice: the deleter
calls of the scan are one for 7 and one for 9. -/
theorem check_threshold_deletes_once_witness :
    ¬ (sample_domain.__pending_list.map (fun e => e.ptr)).Nodup ∧
    (check_threshold insertion_order sample_domain).2 =
      [{ ptr := 7, deleter := 0 }, { ptr := 9, deleter := 0 }] ∧
    ((check_threshold insertion_order sample_domain).2.map (fun e => e.ptr)).Nodup :=
  ⟨by decide, by decide,
    (check_threshold_deletes_once insertion_order sample_domain).1⟩

/-- C3. When a scan runs, with `H` the non-null protected pointers and `R`
the retired list: the pointers whose deleter is called are those of `R` not
in `H`; the retired list afterwards holds the pointers of `R` in `H`, each
once, and each of its entries is an entry of `R`. -/
theorem check_threshold_partition (ord : IterationOrder) (hp : hazard_pointer)
    (h : hp.__threshold_of_clean_up ≤ hp.__pending_size) :
    (∀ p, p ∈ (check_threshold ord hp).2.map (fun e => e.ptr) ↔
      p ∈ hp.__pending_list.map (fun e => e.ptr) ∧ p ∉ protected_ptrs hp.__head) ∧
    (∀ p, p ∈ (check_threshold ord hp).1.__pending_list.map (fun e => e.ptr) ↔
      p ∈ hp.__pending_list.map (fun e => e.ptr) ∧ p ∈ protected_ptrs hp.__head) ∧
    ((check_threshold ord hp).1.__pending_list.map (fun e => e.ptr)).Nodup ∧
    (check_threshold ord hp).1.__pending_list.Subperm hp.__pending_list := by
  have hi := scan_result_inv hp
  have hsub := check_threshold_subperm ord hp
  rw [check_threshold_eq ord hp h] at hsub ⊢
  have hperm : ((link_survivors (ord.arrange (scan_result hp).new_list_filter)).map
      (fun e => e.ptr)).Perm ((scan_result hp).new_list_filter.map Prod.fst) := by
    rw [← map_ptr_snd _ hi.keys_eq]
    exact (link_survivors_perm ord _).map _
  refine ⟨hi.calls_mem, ?_, ?_, ?_⟩
  · intro p
    rw [← hi.keys_mem p]
    exact hperm.mem_iff
  · exact hperm.nodup_iff.2 hi.keys_nodup
  · exact (List.sublist_append_right _ _).subperm.trans hsub

/-- C3 at `sample_domain`: 7 and 9 are freed, one entry for 5 is kept. -/
theorem check_threshold_partition_witness :
    sample_domain.__threshold_of_clean_up ≤ sample_domain.__pending_size ∧
    (check_threshold reverse_order sample_domain).1.__pending_list =
      [{ ptr := 5, deleter := 0 }] ∧
    ((∀ p, p ∈ (check_threshold reverse_order sample_domain).2.map (fun e => e.ptr) ↔
        p ∈ sample_domain.__pending_list.map (fun e => e.ptr) ∧
          p ∉ protected_ptrs sample_domain.__head) ∧
      (∀ p, p ∈ (check_threshold reverse_order sample_domain).1.__pending_list.map
          (fun e => e.ptr) ↔
        p ∈ sample_domain.__pending_list.map (fun e => e.ptr) ∧
          p ∈ protected_ptrs sample_domain.__head) ∧
      ((check_threshold reverse_order sample_domain).1.__pending_list.map
        (fun e => e.ptr)).Nodup ∧
      (check_threshold reverse_order sample_domain).1.__pending_list.Subperm
        sample_domain.__pending_list) :=
  ⟨by decide, by decide,
    check_threshold_partition reverse_order sample_domain (by decide)⟩

/-- C4. Over a life of a domain (any calls of `reference`, `set`,
`dereference` and `delete_ptr` with the scans they start, then the
destructor) in which no pointer is passed to `delete_ptr` twice, no pointer
has its deleter called twice. -/
theorem deleter_at_most_once_over_lifetime (ord : IterationOrder) (threshold : Nat)
    (ops : List domain_op) (h : (retired_ptrs ops).Nodup) :
    ((lifetime_calls ord threshold ops).map (fun e => e.ptr)).Nodup := by
  obtain ⟨l, hp, hs⟩ := lifetime_calls_subperm ord threshold ops
  exact hp.nodup_iff.1 (hs.nodup h)

/-- C4 at `sample_ops` with threshold 2: the scan started by the second
`delete_ptr` frees 7 and keeps the protected 5, and the destructor frees 5
and 9. -/
theorem deleter_at_most_once_over_lifetime_witness :
    (retired_ptrs sample_ops).Nodup ∧
    lifetime_calls insertion_order 2 sample_ops =
      [{ ptr := 7, deleter := 0 }, { ptr := 9, deleter := 0 }, { ptr := 5, deleter := 0 }] ∧
    ((lifetime_calls insertion_order 2 sample_ops).map (fun e => e.ptr)).Nodup :=
  ⟨by decide, by decide,
    deleter_at_most_once_over_lifetime insertion_order 2 sample_ops (by decide)⟩

/-- C8. After any sequence of calls on a fresh domain the handles held
(given out by `reference` and not yet given back by `dereference`) are
pairwise distinct, each names a slot marked occupied, and the next
`reference` returns a handle that is not held. -/
theorem reference_never_returns_held (ord : IterationOrder) (threshold : Nat)
    (ops : List domain_op) :
    (domain_run.run ord threshold ops).held.Nodup ∧
    (∀ h ∈ (domain_run.run ord threshold ops).held,
      ∃ n, node_at (domain_run.run ord threshold ops).hp.__head h = some n ∧
        n.occupied = true) ∧
    (domain_run.run ord threshold ops).hp.reference.2 ∉
      (domain_run.run ord threshold ops).held := by
  have h := domain_foldl_held ord ops
    { hp := hazard_pointer.new threshold, held := [], calls := [] }
    ⟨List.nodup_nil, by intro h hh; simp at hh⟩
  exact ⟨h.1, h.2, (reference_fresh _ _ h.2).1⟩

/-- C9. `reference` links a new slot, raising `size()` by one, when every
slot is occupied, and otherwise returns an existing slot and leaves `size()`
and the slot list length alone. On a fresh domain two calls give `size()`
2, and after both slots are released a third call returns one of the two
with `size()` still 2. -/
theorem reference_allocates_only_when_full (hp : hazard_pointer) (threshold : Nat) :
    ((∀ n ∈ hp.__head, n.occupied = true) →
      hp.reference.1.size = hp.size + 1 ∧
      hp.reference.1.__head.length = hp.__head.length + 1 ∧
      hp.reference.2 = hp.__head.length) ∧
    ((∃ n ∈ hp.__head, n.occupied = false) →
      hp.reference.1.size = hp.size ∧
      hp.reference.1.__head.length = hp.__head.length ∧
      hp.reference.2 < hp.__head.length) ∧
    (let a := (hazard_pointer.new threshold).reference
     let b := a.1.reference
     let c := ((b.1.dereference a.2).dereference b.2).reference
     b.1.size = 2 ∧ b.1.__head.length = 2 ∧ a.2 ≠ b.2 ∧
     (c.2 = a.2 ∨ c.2 = b.2) ∧ c.1.size = 2 ∧ c.1.__head.length = 2) := by
  refine ⟨?_, ?_, ?_⟩
  · intro hall
    have hc : claim_idle hp.__head = none := by
      cases hc : claim_idle hp.__head with
      | none => rfl
      | some r =>
        obtain ⟨h0, l1⟩ := r
        obtain ⟨⟨n0, hn0, hfree⟩, _⟩ := claim_idle_some hc
        rw [hall n0 (node_at_mem hn0)] at hfree
        exact Bool.noConfusion hfree
    simp [reference, hazard_pointer.size, hc]
  · rintro ⟨n, hn, hfree⟩
    cases hc : claim_idle hp.__head with
    | none =>
      rw [claim_idle_none hc n hn] at hfree
      exact Bool.noConfusion hfree
    | some r =>
      obtain ⟨h0, l1⟩ := r
      obtain ⟨hlen, hlt⟩ := claim_idle_length hc
      simp [reference, hazard_pointer.size, hc, hlen, hlt]
  · simp [hazard_pointer.new, reference, claim_idle, dereference, update_node,
      hazard_pointer.size]

/-- C10 fails on a domain with no slot: `delete_ptr` returns at once, links
no entry and leaves the count alone. -/
theorem delete_ptr_without_slot_drops (ord : IterationOrder) (threshold p d : Nat) :
    (hazard_pointer.new threshold).delete_ptr ord p d = (hazard_pointer.new threshold, []) ∧
    ((hazard_pointer.new threshold).delete_ptr ord p d).1.__pending_list = [] ∧
    ((hazard_pointer.new threshold).delete_ptr ord p d).1.pending_size = 0 :=
  ⟨rfl, rfl, rfl⟩

/-- On a domain with at least one slot `delete_ptr` links the entry at the
head of the retired list, raises the count by one and calls
`check_threshold`, which scans exactly when the new count has reached the
threshold. -/
theorem delete_ptr_with_slot (ord : IterationOrder) (hp : hazard_pointer) (p d : Nat)
    (h : hp.__head ≠ []) :
    hp.delete_ptr ord p d =
      check_threshold ord
        { hp with
            __pending_list := { ptr := p, deleter := d } :: hp.__pending_list,
            __pending_size := hp.__pending_size + 1 } ∧
    (¬ hp.__threshold_of_clean_up ≤ hp.__pending_size + 1 →
      hp.delete_ptr ord p d =
        ({ hp with
            __pending_list := { ptr := p, deleter := d } :: hp.__pending_list,
            __pending_size := hp.__pending_size + 1 }, [])) ∧
    (hp.__threshold_of_clean_up ≤ hp.__pending_size + 1 →
      (hp.delete_ptr ord p d).1.__pending_size = 0) := by
  have h1 : hp.delete_ptr ord p d =
      check_threshold ord
        { hp with
            __pending_list := { ptr := p, deleter := d } :: hp.__pending_list,
            __pending_size := hp.__pending_size + 1 } := by
    unfold delete_ptr
    cases hh : hp.__head with
    | nil => exact absurd hh h
    | cons n rest => rfl
  refine ⟨h1, ?_, ?_⟩
  · intro hlt
    rw [h1, check_threshold_below ord _ hlt]
  · intro hge
    rw [h1, check_threshold_eq ord
      { hp with
          __pending_list := { ptr := p, deleter := d } :: hp.__pending_list,
          __pending_size := hp.__pending_size + 1 } hge]

/-! ## Lemmas on the containers -/

theorem protected_ptrs_idle {slots : List hazard_node} (h : slots_idle slots) :
    protected_ptrs slots = [] := by
  unfold protected_ptrs
  rw [List.filter_eq_nil_iff]
  intro p hp
  obtain ⟨n, hn, rfl⟩ := List.mem_map.1 hp
  rw [h n hn]
  simp

theorem update_node_twice (f g : hazard_node → hazard_node) (l : List hazard_node) (h : Nat) :
    update_node g (update_node f l h) h = update_node (fun n => g (f n)) l h := by
  induction l with
  | nil => rfl
  | cons a rest ih =>
    by_cases hh : h = rest.length
    · simp [update_node, hh]
    · simp [update_node, hh, update_node_length, ih]

theorem set_dereference (hp : hazard_pointer) (h p : Nat) :
    (hp.set h p).dereference h = hp.dereference h := by
  simp [hazard_pointer.set, hazard_pointer.dereference, update_node_twice]

/-- The slot list after `reference()` and then `dereference()` on the slot
obtained, when every slot was idle before. -/
theorem reference_dereference_idle (hp : hazard_pointer) (h : slots_idle hp.__head) :
    slots_idle (hp.reference.1.dereference hp.reference.2).__head ∧
    (hp.reference.1.dereference hp.reference.2).__head ≠ [] ∧
    (hp.reference.1.dereference hp.reference.2).__pending_list = hp.__pending_list ∧
    (hp.reference.1.dereference hp.reference.2).__pending_size = hp.__pending_size ∧
    (hp.reference.1.dereference hp.reference.2).__threshold_of_clean_up =
      hp.__threshold_of_clean_up := by
  cases hs : hp.__head with
  | nil =>
    simp [reference, hs, claim_idle, hazard_pointer.dereference, update_node, slots_idle]
  | cons n rest =>
    have hn : n = { occupied := false, hazard_ptr := 0 } := h n (by rw [hs]; simp)
    have hrest : slots_idle rest := fun m hm => h m (by rw [hs]; simp [hm])
    subst hn
    have hd : (hp.reference.1.dereference hp.reference.2).__head =
        { occupied := false, hazard_ptr := 0 } :: rest := by
      simp [reference, hs, claim_idle, hazard_pointer.dereference, update_node]
    have hq : (hp.reference.1.dereference hp.reference.2).__pending_list = hp.__pending_list ∧
        (hp.reference.1.dereference hp.reference.2).__pending_size = hp.__pending_size ∧
        (hp.reference.1.dereference hp.reference.2).__threshold_of_clean_up =
          hp.__threshold_of_clean_up := by
      simp [reference, hs, claim_idle, hazard_pointer.dereference]
    rw [hd]
    refine ⟨?_, by simp, hq⟩
    intro m hm
    simp only [List.mem_cons] at hm
    rcases hm with hm | hm
    · exact hm
    · exact hrest m hm

theorem run_deleters_ok {γ : Type} (calls : List hazard_pending_node) :
    ∀ heap : List (Option γ),
      (calls.map (fun e => e.ptr)).Nodup →
      (∀ e ∈ calls, ∃ a, e.ptr = a + 1 ∧ live heap a) →
      ∃ heap1, run_deleters heap calls = .ok heap1 ∧ heap1.length = heap.length ∧
        ∀ b, b + 1 ∉ calls.map (fun e => e.ptr) → heap1[b]? = heap[b]? := by
  induction calls with
  | nil => intro heap _ _; exact ⟨heap, rfl, rfl, fun _ _ => rfl⟩
  | cons c calls ih =>
    intro heap hnd hlive
    obtain ⟨a, ha, node, hnode⟩ := hlive c (List.mem_cons_self _ _)
    simp only [List.map_cons, List.nodup_cons] at hnd
    have hstep : delete_final heap c.ptr = .ok (heap.set a none) := by
      rw [ha]
      simp [delete_final, hnode]
    have hlive1 : ∀ e ∈ calls, ∃ b, e.ptr = b + 1 ∧ live (heap.set a none) b := by
      intro e he
      obtain ⟨b, hb, nodeb, hnodeb⟩ := hlive e (List.mem_cons_of_mem _ he)
      refine ⟨b, hb, nodeb, ?_⟩
      have hne : a ≠ b := by
        intro hab
        apply hnd.1
        rw [ha, hab, ← hb]
        exact List.mem_map_of_mem _ he
      rw [List.getElem?_set_ne hne]
      exact hnodeb
    obtain ⟨heap1, hrun, hlen, hsame⟩ := ih (heap.set a none) hnd.2 hlive1
    refine ⟨heap1, ?_, ?_, ?_⟩
    · simp [run_deleters, hstep, hrun]
    · simp [hlen]
    · intro b hb
      simp only [List.map_cons, List.mem_cons, not_or] at hb
      rw [hsame b hb.2]
      have hne : a ≠ b := by
        intro hab
        apply hb.1
        rw [ha, hab]
      rw [List.getElem?_set_ne hne]

theorem check_threshold_idle (ord : IterationOrder) (hp : hazard_pointer)
    (hidle : protected_ptrs hp.__head = [])
    (h : hp.__threshold_of_clean_up ≤ hp.__pending_size) :
    (check_threshold ord hp).1 = { hp with __pending_size := 0, __pending_list := [] } ∧
    ((check_threshold ord hp).2.map (fun e => e.ptr)).Nodup ∧
    (check_threshold ord hp).2.Subperm hp.__pending_list := by
  have hi := scan_result_inv hp
  have hnil : (scan_result hp).new_list_filter = [] := by
    have : (scan_result hp).new_list_filter.map Prod.fst = [] := by
      apply List.eq_nil_iff_forall_not_mem.2
      intro p hp1
      have := ((hi.keys_mem p).1 hp1).2
      rw [hidle] at this
      simp at this
    exact List.map_eq_nil_iff.1 this
  have hsub := hi.subperm
  rw [check_threshold_eq ord hp h]
  rw [hnil] at hsub ⊢
  have harr : ord.arrange [] = [] := List.Perm.eq_nil (ord.perm [])
  refine ⟨?_, hi.calls_nodup, by simpa using hsub⟩
  simp [harr, link_survivors]

theorem delete_ptr_run {γ : Type} (ord : IterationOrder) (hp : hazard_pointer)
    (heap : List (Option γ)) (a d : Nat) (keep : List Nat)
    (hslots : hp.__head ≠ []) (hidle : slots_idle hp.__head)
    (hpend : pending_ok heap hp.__pending_list (a :: keep))
    (hlive : live heap a) (ha : a ∉ keep) :
    ∃ heap1, run_deleters heap (hp.delete_ptr ord (a + 1) d).2 = .ok heap1 ∧
      heap1.length = heap.length ∧
      (∀ b ∈ keep, heap1[b]? = heap[b]?) ∧
      pending_ok heap1 (hp.delete_ptr ord (a + 1) d).1.__pending_list keep ∧
      (hp.delete_ptr ord (a + 1) d).1.__head = hp.__head := by
  obtain ⟨h1, _, _⟩ := delete_ptr_with_slot ord hp (a + 1) d hslots
  have hR : pending_ok heap ({ ptr := a + 1, deleter := d } :: hp.__pending_list) keep := by
    obtain ⟨hnd, hall⟩ := hpend
    constructor
    · simp only [List.map_cons, List.nodup_cons]
      refine ⟨?_, hnd⟩
      intro hmem
      obtain ⟨e, he, hea⟩ := List.mem_map.1 hmem
      obtain ⟨b, hb, _, hnot⟩ := hall e he
      apply hnot
      have : b = a := by omega
      rw [this]
      exact List.mem_cons_self _ _
    · intro e he
      rcases List.mem_cons.1 he with he | he
      · subst he
        exact ⟨a, rfl, hlive, ha⟩
      · obtain ⟨b, hb, hl, hnot⟩ := hall e he
        exact ⟨b, hb, hl, fun hm => hnot (List.mem_cons_of_mem _ hm)⟩
  by_cases hthr : hp.__threshold_of_clean_up ≤ hp.__pending_size + 1
  · obtain ⟨hst, hnd, hsub⟩ := check_threshold_idle ord
      { hp with
          __pending_list := { ptr := a + 1, deleter := d } :: hp.__pending_list,
          __pending_size := hp.__pending_size + 1 }
      (protected_ptrs_idle hidle) hthr
    rw [← h1] at hst hnd hsub
    have hcalls : ∀ e ∈ (hp.delete_ptr ord (a + 1) d).2, ∃ b, e.ptr = b + 1 ∧ live heap b := by
      intro e he
      obtain ⟨b, hb, hl, _⟩ := hR.2 e (hsub.subset he)
      exact ⟨b, hb, hl⟩
    obtain ⟨heap1, hrun, hlen, hsame⟩ := run_deleters_ok _ heap hnd hcalls
    refine ⟨heap1, hrun, hlen, ?_, ?_, ?_⟩
    · intro b hb
      apply hsame
      intro hmem
      obtain ⟨e, he, heb⟩ := List.mem_map.1 hmem
      obtain ⟨b1, hb1, _, hnot⟩ := hR.2 e (hsub.subset he)
      have : b1 = b := by omega
      rw [this] at hnot
      exact hnot hb
    · rw [hst]
      exact ⟨by simp, by intro e he; simp at he⟩
    · rw [hst]
  · obtain ⟨_, h2, _⟩ := delete_ptr_with_slot ord hp (a + 1) d hslots
    rw [h2 hthr]
    exact ⟨heap, rfl, rfl, fun _ _ => rfl, hR, rfl⟩

theorem live_lt {γ : Type} {heap : List (Option γ)} {a : Nat} (h : live heap a) :
    a < heap.length := by
  obtain ⟨node, hn⟩ := h
  exact (List.getElem?_eq_some_iff.1 hn).1

theorem live_append {γ : Type} {heap : List (Option γ)} {a : Nat} (h : live heap a)
    (l : List (Option γ)) : live (heap ++ l) a := by
  obtain ⟨node, hn⟩ := h
  exact ⟨node, by rw [List.getElem?_append_left (live_lt ⟨node, hn⟩)]; exact hn⟩

theorem stack_chain_live {α : Type} {heap : List (Option (stack_node α))}
    {c : List (Nat × α)} : ∀ {hd : Option Nat}, stack_chain heap hd c →
      ∀ a ∈ c.map Prod.fst, live heap a := by
  induction c with
  | nil => intro hd _ a ha; simp at ha
  | cons x rest ih =>
    obtain ⟨b, v⟩ := x
    intro hd h a ha
    obtain ⟨_, nxt, hb, hrest⟩ := h
    simp only [List.map_cons, List.mem_cons] at ha
    rcases ha with ha | ha
    · subst ha; exact ⟨_, hb⟩
    · exact ih hrest a ha

theorem stack_chain_congr {α : Type} {heap heap1 : List (Option (stack_node α))}
    {c : List (Nat × α)} : ∀ {hd : Option Nat},
      (∀ b ∈ c.map Prod.fst, heap1[b]? = heap[b]?) →
      stack_chain heap hd c → stack_chain heap1 hd c := by
  induction c with
  | nil => intro hd _ h; exact h
  | cons x rest ih =>
    obtain ⟨b, v⟩ := x
    intro hd hsame h
    obtain ⟨hhd, nxt, hb, hrest⟩ := h
    refine ⟨hhd, nxt, ?_, ih (fun b1 hb1 => hsame b1 (by simp [hb1])) hrest⟩
    rw [hsame b (by simp)]
    exact hb

theorem stack_push_inv {α : Type} {s : stack α} {c : List (Nat × α)} (h : stack_inv s c)
    (v : α) : stack_inv (s.push v) ((s.heap.length, v) :: c) := by
  have hlive := stack_chain_live h.chain
  have hfresh : s.heap.length ∉ c.map Prod.fst := by
    intro hm
    exact absurd (live_lt (hlive _ hm)) (Nat.lt_irrefl _)
  refine ⟨?_, ?_, h.idle, ?_⟩
  · refine ⟨rfl, s.__head, ?_, ?_⟩
    · simp [stack.push]
    · apply stack_chain_congr _ h.chain
      intro b hb
      exact List.getElem?_append_left (live_lt (hlive b hb))
  · simp only [List.map_cons, List.nodup_cons]
    exact ⟨hfresh, h.nodup⟩
  · refine ⟨h.pending.1, ?_⟩
    intro e he
    obtain ⟨a, ha, hl, hnot⟩ := h.pending.2 e he
    refine ⟨a, ha, live_append hl _, ?_⟩
    simp only [List.map_cons, List.mem_cons, not_or]
    exact ⟨Nat.ne_of_lt (live_lt hl), hnot⟩

theorem stack_pop_empty {α : Type} (ord : IterationOrder) {s : stack α} (h : stack_inv s [])
    (t : α) :
    ∃ s1, s.pop ord t = .ok (s1, false, t) ∧ stack_inv s1 [] := by
  have hhd : s.__head = none := h.chain
  obtain ⟨hidle, _, hpl, _, _⟩ := reference_dereference_idle s.__hp h.idle
  refine ⟨{ s with __hp := s.__hp.reference.1.dereference s.__hp.reference.2 }, ?_, ?_⟩
  · simp [stack.pop, hhd, set_dereference]
  · refine ⟨h.chain, h.nodup, hidle, ?_⟩
    show pending_ok s.heap (s.__hp.reference.1.dereference s.__hp.reference.2).__pending_list _
    rw [hpl]
    exact h.pending

theorem stack_pop_cons {α : Type} (ord : IterationOrder) {s : stack α} {a : Nat} {v : α}
    {rest : List (Nat × α)} (h : stack_inv s ((a, v) :: rest)) (t : α) :
    ∃ s1, s.pop ord t = .ok (s1, true, v) ∧ stack_inv s1 rest := by
  obtain ⟨hhd, nxt, ha, hrest⟩ := h.chain
  obtain ⟨hidle, hne, hpl, _, _⟩ := reference_dereference_idle s.__hp h.idle
  have hnd := h.nodup
  simp only [List.map_cons, List.nodup_cons] at hnd
  have hpend : pending_ok s.heap
      (s.__hp.reference.1.dereference s.__hp.reference.2).__pending_list
      (a :: rest.map Prod.fst) := by
    rw [hpl]
    exact h.pending
  obtain ⟨heap1, hrun, hlen, hsame, hpend1, hhead1⟩ :=
    delete_ptr_run ord (s.__hp.reference.1.dereference s.__hp.reference.2) s.heap a 0
      (rest.map Prod.fst) hne hidle hpend ⟨_, ha⟩ hnd.1
  refine ⟨{ __hp := ((s.__hp.reference.1.dereference s.__hp.reference.2).delete_ptr ord
                (a + 1) 0).1
            __size := wrap_int (s.__size - 1)
            __head := nxt
            heap := heap1 }, ?_, ?_⟩
  · simp only [stack.pop, hhd, load, ha, set_dereference, to_void, hrun]
  · refine ⟨?_, hnd.2, ?_, hpend1⟩
    · exact stack_chain_congr hsame hrest
    · show slots_idle (hazard_pointer.delete_ptr ord _ (a + 1) 0).1.__head
      rw [hhead1]
      exact hidle

theorem stack_run_refines {α : Type} (ord : IterationOrder) (ops : List (container_op α)) :
    ∀ (s : stack α) (c : List (Nat × α)) (t : α), stack_inv s c →
      ∃ s1, stack.run ord ops s t = .ok (s1, lifo_run ops (c.map Prod.snd) t) := by
  induction ops with
  | nil => intro s c t _; exact ⟨s, rfl⟩
  | cons op ops ih =>
    intro s c t h
    cases op with
    | push v =>
      obtain ⟨s1, h1⟩ := ih _ _ t (stack_push_inv h v)
      exact ⟨s1, by simpa [stack.run, lifo_run] using h1⟩
    | pop =>
      cases c with
      | nil =>
        obtain ⟨s1, hpop, hinv⟩ := stack_pop_empty ord h t
        obtain ⟨s2, h2⟩ := ih s1 [] t hinv
        exact ⟨s2, by simp [stack.run, lifo_run, hpop, h2] at h2 ⊢⟩
      | cons x rest =>
        obtain ⟨a, v⟩ := x
        obtain ⟨s1, hpop, hinv⟩ := stack_pop_cons ord h t
        obtain ⟨s2, h2⟩ := ih s1 rest v hinv
        exact ⟨s2, by simp [stack.run, lifo_run, hpop, h2]⟩

theorem stack_new_inv {α : Type} (threshold : Nat) :
    stack_inv (stack.new threshold : stack α) [] := by
  refine ⟨rfl, by simp, ?_, ?_⟩
  · intro n hn
    simp [stack.new, hazard_pointer.new] at hn
  · exact ⟨by simp [stack.new, hazard_pointer.new], by
      intro e he
      simp [stack.new, hazard_pointer.new] at he⟩

theorem queue_chain_head {α : Type} {heap : List (Option (queue_node α))} {a : Nat} {v : α}
    {c : List (Nat × α)} (h : queue_chain heap a v c) :
    ∃ nxt, heap[a]? = some (some { t := v, next := nxt }) := by
  cases c with
  | nil => exact ⟨none, h⟩
  | cons x rest => exact ⟨some x.1, h.1⟩

theorem queue_chain_live {α : Type} {heap : List (Option (queue_node α))}
    {c : List (Nat × α)} : ∀ {a : Nat} {v : α}, queue_chain heap a v c →
      ∀ b ∈ a :: c.map Prod.fst, live heap b := by
  induction c with
  | nil =>
    intro a v h b hb
    simp only [List.map_nil, List.mem_singleton] at hb
    subst hb
    exact ⟨_, h⟩
  | cons x rest ih =>
    obtain ⟨b1, w⟩ := x
    intro a v h b hb
    rcases List.mem_cons.1 hb with hb | hb
    · subst hb; exact ⟨_, h.1⟩
    · exact ih h.2 b hb

theorem queue_chain_congr {α : Type} {heap heap1 : List (Option (queue_node α))}
    {c : List (Nat × α)} : ∀ {a : Nat} {v : α},
      (∀ b ∈ a :: c.map Prod.fst, heap1[b]? = heap[b]?) →
      queue_chain heap a v c → queue_chain heap1 a v c := by
  induction c with
  | nil =>
    intro a v hsame h
    show heap1[a]? = _
    rw [hsame a (by simp)]
    exact h
  | cons x rest ih =>
    obtain ⟨b1, w⟩ := x
    intro a v hsame h
    refine ⟨?_, ih (fun b hb => hsame b (List.mem_cons_of_mem _ hb)) h.2⟩
    rw [hsame a (by simp)]
    exact h.1

theorem last_addr_mem {α : Type} (c : List (Nat × α)) :
    ∀ a : Nat, last_addr a c ∈ a :: c.map Prod.fst := by
  induction c with
  | nil => intro a; simp [last_addr]
  | cons x rest ih =>
    obtain ⟨b, w⟩ := x
    intro a
    exact List.mem_cons_of_mem _ (ih b)

theorem last_addr_append {α : Type} (c : List (Nat × α)) (n : Nat) (t : α) :
    ∀ a : Nat, last_addr a (c ++ [(n, t)]) = n := by
  induction c with
  | nil => intro a; rfl
  | cons x rest ih =>
    obtain ⟨b, w⟩ := x
    intro a
    exact ih b

theorem queue_chain_snoc {α : Type} {heap : List (Option (queue_node α))} {n : Nat} {t : α}
    (hn : heap[n]? = some (some { t := t, next := none })) (c : List (Nat × α)) :
    ∀ (a : Nat) (v : α), queue_chain heap a v c → (a :: c.map Prod.fst).Nodup →
      n ∉ a :: c.map Prod.fst →
      ∃ lv, heap[last_addr a c]? = some (some { t := lv, next := none }) ∧
        queue_chain (heap.set (last_addr a c) (some { t := lv, next := some n })) a v
          (c ++ [(n, t)]) := by
  induction c with
  | nil =>
    intro a v h _ hnot
    have hlt : a < heap.length := live_lt ⟨_, h⟩
    have hne : a ≠ n := by
      intro e
      apply hnot
      simp [e]
    refine ⟨v, h, ?_, ?_⟩
    · simp [last_addr, List.getElem?_set_self, hlt]
    · show (heap.set a _)[n]? = _
      rw [List.getElem?_set_ne hne]
      exact hn
  | cons x rest ih =>
    obtain ⟨b, w⟩ := x
    intro a v h hnd hnot
    have hnd1 : (b :: rest.map Prod.fst).Nodup := (List.nodup_cons.1 hnd).2
    have hnot1 : n ∉ b :: rest.map Prod.fst := fun hm => hnot (List.mem_cons_of_mem _ hm)
    obtain ⟨lv, hlast, hchain⟩ := ih b w h.2 hnd1 hnot1
    refine ⟨lv, hlast, ?_, hchain⟩
    have hne : last_addr b rest ≠ a := by
      intro e
      apply (List.nodup_cons.1 hnd).1
      rw [← e]
      exact last_addr_mem rest b
    show (heap.set (last_addr b rest) _)[a]? = _
    rw [List.getElem?_set_ne hne]
    exact h.1

theorem pending_ok_congr {γ : Type} {heap heap1 : List (Option γ)}
    {pending : List hazard_pending_node} {keep keep1 : List Nat}
    (h : pending_ok heap pending keep)
    (hlive : ∀ a, live heap a → a ∉ keep → live heap1 a ∧ a ∉ keep1) :
    pending_ok heap1 pending keep1 := by
  refine ⟨h.1, ?_⟩
  intro e he
  obtain ⟨a, ha, hl, hnot⟩ := h.2 e he
  exact ⟨a, ha, hlive a hl hnot⟩

theorem queue_push_inv {α : Type} (fuel : Nat) {q : queue α} {d : Nat} {dv : α}
    {c : List (Nat × α)} (h : queue_inv q d dv c) (t : α) :
    ∃ q1, q.push (fuel + 1) t = .ok q1 ∧ queue_inv q1 d dv (c ++ [(q.heap.length, t)]) := by
  have hlive := queue_chain_live h.chain
  have hfresh : q.heap.length ∉ d :: c.map Prod.fst := by
    intro hm
    exact absurd (live_lt (hlive _ hm)) (Nat.lt_irrefl _)
  have hchain1 : queue_chain (q.heap ++ [some { t := t, next := none }]) d dv c := by
    apply queue_chain_congr _ h.chain
    intro b hb
    exact List.getElem?_append_left (live_lt (hlive b hb))
  have hn : (q.heap ++ [some { t := t, next := none }])[q.heap.length]? =
      some (some { t := t, next := none }) := by
    simp
  obtain ⟨lv, hlast, hchain2⟩ := queue_chain_snoc hn c d dv hchain1 h.nodup hfresh
  obtain ⟨hidle, _, hpl, _, _⟩ := reference_dereference_idle q.__hp h.idle
  refine ⟨{ __hp := q.__hp.reference.1.dereference q.__hp.reference.2
            __size := wrap_int (q.__size + 1)
            __head := q.__head
            __tail := some q.heap.length
            heap := (q.heap ++ [some ({ t := t, next := none } : queue_node α)]).set
              (last_addr d c) (some { t := lv, next := some q.heap.length }) }, ?_, ?_⟩
  · simp only [queue.push, h.tail, queue.push_loop, load, hlast, set_dereference]
  · refine ⟨h.head, ?_, hchain2, ?_, hidle, ?_⟩
    · simp [last_addr_append]
    · rw [List.map_append, ← List.cons_append]
      refine List.Nodup.append h.nodup (by simp) ?_
      intro a ha hb
      simp only [List.map_cons, List.map_nil, List.mem_singleton] at hb
      subst hb
      exact hfresh ha
    · show pending_ok _ (q.__hp.reference.1.dereference q.__hp.reference.2).__pending_list _
      rw [hpl]
      apply pending_ok_congr h.pending
      intro a hl hnot
      have hlt := live_lt hl
      constructor
      · obtain ⟨node, hnode⟩ := hl
        refine ⟨node, ?_⟩
        have hne : last_addr d c ≠ a := by
          intro e
          apply hnot
          rw [← e]
          exact last_addr_mem c d
        rw [List.getElem?_set_ne hne, List.getElem?_append_left hlt]
        exact hnode
      · rw [List.map_append, ← List.cons_append, List.mem_append]
        rintro (hm | hm)
        · exact hnot hm
        · simp only [List.map_cons, List.map_nil, List.mem_singleton] at hm
          omega

theorem queue_pop_empty {α : Type} (ord : IterationOrder) {q : queue α} {d : Nat} {dv : α}
    (h : queue_inv q d dv []) (t : α) :
    ∃ q1, q.pop ord t = .ok (q1, false, t) ∧ queue_inv q1 d dv [] := by
  have hd : q.heap[d]? = some (some { t := dv, next := none }) := h.chain
  obtain ⟨hidle, _, hpl, _, _⟩ := reference_dereference_idle q.__hp h.idle
  refine ⟨{ q with __hp := q.__hp.reference.1.dereference q.__hp.reference.2 }, ?_, ?_⟩
  · simp only [queue.pop, h.head, load, hd, set_dereference]
  · refine ⟨h.head, h.tail, h.chain, h.nodup, hidle, ?_⟩
    show pending_ok q.heap (q.__hp.reference.1.dereference q.__hp.reference.2).__pending_list _
    rw [hpl]
    exact h.pending

theorem queue_pop_cons {α : Type} (ord : IterationOrder) {q : queue α} {d : Nat} {dv : α}
    {b : Nat} {w : α} {rest : List (Nat × α)} (h : queue_inv q d dv ((b, w) :: rest)) (t : α) :
    ∃ q1, q.pop ord t = .ok (q1, true, w) ∧ queue_inv q1 b w rest := by
  obtain ⟨hd, hrest⟩ := h.chain
  obtain ⟨nxt, hb⟩ := queue_chain_head hrest
  obtain ⟨hidle, hne, hpl, _, _⟩ := reference_dereference_idle q.__hp h.idle
  have hnd := h.nodup
  simp only [List.map_cons] at hnd
  have hpend : pending_ok q.heap
      (q.__hp.reference.1.dereference q.__hp.reference.2).__pending_list
      (d :: b :: rest.map Prod.fst) := by
    rw [hpl]
    exact h.pending
  obtain ⟨heap1, hrun, hlen, hsame, hpend1, hhead1⟩ :=
    delete_ptr_run ord (q.__hp.reference.1.dereference q.__hp.reference.2) q.heap d 0
      (b :: rest.map Prod.fst) hne hidle hpend ⟨_, hd⟩ (List.nodup_cons.1 hnd).1
  refine ⟨{ __hp := ((q.__hp.reference.1.dereference q.__hp.reference.2).delete_ptr ord
                (d + 1) 0).1
            __size := wrap_int (q.__size - 1)
            __head := some b
            __tail := q.__tail
            heap := heap1 }, ?_, ?_⟩
  · simp only [queue.pop, h.head, load, hd, hb, set_dereference, to_void, hrun]
  · refine ⟨rfl, h.tail, queue_chain_congr hsame hrest, (List.nodup_cons.1 hnd).2, ?_, hpend1⟩
    show slots_idle (hazard_pointer.delete_ptr ord _ (d + 1) 0).1.__head
    rw [hhead1]
    exact hidle

theorem queue_run_refines {α : Type} (fuel : Nat) (ord : IterationOrder)
    (ops : List (container_op α)) :
    ∀ (q : queue α) (d : Nat) (dv : α) (c : List (Nat × α)) (t : α), queue_inv q d dv c →
      ∃ q1, queue.run (fuel + 1) ord ops q t = .ok (q1, fifo_run ops (c.map Prod.snd) t) := by
  induction ops with
  | nil => intro q d dv c t _; exact ⟨q, rfl⟩
  | cons op ops ih =>
    intro q d dv c t h
    cases op with
    | push v =>
      obtain ⟨q1, hpush, hinv⟩ := queue_push_inv fuel h v
      obtain ⟨q2, h2⟩ := ih q1 d dv _ t hinv
      exact ⟨q2, by simpa [queue.run, fifo_run, hpush] using h2⟩
    | pop =>
      cases c with
      | nil =>
        obtain ⟨q1, hpop, hinv⟩ := queue_pop_empty ord h t
        obtain ⟨q2, h2⟩ := ih q1 d dv [] t hinv
        exact ⟨q2, by simp [queue.run, fifo_run, hpop, h2] at h2 ⊢⟩
      | cons x rest =>
        obtain ⟨b, w⟩ := x
        obtain ⟨q1, hpop, hinv⟩ := queue_pop_cons ord h t
        obtain ⟨q2, h2⟩ := ih q1 b w rest w hinv
        exact ⟨q2, by simp [queue.run, fifo_run, hpop, h2]⟩

theorem queue_new_inv {α : Type} (threshold : Nat) (dummy : α) :
    queue_inv (queue.new threshold dummy) 0 dummy [] := by
  refine ⟨rfl, rfl, rfl, by simp, ?_, ?_⟩
  · intro n hn
    simp [queue.new, hazard_pointer.new] at hn
  · exact ⟨by simp [queue.new, hazard_pointer.new], by
      intro e he
      simp [queue.new, hazard_pointer.new] at he⟩

/-! ## Properties of the containers -/

/-- C5. Any sequence of `push` and `pop` on a fresh queue, run on one thread,
returns (given one unit of fuel per `push`) and its pops answer as the
reference FIFO does. In particular push 1, 2, 3 and four pops give 1, 2, 3
and then false with the out-parameter left at 3. -/
theorem queue_refines_fifo {α : Type} (fuel : Nat) (ord : IterationOrder) (threshold : Nat)
    (dummy : α) (ops : List (container_op α)) (t : α) :
    (∃ q1, queue.run (fuel + 1) ord ops (queue.new threshold dummy) t =
      .ok (q1, fifo_run ops [] t)) ∧
    (∃ q1, queue.run (fuel + 1) ord
        [.push 1, .push 2, .push 3, .pop, .pop, .pop, .pop] (queue.new threshold 0) 0 =
      .ok (q1, [(true, 1), (true, 2), (true, 3), (false, 3)])) := by
  constructor
  · simpa using queue_run_refines fuel ord ops _ 0 dummy [] t (queue_new_inv threshold dummy)
  · simpa [fifo_run] using queue_run_refines fuel ord
      [.push 1, .push 2, .push 3, .pop, .pop, .pop, .pop] _ 0 0 [] 0 (queue_new_inv threshold 0)

/-- C6. Any sequence of `push` and `pop` on a fresh stack, run on one thread,
returns and its pops answer as the reference LIFO does. In particular push
1, 2, 3 and four pops give 3, 2, 1 and then false. -/
theorem stack_refines_lifo {α : Type} (ord : IterationOrder) (threshold : Nat)
    (ops : List (container_op α)) (t : α) :
    (∃ s1, stack.run ord ops (stack.new threshold) t = .ok (s1, lifo_run ops [] t)) ∧
    (∃ s1, stack.run ord
        [.push 1, .push 2, .push 3, .pop, .pop, .pop, .pop] (stack.new threshold) 0 =
      .ok (s1, [(true, 3), (true, 2), (true, 1), (false, 1)])) := by
  constructor
  · simpa using stack_run_refines ord ops (stack.new threshold) [] t (stack_new_inv threshold)
  · simpa [lifo_run] using stack_run_refines ord
      [.push 1, .push 2, .push 3, .pop, .pop, .pop, .pop] (stack.new threshold) [] 0
      (stack_new_inv threshold)

theorem reference_pending (hp : hazard_pointer) :
    hp.reference.1.__pending_list = hp.__pending_list ∧
    hp.reference.1.__pending_size = hp.__pending_size := by
  unfold reference
  cases claim_idle hp.__head with
  | none => exact ⟨rfl, rfl⟩
  | some r => exact ⟨rfl, rfl⟩

/-- C7. On a queue whose head node has a null `next` (`empty()` is true) and
on a stack whose head is null, `pop` returns false, leaves the out-parameter
as it was, leaves `size()` alone and retires nothing: the retired list, the
retired count and the node store are unchanged. -/
theorem pop_on_empty_returns_false {α : Type} (ord : IterationOrder) (q : queue α)
    (s : stack α) (t : α) (hq : q.empty = .ok true) (hs : s.__head = none) :
    (∃ q1, q.pop ord t = .ok (q1, false, t) ∧ q1.size = q.size ∧
      q1.__hp.__pending_list = q.__hp.__pending_list ∧
      q1.__hp.pending_size = q.__hp.pending_size ∧
      q1.heap = q.heap ∧ q1.__head = q.__head ∧ q1.__tail = q.__tail) ∧
    (∃ s1, s.pop ord t = .ok (s1, false, t) ∧ s1.size = s.size ∧
      s1.__hp.__pending_list = s.__hp.__pending_list ∧
      s1.__hp.pending_size = s.__hp.pending_size ∧
      s1.heap = s.heap ∧ s1.__head = s.__head) := by
  obtain ⟨hpl, hps⟩ := reference_pending q.__hp
  obtain ⟨hpl1, hps1⟩ := reference_pending s.__hp
  constructor
  · refine ⟨{ q with __hp := q.__hp.reference.1.dereference q.__hp.reference.2 }, ?_,
      rfl, hpl, hps, rfl, rfl, rfl⟩
    unfold queue.empty at hq
    cases hh : q.__head with
    | none => simp [hh] at hq
    | some hn =>
      rw [hh] at hq
      cases hl : load q.heap hn with
      | error f => simp [hl] at hq
      | ok node =>
        simp only [hl, Except.ok.injEq, Option.isNone_iff_eq_none] at hq
        simp only [queue.pop, hh, hl, hq, set_dereference]
  · refine ⟨{ s with __hp := s.__hp.reference.1.dereference s.__hp.reference.2 }, ?_,
      rfl, hpl1, hps1, rfl, rfl⟩
    simp only [stack.pop, hs, set_dereference]

/-- C7 on a fresh queue and a fresh stack. -/
theorem pop_on_empty_returns_false_witness :
    ((queue.new 8 0 : queue Nat).empty = .ok true ∧ (stack.new 8 : stack Nat).__head = none) ∧
    ((∃ q1, (queue.new 8 0 : queue Nat).pop insertion_order 42 = .ok (q1, false, 42) ∧
        q1.size = (queue.new 8 0 : queue Nat).size ∧
        q1.__hp.__pending_list = (queue.new 8 0 : queue Nat).__hp.__pending_list ∧
        q1.__hp.pending_size = (queue.new 8 0 : queue Nat).__hp.pending_size ∧
        q1.heap = (queue.new 8 0 : queue Nat).heap ∧
        q1.__head = (queue.new 8 0 : queue Nat).__head ∧
        q1.__tail = (queue.new 8 0 : queue Nat).__tail) ∧
      (∃ s1, (stack.new 8 : stack Nat).pop insertion_order 42 = .ok (s1, false, 42) ∧
        s1.size = (stack.new 8 : stack Nat).size ∧
        s1.__hp.__pending_list = (stack.new 8 : stack Nat).__hp.__pending_list ∧
        s1.__hp.pending_size = (stack.new 8 : stack Nat).__hp.pending_size ∧
        s1.heap = (stack.new 8 : stack Nat).heap ∧
        s1.__head = (stack.new 8 : stack Nat).__head)) :=
  ⟨⟨rfl, rfl⟩,
    pop_on_empty_returns_false insertion_order (queue.new 8 0) (stack.new 8) 42 rfl rfl⟩

/-! ## Lemmas on destruction, scan counts and counters -/

theorem clear_forcely_foldl_spec (l : List hazard_pending_node) :
    ∀ s : List Nat × List hazard_pending_node,
      (∀ p, p ∈ s.1 ↔ p ∈ s.2.map (fun e => e.ptr)) →
      (s.2.map (fun e => e.ptr)).Nodup →
      (∀ p, p ∈ (l.foldl clear_forcely_step s).1 ↔
        p ∈ (l.foldl clear_forcely_step s).2.map (fun e => e.ptr)) ∧
      ((l.foldl clear_forcely_step s).2.map (fun e => e.ptr)).Nodup ∧
      ∀ p, p ∈ (l.foldl clear_forcely_step s).2.map (fun e => e.ptr) ↔
        p ∈ s.2.map (fun e => e.ptr) ∨ p ∈ l.map (fun e => e.ptr) := by
  induction l with
  | nil => intro s h1 h2; exact ⟨h1, h2, by simp⟩
  | cons e l ih =>
    intro s h1 h2
    rw [List.foldl_cons]
    by_cases hmem : e.ptr ∈ s.1
    · have hstep : clear_forcely_step s e = s := by simp [clear_forcely_step, hmem]
      rw [hstep]
      obtain ⟨a, b, c⟩ := ih s h1 h2
      refine ⟨a, b, ?_⟩
      intro p
      rw [c p]
      simp only [List.map_cons, List.mem_cons]
      constructor
      · rintro (h | h)
        · exact Or.inl h
        · exact Or.inr (Or.inr h)
      · rintro (h | h | h)
        · exact Or.inl h
        · subst h; exact Or.inl ((h1 _).1 hmem)
        · exact Or.inr h
    · have hstep : clear_forcely_step s e = (e.ptr :: s.1, s.2 ++ [e]) := by
        simp [clear_forcely_step, hmem]
      rw [hstep]
      have hnot : e.ptr ∉ s.2.map (fun e => e.ptr) := fun h => hmem ((h1 _).2 h)
      obtain ⟨a, b, c⟩ := ih (e.ptr :: s.1, s.2 ++ [e])
        (by
          intro p
          simp only [List.mem_cons, List.map_append, List.mem_append, List.map_cons,
            List.map_nil, List.not_mem_nil, or_false, h1 p]
          exact Or.comm)
        (by
          simp only [List.map_append, List.map_cons, List.map_nil]
          refine List.Nodup.append h2 (List.nodup_singleton _) ?_
          intro x hx hy
          rw [List.mem_singleton] at hy
          subst hy
          exact hnot hx)
      refine ⟨a, b, ?_⟩
      intro p
      rw [c p]
      simp only [List.map_append, List.mem_append, List.map_cons, List.map_nil,
        List.not_mem_nil, or_false, List.mem_cons]
      constructor
      · rintro ((h | h) | h)
        · exact Or.inl h
        · exact Or.inr (Or.inl h)
        · exact Or.inr (Or.inr h)
      · rintro (h | h | h)
        · exact Or.inl (Or.inl h)
        · exact Or.inl (Or.inr h)
        · exact Or.inr h

theorem clear_forcely_foldl_nodup (l : List hazard_pending_node) :
    ∀ s : List Nat × List hazard_pending_node,
      (l.map (fun e => e.ptr)).Nodup → (∀ p ∈ l.map (fun e => e.ptr), p ∉ s.1) →
      (l.foldl clear_forcely_step s).2 = s.2 ++ l := by
  induction l with
  | nil => intro s _ _; simp
  | cons e l ih =>
    intro s hnd hnot
    simp only [List.map_cons, List.nodup_cons] at hnd
    have hmem : e.ptr ∉ s.1 := hnot _ (by simp)
    have hstep : clear_forcely_step s e = (e.ptr :: s.1, s.2 ++ [e]) := by
      simp [clear_forcely_step, hmem]
    rw [List.foldl_cons, hstep, ih _ hnd.2]
    · simp
    · intro p hp
      simp only [List.mem_cons, not_or]
      refine ⟨?_, hnot p (by simp [hp])⟩
      intro e1
      subst e1
      exact hnd.1 hp

theorem destroy_eq (hp : hazard_pointer) :
    hp.destroy.1.__pending_list = [] ∧
    hp.destroy.2 = (hp.__pending_list.foldl clear_forcely_step ([], [])).2 := by
  unfold destroy clear_forcely
  cases hl : hp.__pending_list with
  | nil => simp [hl]
  | cons e rest => simp

theorem destroy_calls_of_nodup (hp : hazard_pointer)
    (h : (hp.__pending_list.map (fun e => e.ptr)).Nodup) :
    hp.destroy.2 = hp.__pending_list := by
  rw [(destroy_eq hp).2, clear_forcely_foldl_nodup _ _ h (by simp)]
  simp

theorem check_threshold_threshold (ord : IterationOrder) (hp : hazard_pointer) :
    (check_threshold ord hp).1.__threshold_of_clean_up = hp.__threshold_of_clean_up := by
  by_cases h : hp.__threshold_of_clean_up ≤ hp.__pending_size
  · rw [check_threshold_eq ord hp h]
  · rw [check_threshold_below ord hp h]

theorem domain_step_threshold (ord : IterationOrder) (s : domain_run) (op : domain_op) :
    (domain_step ord s op).hp.__threshold_of_clean_up = s.hp.__threshold_of_clean_up := by
  cases op with
  | reference =>
    show (s.hp.reference).1.__threshold_of_clean_up = _
    unfold reference
    cases claim_idle s.hp.__head with
    | none => rfl
    | some r => rfl
  | set hd p => rfl
  | dereference hd => rfl
  | delete_ptr p d =>
    show (s.hp.delete_ptr ord p d).1.__threshold_of_clean_up = _
    unfold delete_ptr
    cases hh : s.hp.__head with
    | nil => rfl
    | cons n rest =>
      simp only
      rw [check_threshold_threshold]

theorem domain_step_pending_size (ord : IterationOrder) (s : domain_run) (op : domain_op) :
    (match op with
      | .delete_ptr _ _ => delete_ptr_scans s.hp
      | _ => 0) * s.hp.__threshold_of_clean_up + (domain_step ord s op).hp.__pending_size ≤
      s.hp.__pending_size + (retired_ptrs [op]).length := by
  cases op with
  | reference =>
    have : (s.hp.reference).1.__pending_size = s.hp.__pending_size := (reference_pending s.hp).2
    simp [domain_step, retired_ptrs, this]
  | set hd p => simp [domain_step, retired_ptrs, hazard_pointer.set]
  | dereference hd => simp [domain_step, retired_ptrs, hazard_pointer.dereference]
  | delete_ptr p d =>
    show delete_ptr_scans s.hp * _ + (s.hp.delete_ptr ord p d).1.__pending_size ≤ _
    cases hh : s.hp.__head with
    | nil =>
      have h1 : s.hp.delete_ptr ord p d = (s.hp, []) := by simp [delete_ptr, hh]
      simp [delete_ptr_scans, hh, h1, retired_ptrs]
    | cons n rest =>
      have hne : s.hp.__head ≠ [] := by simp [hh]
      obtain ⟨_, hlow, hhigh⟩ := delete_ptr_with_slot ord s.hp p d hne
      simp only [retired_ptrs, List.length_cons, List.length_nil, delete_ptr_scans, hh]
      by_cases h : s.hp.__threshold_of_clean_up ≤ s.hp.__pending_size + 1
      · rw [hhigh h, if_neg (by omega)]
        omega
      · rw [hlow h, if_pos (by omega)]
        simp

theorem scans_initiated_bound (ord : IterationOrder) (ops : List domain_op) :
    ∀ s : domain_run,
      scans_initiated ord ops s * s.hp.__threshold_of_clean_up +
        (ops.foldl (domain_step ord) s).hp.__pending_size ≤
      s.hp.__pending_size + (retired_ptrs ops).length := by
  induction ops with
  | nil => intro s; simp [scans_initiated, retired_ptrs]
  | cons op ops ih =>
    intro s
    have h1 := domain_step_pending_size ord s op
    have h2 := ih (domain_step ord s op)
    rw [domain_step_threshold] at h2
    rw [retired_ptrs_cons op ops, List.length_append, List.foldl_cons]
    cases op with
    | reference => simp only [scans_initiated] at h1 h2 ⊢; omega
    | set hd p => simp only [scans_initiated] at h1 h2 ⊢; omega
    | dereference hd => simp only [scans_initiated] at h1 h2 ⊢; omega
    | delete_ptr p d =>
      simp only [scans_initiated] at h1 h2 ⊢
      rw [Nat.add_mul]
      omega

theorem wrap_int_add (a b : Int) : wrap_int (wrap_int a + b) = wrap_int (a + b) := by
  unfold wrap_int
  omega

theorem wrap_int_of_lt {x : Int} (h0 : 0 ≤ x) (h1 : x < 2147483648) : wrap_int x = x := by
  unfold wrap_int
  omega

theorem to_size_t_wrap_int_of_lt (n : Nat) (h : n < 2147483648) :
    to_size_t (wrap_int (n : Int)) = n := by
  rw [wrap_int_of_lt (by omega) (by omega)]
  unfold to_size_t
  omega

theorem queue_push_size {α : Type} {fuel : Nat} {q q1 : queue α} {t : α}
    (h : q.push fuel t = .ok q1) : q1.__size = wrap_int (q.__size + 1) := by
  unfold queue.push at h
  dsimp only at h
  split at h
  · exact Except.noConfusion h
  · simp only [Except.ok.injEq] at h
    rw [← h]

theorem queue_pop_size {α : Type} {ord : IterationOrder} {q q1 : queue α} {t t1 : α} {b : Bool}
    (h : q.pop ord t = .ok (q1, b, t1)) :
    q1.__size = if b then wrap_int (q.__size - 1) else q.__size := by
  unfold queue.pop at h
  split at h
  · exact Except.noConfusion h
  · split at h
    · exact Except.noConfusion h
    · split at h
      · simp only [Except.ok.injEq, Prod.mk.injEq] at h
        obtain ⟨h1, h2, _⟩ := h
        rw [← h1, ← h2]
        simp
      · split at h
        · exact Except.noConfusion h
        · dsimp only at h
          split at h
          · exact Except.noConfusion h
          · simp only [Except.ok.injEq, Prod.mk.injEq] at h
            obtain ⟨h1, h2, _⟩ := h
            rw [← h1, ← h2]
            simp

theorem stack_pop_size {α : Type} {ord : IterationOrder} {s s1 : stack α} {t t1 : α} {b : Bool}
    (h : s.pop ord t = .ok (s1, b, t1)) :
    s1.__size = if b then wrap_int (s.__size - 1) else s.__size := by
  unfold stack.pop at h
  split at h
  · simp only [Except.ok.injEq, Prod.mk.injEq] at h
    obtain ⟨h1, h2, _⟩ := h
    rw [← h1, ← h2]
    simp
  · split at h
    · exact Except.noConfusion h
    · dsimp only at h
      split at h
      · exact Except.noConfusion h
      · simp only [Except.ok.injEq, Prod.mk.injEq] at h
        obtain ⟨h1, h2, _⟩ := h
        rw [← h1, ← h2]
        simp

theorem wrap_int_idem (x : Int) : wrap_int (wrap_int x) = wrap_int x := by
  unfold wrap_int
  omega

/-- The state of a queue after a run from a state that satisfies `queue_inv`:
the pops answer as the reference FIFO, the invariant holds again, and the
chain length and the `int` counter follow the pushes and successful pops. -/
theorem queue_run_inv {α : Type} (fuel : Nat) (ord : IterationOrder)
    (ops : List (container_op α)) :
    ∀ (q : queue α) (d : Nat) (dv : α) (c : List (Nat × α)) (t : α), queue_inv q d dv c →
      ∃ q1 d1 dv1 c1,
        queue.run (fuel + 1) ord ops q t = .ok (q1, fifo_run ops (c.map Prod.snd) t) ∧
        queue_inv q1 d1 dv1 c1 ∧
        c1.length + true_pops (fifo_run ops (c.map Prod.snd) t) = c.length + pushes ops ∧
        wrap_int q1.__size = wrap_int (q.__size + (pushes ops : Int) -
          (true_pops (fifo_run ops (c.map Prod.snd) t) : Int)) := by
  induction ops with
  | nil =>
    intro q d dv c t h
    exact ⟨q, d, dv, c, rfl, h, by simp [fifo_run, true_pops, pushes],
      by simp [fifo_run, true_pops, pushes]⟩
  | cons op ops ih =>
    intro q d dv c t h
    cases op with
    | push v =>
      obtain ⟨q1, hpush, hinv⟩ := queue_push_inv fuel h v
      obtain ⟨q2, d2, dv2, c2, hrun, hinv2, hlen, hsize⟩ := ih q1 d dv _ t hinv
      have hs1 := queue_push_size hpush
      simp only [List.map_append, List.map_cons, List.map_nil] at hrun hlen hsize
      refine ⟨q2, d2, dv2, c2, ?_, hinv2, ?_, ?_⟩
      · simp only [queue.run, fifo_run, hpush, hrun]
      · simp only [fifo_run, pushes, List.length_append, List.length_cons, List.length_nil]
          at hlen ⊢
        omega
      · simp only [fifo_run, pushes]
        rw [hsize, hs1]
        push_cast
        unfold wrap_int
        omega
    | pop =>
      cases c with
      | nil =>
        obtain ⟨q1, hpop, hinv⟩ := queue_pop_empty ord h t
        obtain ⟨q2, d2, dv2, c2, hrun, hinv2, hlen, hsize⟩ := ih q1 d dv [] t hinv
        have hs1 := queue_pop_size hpop
        simp only [Bool.false_eq_true, if_false] at hs1
        simp only [List.map_nil] at hrun hlen hsize
        refine ⟨q2, d2, dv2, c2, ?_, hinv2, ?_, ?_⟩
        · simp only [queue.run, fifo_run, hpop, hrun, List.map_nil]
        · simpa only [fifo_run, pushes, true_pops, List.map_nil] using hlen
        · simp only [fifo_run, pushes, true_pops, List.map_nil]
          rw [hsize, hs1]
      | cons x rest =>
        obtain ⟨b, w⟩ := x
        obtain ⟨q1, hpop, hinv⟩ := queue_pop_cons ord h t
        obtain ⟨q2, d2, dv2, c2, hrun, hinv2, hlen, hsize⟩ := ih q1 b w rest w hinv
        have hs1 := queue_pop_size hpop
        simp only [if_true] at hs1
        refine ⟨q2, d2, dv2, c2, ?_, hinv2, ?_, ?_⟩
        · simp only [queue.run, fifo_run, hpop, hrun, List.map_cons]
        · simp only [fifo_run, pushes, true_pops, List.map_cons, List.length_cons] at hlen ⊢
          omega
        · simp only [fifo_run, pushes, true_pops, List.map_cons]
          rw [hsize, hs1]
          push_cast
          unfold wrap_int
          omega

theorem stack_run_inv {α : Type} (ord : IterationOrder) (ops : List (container_op α)) :
    ∀ (s : stack α) (c : List (Nat × α)) (t : α), stack_inv s c →
      ∃ s1 c1,
        stack.run ord ops s t = .ok (s1, lifo_run ops (c.map Prod.snd) t) ∧
        stack_inv s1 c1 ∧
        c1.length + true_pops (lifo_run ops (c.map Prod.snd) t) = c.length + pushes ops ∧
        wrap_int s1.__size = wrap_int (s.__size + (pushes ops : Int) -
          (true_pops (lifo_run ops (c.map Prod.snd) t) : Int)) := by
  induction ops with
  | nil =>
    intro s c t h
    exact ⟨s, c, rfl, h, by simp [lifo_run, true_pops, pushes],
      by simp [lifo_run, true_pops, pushes]⟩
  | cons op ops ih =>
    intro s c t h
    cases op with
    | push v =>
      obtain ⟨s2, c2, hrun, hinv2, hlen, hsize⟩ := ih _ _ t (stack_push_inv h v)
      simp only [List.map_cons] at hrun hlen hsize
      refine ⟨s2, c2, ?_, hinv2, ?_, ?_⟩
      · simp only [stack.run, lifo_run, hrun]
      · simp only [lifo_run, pushes, List.length_cons] at hlen ⊢
        omega
      · simp only [lifo_run, pushes]
        rw [hsize]
        simp only [stack.push]
        push_cast
        unfold wrap_int
        omega
    | pop =>
      cases c with
      | nil =>
        obtain ⟨s1, hpop, hinv⟩ := stack_pop_empty ord h t
        obtain ⟨s2, c2, hrun, hinv2, hlen, hsize⟩ := ih s1 [] t hinv
        have hs1 := stack_pop_size hpop
        simp only [Bool.false_eq_true, if_false] at hs1
        simp only [List.map_nil] at hrun hlen hsize
        refine ⟨s2, c2, ?_, hinv2, ?_, ?_⟩
        · simp only [stack.run, lifo_run, hpop, hrun, List.map_nil]
        · simpa only [lifo_run, pushes, true_pops, List.map_nil] using hlen
        · simp only [lifo_run, pushes, true_pops, List.map_nil]
          rw [hsize, hs1]
      | cons x rest =>
        obtain ⟨b, w⟩ := x
        obtain ⟨s1, hpop, hinv⟩ := stack_pop_cons ord h t
        obtain ⟨s2, c2, hrun, hinv2, hlen, hsize⟩ := ih s1 rest w hinv
        have hs1 := stack_pop_size hpop
        simp only [if_true] at hs1
        refine ⟨s2, c2, ?_, hinv2, ?_, ?_⟩
        · simp only [stack.run, lifo_run, hpop, hrun, List.map_cons]
        · simp only [lifo_run, pushes, true_pops, List.map_cons, List.length_cons] at hlen ⊢
          omega
        · simp only [lifo_run, pushes, true_pops, List.map_cons]
          rw [hsize, hs1]
          push_cast
          unfold wrap_int
          omega

theorem queue_run_size_range {α : Type} (fuel : Nat) (ord : IterationOrder)
    (ops : List (container_op α)) :
    ∀ (q q1 : queue α) (t : α) (out : List (Bool × α)),
      queue.run fuel ord ops q t = .ok (q1, out) → wrap_int q.__size = q.__size →
      wrap_int q1.__size = q1.__size := by
  induction ops with
  | nil =>
    intro q q1 t out h hr
    simp only [queue.run, Except.ok.injEq, Prod.mk.injEq] at h
    rw [← h.1]
    exact hr
  | cons op ops ih =>
    intro q q1 t out h hr
    cases op with
    | push v =>
      simp only [queue.run] at h
      cases hp : q.push fuel v with
      | error f => simp [hp] at h
      | ok q2 =>
        simp only [hp] at h
        exact ih q2 q1 t out h (by rw [queue_push_size hp, wrap_int_idem])
    | pop =>
      simp only [queue.run] at h
      cases hp : q.pop ord t with
      | error f => simp [hp] at h
      | ok r =>
        obtain ⟨q2, b, t1⟩ := r
        simp only [hp] at h
        cases hr2 : queue.run fuel ord ops q2 t1 with
        | error f => simp [hr2] at h
        | ok r2 =>
          obtain ⟨q3, out2⟩ := r2
          simp only [hr2, Except.ok.injEq, Prod.mk.injEq] at h
          rw [← h.1]
          refine ih q2 q3 t1 out2 hr2 ?_
          rw [queue_pop_size hp]
          cases b
          · simpa using hr
          · simp [wrap_int_idem]

theorem stack_run_size_range {α : Type} (ord : IterationOrder)
    (ops : List (container_op α)) :
    ∀ (s s1 : stack α) (t : α) (out : List (Bool × α)),
      stack.run ord ops s t = .ok (s1, out) → wrap_int s.__size = s.__size →
      wrap_int s1.__size = s1.__size := by
  induction ops with
  | nil =>
    intro s s1 t out h hr
    simp only [stack.run, Except.ok.injEq, Prod.mk.injEq] at h
    rw [← h.1]
    exact hr
  | cons op ops ih =>
    intro s s1 t out h hr
    cases op with
    | push v =>
      simp only [stack.run] at h
      exact ih _ s1 t out h (by simp [stack.push, wrap_int_idem])
    | pop =>
      simp only [stack.run] at h
      cases hp : s.pop ord t with
      | error f => simp [hp] at h
      | ok r =>
        obtain ⟨s2, b, t1⟩ := r
        simp only [hp] at h
        cases hr2 : stack.run ord ops s2 t1 with
        | error f => simp [hr2] at h
        | ok r2 =>
          obtain ⟨s3, out2⟩ := r2
          simp only [hr2, Except.ok.injEq, Prod.mk.injEq] at h
          rw [← h.1]
          refine ih s2 s3 t1 out2 hr2 ?_
          rw [stack_pop_size hp]
          cases b
          · simpa using hr
          · simp [wrap_int_idem]

/-- After a run on a fresh queue: the counter, and the number of nodes after
the dummy. -/
theorem queue_run_fresh {α : Type} (fuel : Nat) (ord : IterationOrder) (threshold : Nat)
    (dummy : α) (ops : List (container_op α)) (t : α) :
    ∃ q1 d1 dv1 c1,
      queue.run (fuel + 1) ord ops (queue.new threshold dummy) t =
        .ok (q1, fifo_run ops [] t) ∧
      queue_inv q1 d1 dv1 c1 ∧
      c1.length + true_pops (fifo_run ops [] t) = pushes ops ∧
      q1.__size = wrap_int ((pushes ops : Int) - (true_pops (fifo_run ops [] t) : Int)) := by
  obtain ⟨q1, d1, dv1, c1, hrun, hinv, hlen, hsize⟩ :=
    queue_run_inv fuel ord ops _ 0 dummy [] t (queue_new_inv threshold dummy)
  simp only [List.map_nil, List.length_nil, Nat.zero_add] at hrun hlen hsize
  refine ⟨q1, d1, dv1, c1, hrun, hinv, hlen, ?_⟩
  have hr := queue_run_size_range (fuel + 1) ord ops _ q1 t _ hrun (by
    show wrap_int 0 = 0
    unfold wrap_int
    omega)
  rw [← hr, hsize]
  congr 1
  show (0 : Int) + _ - _ = _
  omega

theorem stack_run_fresh {α : Type} (ord : IterationOrder) (threshold : Nat)
    (ops : List (container_op α)) (t : α) :
    ∃ s1 c1,
      stack.run ord ops (stack.new threshold) t = .ok (s1, lifo_run ops [] t) ∧
      stack_inv s1 c1 ∧
      c1.length + true_pops (lifo_run ops [] t) = pushes ops ∧
      s1.__size = wrap_int ((pushes ops : Int) - (true_pops (lifo_run ops [] t) : Int)) := by
  obtain ⟨s1, c1, hrun, hinv, hlen, hsize⟩ :=
    stack_run_inv ord ops _ [] t (stack_new_inv threshold)
  simp only [List.map_nil, List.length_nil, Nat.zero_add] at hrun hlen hsize
  refine ⟨s1, c1, hrun, hinv, hlen, ?_⟩
  have hr := stack_run_size_range ord ops _ s1 t _ hrun (by
    show wrap_int 0 = 0
    unfold wrap_int
    omega)
  rw [← hr, hsize]
  congr 1
  show (0 : Int) + _ - _ = _
  omega


theorem pushes_replicate {α : Type} (n : Nat) (v : α) :
    pushes (List.replicate n (container_op.push v)) = n := by
  induction n with
  | zero => rfl
  | succ n ih => simp [List.replicate_succ, pushes, ih]

theorem fifo_run_replicate_push {α : Type} (n : Nat) (v : α) :
    ∀ (l : List α) (t : α), fifo_run (List.replicate n (container_op.push v)) l t = [] := by
  induction n with
  | zero => intro l t; rfl
  | succ n ih => intro l t; simp [List.replicate_succ, fifo_run, ih]

theorem lifo_run_replicate_push {α : Type} (n : Nat) (v : α) :
    ∀ (l : List α) (t : α), lifo_run (List.replicate n (container_op.push v)) l t = [] := by
  induction n with
  | zero => intro l t; rfl
  | succ n ih => intro l t; simp [List.replicate_succ, lifo_run, ih]

theorem true_pops_le_pushes_fifo {α : Type} (ops : List (container_op α)) :
    ∀ (l : List α) (t : α), true_pops (fifo_run ops l t) ≤ l.length + pushes ops := by
  induction ops with
  | nil => intro l t; simp [fifo_run, true_pops]
  | cons op ops ih =>
    intro l t
    cases op with
    | push v =>
      have := ih (l ++ [v]) t
      simp only [fifo_run, pushes, List.length_append, List.length_cons, List.length_nil]
        at this ⊢
      omega
    | pop =>
      cases l with
      | nil =>
        have := ih [] t
        simpa [fifo_run, pushes, true_pops] using this
      | cons x l =>
        have := ih l x
        simp only [fifo_run, pushes, true_pops, List.length_cons] at this ⊢
        omega

theorem to_size_t_wrap_int_big :
    to_size_t (wrap_int ((2147483648 : Nat) : Int) ) = 18446744071562067968 := by
  unfold to_size_t wrap_int
  omega


theorem queue_chain_unique {α : Type} {heap : List (Option (queue_node α))}
    (c : List (Nat × α)) :
    ∀ (c1 : List (Nat × α)) (a : Nat) (v v1 : α),
      queue_chain heap a v c → queue_chain heap a v1 c1 → v = v1 ∧ c = c1 := by
  induction c with
  | nil =>
    intro c1 a v v1 h h1
    cases c1 with
    | nil =>
      have h2 : heap[a]? = some (some { t := v, next := none }) := h
      have h3 : heap[a]? = some (some { t := v1, next := none }) := h1
      rw [h2] at h3
      simp only [Option.some.injEq, queue_node.mk.injEq, and_true] at h3
      exact ⟨h3, rfl⟩
    | cons x rest =>
      obtain ⟨b, w⟩ := x
      have h2 : heap[a]? = some (some { t := v, next := none }) := h
      have h3 : heap[a]? = some (some { t := v1, next := some b }) := h1.1
      rw [h2] at h3
      simp at h3
  | cons x rest ih =>
    obtain ⟨b, w⟩ := x
    intro c1 a v v1 h h1
    have h2 : heap[a]? = some (some { t := v, next := some b }) := h.1
    cases c1 with
    | nil =>
      have h3 : heap[a]? = some (some { t := v1, next := none }) := h1
      rw [h2] at h3
      simp at h3
    | cons y rest1 =>
      obtain ⟨b1, w1⟩ := y
      have h3 : heap[a]? = some (some { t := v1, next := some b1 }) := h1.1
      rw [h2] at h3
      simp only [Option.some.injEq, queue_node.mk.injEq] at h3
      obtain ⟨hv, hb⟩ := h3
      subst hb
      obtain ⟨hw, hrest⟩ := ih rest1 b w w1 h.2 h1.2
      subst hw
      subst hrest
      exact ⟨hv, rfl⟩

theorem queue_chain_last {α : Type} {heap : List (Option (queue_node α))}
    (c : List (Nat × α)) :
    ∀ (a : Nat) (v : α), queue_chain heap a v c →
      ∃ lv, heap[last_addr a c]? = some (some { t := lv, next := none }) := by
  induction c with
  | nil => intro a v h; exact ⟨v, h⟩
  | cons x rest ih =>
    obtain ⟨b, w⟩ := x
    intro a v h
    exact ih b w h.2


theorem run_deleters_frees {γ : Type} (calls : List hazard_pending_node) :
    ∀ heap : List (Option γ),
      (calls.map (fun e => e.ptr)).Nodup →
      (∀ e ∈ calls, ∃ a, e.ptr = a + 1 ∧ live heap a) →
      ∃ heap1, run_deleters heap calls = .ok heap1 ∧ heap1.length = heap.length ∧
        (∀ b, b + 1 ∉ calls.map (fun e => e.ptr) → heap1[b]? = heap[b]?) ∧
        ∀ e ∈ calls, ∃ b, e.ptr = b + 1 ∧ heap1[b]? = some none := by
  induction calls with
  | nil => intro heap _ _; exact ⟨heap, rfl, rfl, fun _ _ => rfl, by simp⟩
  | cons c calls ih =>
    intro heap hnd hlive
    obtain ⟨a, ha, node, hnode⟩ := hlive c (List.mem_cons_self _ _)
    have hlt : a < heap.length := live_lt ⟨node, hnode⟩
    simp only [List.map_cons, List.nodup_cons] at hnd
    have hstep : delete_final heap c.ptr = .ok (heap.set a none) := by
      rw [ha]
      simp [delete_final, hnode]
    have hlive1 : ∀ e ∈ calls, ∃ b, e.ptr = b + 1 ∧ live (heap.set a none) b := by
      intro e he
      obtain ⟨b, hb, nodeb, hnodeb⟩ := hlive e (List.mem_cons_of_mem _ he)
      refine ⟨b, hb, nodeb, ?_⟩
      have hne : a ≠ b := by
        intro hab
        apply hnd.1
        rw [ha, hab, ← hb]
        exact List.mem_map_of_mem _ he
      rw [List.getElem?_set_ne hne]
      exact hnodeb
    obtain ⟨heap1, hrun, hlen, hsame, hfreed⟩ := ih (heap.set a none) hnd.2 hlive1
    refine ⟨heap1, ?_, ?_, ?_, ?_⟩
    · simp [run_deleters, hstep, hrun]
    · simp [hlen]
    · intro b hb
      simp only [List.map_cons, List.mem_cons, not_or] at hb
      rw [hsame b hb.2]
      have hne : a ≠ b := by
        intro hab
        apply hb.1
        rw [ha, hab]
      rw [List.getElem?_set_ne hne]
    · intro e he
      rcases List.mem_cons.1 he with he | he
      · subst he
        refine ⟨a, ha, ?_⟩
        rw [hsame a (by rw [← ha]; exact hnd.1)]
        simp [List.getElem?_set_self, hlt]
      · exact hfreed e he

theorem check_threshold_idle_perm (ord : IterationOrder) (hp : hazard_pointer)
    (hidle : protected_ptrs hp.__head = [])
    (h : hp.__threshold_of_clean_up ≤ hp.__pending_size)
    (hnd : (hp.__pending_list.map (fun e => e.ptr)).Nodup) :
    (check_threshold ord hp).2.Perm hp.__pending_list := by
  obtain ⟨_, _, hsub⟩ := check_threshold_idle ord hp hidle h
  have hi := scan_result_inv hp
  have hcalls : (check_threshold ord hp).2 = (scan_result hp).calls := by
    rw [check_threshold_eq ord hp h]
  apply hsub.perm_of_length_le
  have hss : hp.__pending_list.map (fun e => e.ptr) ⊆
      (check_threshold ord hp).2.map (fun e => e.ptr) := by
    intro p hp1
    rw [hcalls]
    exact (hi.calls_mem p).2 ⟨hp1, by rw [hidle]; simp⟩
  have := (List.subperm_of_subset hnd hss).length_le
  simpa using this

theorem delete_ptr_run_full {γ : Type} (ord : IterationOrder) (hp : hazard_pointer)
    (heap : List (Option γ)) (a d : Nat) (keep : List Nat)
    (hslots : hp.__head ≠ []) (hidle : slots_idle hp.__head)
    (hpend : pending_ok heap hp.__pending_list (a :: keep))
    (hlive : live heap a) :
    ∃ heap1, run_deleters heap (hp.delete_ptr ord (a + 1) d).2 = .ok heap1 ∧
      (∀ b, b + 1 ∉ (hp.delete_ptr ord (a + 1) d).2.map (fun e => e.ptr) →
        heap1[b]? = heap[b]?) ∧
      (∀ e ∈ (hp.delete_ptr ord (a + 1) d).2, ∃ b, e.ptr = b + 1 ∧ heap1[b]? = some none) ∧
      ((hp.delete_ptr ord (a + 1) d).2 ++ (hp.delete_ptr ord (a + 1) d).1.__pending_list).Perm
        ({ ptr := a + 1, deleter := d } :: hp.__pending_list) := by
  obtain ⟨h1, hlow, _⟩ := delete_ptr_with_slot ord hp (a + 1) d hslots
  have hRnd : (({ ptr := a + 1, deleter := d } :: hp.__pending_list :
      List hazard_pending_node).map (fun e => e.ptr)).Nodup := by
    simp only [List.map_cons, List.nodup_cons]
    refine ⟨?_, hpend.1⟩
    intro hmem
    obtain ⟨e, he, hea⟩ := List.mem_map.1 hmem
    obtain ⟨b, hb, _, hnot⟩ := hpend.2 e he
    apply hnot
    have : b = a := by omega
    rw [this]
    exact List.mem_cons_self _ _
  have hRlive : ∀ e ∈ ({ ptr := a + 1, deleter := d } :: hp.__pending_list :
      List hazard_pending_node), ∃ b, e.ptr = b + 1 ∧ live heap b := by
    intro e he
    rcases List.mem_cons.1 he with he | he
    · subst he
      exact ⟨a, rfl, hlive⟩
    · obtain ⟨b, hb, hl, _⟩ := hpend.2 e he
      exact ⟨b, hb, hl⟩
  by_cases hthr : hp.__threshold_of_clean_up ≤ hp.__pending_size + 1
  · obtain ⟨hst, hnd, hsub⟩ := check_threshold_idle ord
      { hp with
          __pending_list := { ptr := a + 1, deleter := d } :: hp.__pending_list,
          __pending_size := hp.__pending_size + 1 }
      (protected_ptrs_idle hidle) hthr
    have hperm := check_threshold_idle_perm ord
      { hp with
          __pending_list := { ptr := a + 1, deleter := d } :: hp.__pending_list,
          __pending_size := hp.__pending_size + 1 }
      (protected_ptrs_idle hidle) hthr hRnd
    rw [← h1] at hst hnd hsub hperm
    obtain ⟨heap1, hrun, _, hsame, hfreed⟩ := run_deleters_frees _ heap hnd
      (fun e he => hRlive e (hsub.subset he))
    refine ⟨heap1, hrun, hsame, hfreed, ?_⟩
    rw [hst]
    simpa using hperm
  · rw [hlow hthr]
    exact ⟨heap, rfl, fun _ _ => rfl, by simp, by simp⟩

theorem stack_pop_calls_cons {α : Type} (ord : IterationOrder) {s : stack α} {a : Nat} {v : α}
    {nxt : Option Nat} (hhd : s.__head = some a)
    (ha : s.heap[a]? = some (some { t := v, next := nxt })) :
    s.pop_calls ord =
      ((s.__hp.reference.1.dereference s.__hp.reference.2).delete_ptr ord (a + 1) 0).2 := by
  simp only [stack.pop_calls, hhd, load, ha, set_dereference, to_void]

theorem stack_pop_cons_calls {α : Type} (ord : IterationOrder) {s : stack α} {a : Nat} {v : α}
    {rest : List (Nat × α)} (h : stack_inv s ((a, v) :: rest)) (t : α)
    (calls : List hazard_pending_node) (hc : calls_inv s.heap s.__hp.__pending_list calls) :
    ∃ s1, s.pop ord t = .ok (s1, true, v) ∧ stack_inv s1 rest ∧
      calls_inv s1.heap s1.__hp.__pending_list (calls ++ s.pop_calls ord) ∧
      (calls ++ s.pop_calls ord).length + s1.__hp.__pending_list.length =
        calls.length + s.__hp.__pending_list.length + 1 := by
  obtain ⟨s1, hpop, hinv⟩ := stack_pop_cons ord h t
  obtain ⟨hhd, nxt, ha, hrest⟩ := h.chain
  obtain ⟨hidle, hne, hpl, _, _⟩ := reference_dereference_idle s.__hp h.idle
  have hpend : pending_ok s.heap
      (s.__hp.reference.1.dereference s.__hp.reference.2).__pending_list
      (a :: rest.map Prod.fst) := by
    rw [hpl]
    exact h.pending
  obtain ⟨heap1, hrun, hsame, hfreed, hperm⟩ :=
    delete_ptr_run_full ord (s.__hp.reference.1.dereference s.__hp.reference.2) s.heap a 0
      (rest.map Prod.fst) hne hidle hpend ⟨_, ha⟩
  have hpop1 : s.pop ord t =
      .ok ({ __hp := ((s.__hp.reference.1.dereference s.__hp.reference.2).delete_ptr ord
                (a + 1) 0).1
             __size := wrap_int (s.__size - 1)
             __head := nxt
             heap := heap1 }, true, v) := by
    simp only [stack.pop, hhd, load, ha, set_dereference, to_void, hrun]
  rw [hpop1] at hpop
  simp only [Except.ok.injEq, Prod.mk.injEq, and_true] at hpop
  subst hpop
  rw [hpl] at hperm
  rw [stack_pop_calls_cons ord hhd ha]
  refine ⟨_, hpop1, hinv, ⟨?_, ?_⟩, ?_⟩
  · have hp2 : ((calls ++ ((s.__hp.reference.1.dereference s.__hp.reference.2).delete_ptr ord
          (a + 1) 0).2 ++
        ((s.__hp.reference.1.dereference s.__hp.reference.2).delete_ptr ord
          (a + 1) 0).1.__pending_list).map (fun e => e.ptr)).Perm
        ((a + 1) :: (calls ++ s.__hp.__pending_list).map (fun e => e.ptr)) := by
      rw [List.append_assoc]
      refine ((hperm.append_left calls).map _).trans ?_
      simp only [List.map_append, List.map_cons]
      exact List.perm_middle
    refine hp2.nodup_iff.2 (List.nodup_cons.2 ⟨?_, hc.1⟩)
    simp only [List.map_append, List.mem_append, not_or]
    constructor
    · intro hm
      obtain ⟨e, he, hea⟩ := List.mem_map.1 hm
      obtain ⟨b, hb, hnone⟩ := hc.2 e he
      have : b = a := by omega
      rw [this, ha] at hnone
      simp at hnone
    · intro hm
      obtain ⟨e, he, hea⟩ := List.mem_map.1 hm
      obtain ⟨b, hb, _, hnot⟩ := h.pending.2 e he
      apply hnot
      have : b = a := by omega
      rw [this]
      simp
  · intro e he
    rcases List.mem_append.1 he with he | he
    · obtain ⟨b, hb, hnone⟩ := hc.2 e he
      by_cases hin : b + 1 ∈ ((s.__hp.reference.1.dereference s.__hp.reference.2).delete_ptr ord
          (a + 1) 0).2.map (fun e => e.ptr)
      · obtain ⟨e1, he1, hee⟩ := List.mem_map.1 hin
        obtain ⟨b1, hb1, hnone1⟩ := hfreed e1 he1
        have : b1 = b := by omega
        rw [this] at hnone1
        exact ⟨b, hb, hnone1⟩
      · exact ⟨b, hb, by rw [hsame b hin]; exact hnone⟩
    · exact hfreed e he
  · have := hperm.length_eq
    simp only [List.length_append, List.length_cons] at this ⊢
    omega


theorem run_deleters_length {γ : Type} (calls : List hazard_pending_node) :
    ∀ heap heap1 : List (Option γ), run_deleters heap calls = .ok heap1 →
      heap1.length = heap.length := by
  induction calls with
  | nil =>
    intro heap heap1 h
    simp only [run_deleters, Except.ok.injEq] at h
    rw [← h]
  | cons c calls ih =>
    intro heap heap1 h
    simp only [run_deleters] at h
    cases hd : delete_final heap c.ptr with
    | error f => simp [hd] at h
    | ok heap2 =>
      simp only [hd] at h
      rw [ih heap2 heap1 h]
      unfold delete_final at hd
      split at hd
      · simp only [Except.ok.injEq] at hd
        rw [← hd]
      · split at hd
        · simp only [Except.ok.injEq] at hd
          rw [← hd]
          simp
        · exact Except.noConfusion hd

theorem stack_pop_length {α : Type} {ord : IterationOrder} {s s1 : stack α} {t t1 : α}
    {b : Bool} (h : s.pop ord t = .ok (s1, b, t1)) : s1.heap.length = s.heap.length := by
  unfold stack.pop at h
  split at h
  · simp only [Except.ok.injEq, Prod.mk.injEq] at h
    rw [← h.1]
  · split at h
    · exact Except.noConfusion h
    · dsimp only at h
      split at h
      · exact Except.noConfusion h
      · rename_i heap1 hrun
        simp only [Except.ok.injEq, Prod.mk.injEq] at h
        rw [← h.1]
        exact run_deleters_length _ _ _ hrun

theorem stack_push_calls {α : Type} {s : stack α} {calls : List hazard_pending_node}
    (hc : calls_inv s.heap s.__hp.__pending_list calls) (v : α) :
    calls_inv (s.push v).heap (s.push v).__hp.__pending_list calls := by
  refine ⟨hc.1, ?_⟩
  intro e he
  obtain ⟨a, ha, hnone⟩ := hc.2 e he
  refine ⟨a, ha, ?_⟩
  have hlt : a < s.heap.length := (List.getElem?_eq_some_iff.1 hnone).1
  show (s.heap ++ _)[a]? = _
  rw [List.getElem?_append_left hlt]
  exact hnone

theorem stack_pop_empty_calls {α : Type} (ord : IterationOrder) {s : stack α}
    (h : stack_inv s []) (t : α) (calls : List hazard_pending_node)
    (hc : calls_inv s.heap s.__hp.__pending_list calls) :
    ∃ s1, s.pop ord t = .ok (s1, false, t) ∧ stack_inv s1 [] ∧
      s.pop_calls ord = [] ∧
      calls_inv s1.heap s1.__hp.__pending_list calls ∧
      s1.__hp.__pending_list.length = s.__hp.__pending_list.length := by
  obtain ⟨s1, hpop, hinv⟩ := stack_pop_empty ord h t
  have hhd : s.__head = none := h.chain
  obtain ⟨_, _, hpl, _, _⟩ := reference_dereference_idle s.__hp h.idle
  have hpop1 : s.pop ord t =
      .ok ({ s with __hp := s.__hp.reference.1.dereference s.__hp.reference.2 }, false, t) := by
    simp [stack.pop, hhd, set_dereference]
  rw [hpop1] at hpop
  simp only [Except.ok.injEq, Prod.mk.injEq, and_true] at hpop
  subst hpop
  refine ⟨_, hpop1, hinv, by simp [stack.pop_calls, hhd], ?_, by simp only [hpl]⟩
  simp only [hpl]
  exact hc

theorem stack_run_calls_inv {α : Type} (ord : IterationOrder) (ops : List (container_op α)) :
    ∀ (s : stack α) (c : List (Nat × α)) (t : α) (calls : List hazard_pending_node),
      stack_inv s c → calls_inv s.heap s.__hp.__pending_list calls →
      ∃ s1 c1,
        stack.run ord ops s t = .ok (s1, lifo_run ops (c.map Prod.snd) t) ∧
        stack_inv s1 c1 ∧
        c1.length + true_pops (lifo_run ops (c.map Prod.snd) t) = c.length + pushes ops ∧
        s1.heap.length = s.heap.length + pushes ops ∧
        calls_inv s1.heap s1.__hp.__pending_list (calls ++ stack.run_calls ord ops s t) ∧
        (calls ++ stack.run_calls ord ops s t).length + s1.__hp.__pending_list.length =
          calls.length + s.__hp.__pending_list.length +
            true_pops (lifo_run ops (c.map Prod.snd) t) := by
  induction ops with
  | nil =>
    intro s c t calls h hc
    exact ⟨s, c, rfl, h, by simp [lifo_run, true_pops, pushes], by simp [pushes],
      by simpa [stack.run_calls] using hc, by simp [stack.run_calls, lifo_run, true_pops]⟩
  | cons op ops ih =>
    intro s c t calls h hc
    cases op with
    | push v =>
      obtain ⟨s2, c2, hrun, hinv2, hlen, hheap, hc2, hcount⟩ :=
        ih _ _ t calls (stack_push_inv h v) (stack_push_calls hc v)
      simp only [List.map_cons] at hrun hlen hcount
      refine ⟨s2, c2, ?_, hinv2, ?_, ?_, ?_, ?_⟩
      · simp only [stack.run, lifo_run, hrun]
      · simp only [lifo_run, pushes, List.length_cons] at hlen ⊢
        omega
      · rw [hheap]
        simp only [stack.push, List.length_append, List.length_cons, List.length_nil, pushes]
        omega
      · simpa only [stack.run_calls] using hc2
      · simpa only [stack.run_calls, lifo_run] using hcount
    | pop =>
      cases c with
      | nil =>
        obtain ⟨s1, hpop, hinv, hpc, hc1, hpl⟩ := stack_pop_empty_calls ord h t calls hc
        obtain ⟨s2, c2, hrun, hinv2, hlen, hheap, hc2, hcount⟩ := ih s1 [] t calls hinv hc1
        simp only [List.map_nil] at hrun hlen hcount
        refine ⟨s2, c2, ?_, hinv2, ?_, ?_, ?_, ?_⟩
        · simp only [stack.run, lifo_run, hpop, hrun, List.map_nil]
        · simpa only [lifo_run, pushes, true_pops, List.map_nil] using hlen
        · rw [hheap, stack_pop_length hpop]
          simp only [pushes]
        · simpa only [stack.run_calls, hpop, hpc, List.nil_append] using hc2
        · simp only [stack.run_calls, hpop, hpc, List.nil_append, lifo_run, true_pops,
            List.map_nil]
          omega
      | cons x rest =>
        obtain ⟨b, w⟩ := x
        obtain ⟨s1, hpop, hinv, hc1, hcnt1⟩ := stack_pop_cons_calls ord h t calls hc
        obtain ⟨s2, c2, hrun, hinv2, hlen, hheap, hc2, hcount⟩ :=
          ih s1 rest w (calls ++ s.pop_calls ord) hinv hc1
        refine ⟨s2, c2, ?_, hinv2, ?_, ?_, ?_, ?_⟩
        · simp only [stack.run, lifo_run, hpop, hrun, List.map_cons]
        · simp only [lifo_run, pushes, true_pops, List.map_cons, List.length_cons] at hlen ⊢
          omega
        · rw [hheap, stack_pop_length hpop]
          simp only [pushes]
        · simpa only [stack.run_calls, hpop, List.append_assoc] using hc2
        · simp only [stack.run_calls, hpop, lifo_run, true_pops, List.map_cons]
          rw [← List.append_assoc]
          omega

theorem lifo_run_map_push {α : Type} (vs : List α) (ops : List (container_op α)) :
    ∀ (l : List α) (t : α),
      lifo_run (vs.map container_op.push ++ ops) l t = lifo_run ops (vs.reverse ++ l) t := by
  induction vs with
  | nil => intro l t; rfl
  | cons v vs ih =>
    intro l t
    show lifo_run (vs.map container_op.push ++ ops) (v :: l) t = _
    rw [ih]
    simp

theorem true_pops_lifo_replicate_pop {α : Type} (l : List α) :
    ∀ t : α, true_pops (lifo_run (List.replicate l.length container_op.pop) l t) = l.length := by
  induction l with
  | nil => intro t; rfl
  | cons x l ih =>
    intro t
    simp only [List.length_cons, List.replicate_succ, lifo_run, true_pops, ih]

theorem pushes_map_push {α : Type} (vs : List α) (n : Nat) :
    pushes (vs.map container_op.push ++ List.replicate n container_op.pop) = vs.length := by
  induction vs with
  | nil =>
    induction n with
    | zero => rfl
    | succ n ih => simpa [List.replicate_succ, pushes] using ih
  | cons v vs ih => simp [pushes, ih]

theorem stack_destroy_empty {α : Type} (fuel : Nat) {s : stack α} (h : stack_inv s []) :
    ∃ heap1, s.destroy (fuel + 1) = .ok (heap1, s.__hp.__pending_list) := by
  have hhd : s.__head = none := h.chain
  have hd : s.__hp.destroy.2 = s.__hp.__pending_list := destroy_calls_of_nodup _ h.pending.1
  obtain ⟨heap1, hrun, _, _⟩ := run_deleters_ok s.__hp.__pending_list s.heap h.pending.1
    (fun e he => by
      obtain ⟨a, ha, hl, _⟩ := h.pending.2 e he
      exact ⟨a, ha, hl⟩)
  exact ⟨heap1, by simp [stack.destroy, stack.destroy_loop, hhd, hd, hrun]⟩


theorem stack_pop_applies_calls {α : Type} {ord : IterationOrder} {s s1 : stack α} {t t1 : α}
    {b : Bool} (h : s.pop ord t = .ok (s1, b, t1)) :
    run_deleters s.heap (s.pop_calls ord) = .ok s1.heap := by
  unfold stack.pop at h
  unfold stack.pop_calls
  split at h
  · simp only [Except.ok.injEq, Prod.mk.injEq] at h
    rw [← h.1]
    rfl
  · split at h
    · exact Except.noConfusion h
    · dsimp only at h
      split at h
      · exact Except.noConfusion h
      · rename_i hn hhd _ node hload _ heap1 hrun
        simp only [Except.ok.injEq, Prod.mk.injEq] at h
        rw [← h.1]
        simp only [hload]
        exact hrun

theorem contains_loop_spec {α : Type} [DecidableEq α] (hpn : Nat) (t : α)
    {heap : List (Option (queue_node α))} (c : List (Nat × α)) :
    ∀ (a : Nat) (v : α) (fuel : Nat) (hp : hazard_pointer),
      queue_chain heap a v c → c.length + 2 ≤ fuel →
      ∃ hp1 rst, queue.contains_loop hpn t heap fuel hp (some a) = .ok (hp1, rst) ∧
        (rst = true ↔ (v = t ∨ t ∈ c.map Prod.snd)) := by
  induction c with
  | nil =>
    intro a v fuel hp h hf
    obtain ⟨f, rfl⟩ : ∃ f, fuel = f + 2 := ⟨fuel - 2, by simp at hf; omega⟩
    have ha : heap[a]? = some (some { t := v, next := none }) := h
    by_cases hv : v = t
    · exact ⟨hp.set hpn (to_void (some a)), true,
        by simp [queue.contains_loop, load, ha, hv], by simp [hv]⟩
    · exact ⟨hp.set hpn (to_void (some a)), false,
        by simp [queue.contains_loop, load, ha, hv], by simp [hv]⟩
  | cons x rest ih =>
    obtain ⟨b, w⟩ := x
    intro a v fuel hp h hf
    obtain ⟨f, rfl⟩ : ∃ f, fuel = f + 1 := ⟨fuel - 1, by simp at hf; omega⟩
    have ha : heap[a]? = some (some { t := v, next := some b }) := h.1
    by_cases hv : v = t
    · exact ⟨hp.set hpn (to_void (some a)), true,
        by simp [queue.contains_loop, load, ha, hv], by simp [hv]⟩
    · obtain ⟨hp1, rst, hloop, hiff⟩ := ih b w f (hp.set hpn (to_void (some a))) h.2
        (by simp only [List.length_cons] at hf; omega)
      refine ⟨hp1, rst, by simp [queue.contains_loop, load, ha, hv, hloop], ?_⟩
      rw [hiff]
      simp only [List.map_cons, List.mem_cons]
      constructor
      · rintro (h1 | h1)
        · exact Or.inr (Or.inl h1.symm)
        · exact Or.inr (Or.inr h1)
      · rintro (h1 | h1 | h1)
        · exact absurd h1 hv
        · exact Or.inl h1.symm
        · exact Or.inr h1

/-- What `contains` answers between two calls on one thread: true exactly
when `t` is the value held by the dummy node or one of the values after
it. -/
theorem queue_contains_spec {α : Type} [DecidableEq α] {q : queue α} {d : Nat} {dv : α}
    {c : List (Nat × α)} (h : queue_inv q d dv c) (t : α) (fuel : Nat)
    (hf : c.length + 2 ≤ fuel) :
    ∃ q1 rst, q.contains fuel t = .ok (q1, rst) ∧
      (rst = true ↔ (dv = t ∨ t ∈ c.map Prod.snd)) := by
  obtain ⟨hp1, rst, hloop, hiff⟩ := contains_loop_spec q.__hp.reference.2 t c d dv fuel
    q.__hp.reference.1 h.chain hf
  exact ⟨{ q with __hp := hp1.dereference q.__hp.reference.2 }, rst,
    by simp [queue.contains, h.head, hloop], hiff⟩

/-! ## Properties of destruction, counters and scans -/

/-- C11. The destructor calls the deleter once for every distinct pointer on
the retired list, protected or not, and leaves the retired list empty; every
call is for an entry of the list. -/
theorem destroy_deletes_each_pointer_once (hp : hazard_pointer) :
    hp.destroy.1.__pending_list = [] ∧
    (hp.destroy.2.map (fun e => e.ptr)).Nodup ∧
    (∀ p, p ∈ hp.destroy.2.map (fun e => e.ptr) ↔ p ∈ hp.__pending_list.map (fun e => e.ptr)) ∧
    hp.destroy.2.Sublist hp.__pending_list := by
  obtain ⟨h1, h2⟩ := destroy_eq hp
  obtain ⟨_, b, c⟩ := clear_forcely_foldl_spec hp.__pending_list ([], []) (by simp) (by simp)
  refine ⟨h1, ?_, ?_, destroy_calls_sublist hp⟩
  · rw [h2]; exact b
  · intro p
    rw [h2, c p]
    simp

/-- C11 at `sample_domain`: pointer 5 is protected by a slot and is deleted
all the same, once, as are 7 and 9. -/
theorem destroy_deletes_each_pointer_once_witness :
    5 ∈ protected_ptrs sample_domain.__head ∧
    sample_domain.destroy.2 =
      [{ ptr := 5, deleter := 0 }, { ptr := 7, deleter := 0 }, { ptr := 9, deleter := 0 }] ∧
    sample_domain.destroy.1.__pending_list = [] ∧
    (sample_domain.destroy.2.map (fun e => e.ptr)).Nodup :=
  ⟨by decide, by decide, (destroy_deletes_each_pointer_once sample_domain).1,
    (destroy_deletes_each_pointer_once sample_domain).2.1⟩

/-- C12. A stack on which `vs.length` values are pushed and then as many
popped, on one thread, and which is then destroyed with its domain, sees
exactly `vs.length` deleter calls, on distinct pointers, each the address of
one of the nodes; this for every threshold. With threshold 8 and 64 values
that is 64 calls. -/
theorem stack_push_pop_deleters {α : Type} (fuel : Nat) (ord : IterationOrder)
    (threshold : Nat) (vs : List α) (t : α) :
    (∃ calls,
      stack.lifetime_calls (fuel + 1) ord threshold
        (vs.map container_op.push ++ List.replicate vs.length container_op.pop) t =
          .ok calls ∧
      calls.length = vs.length ∧
      (calls.map (fun e => e.ptr)).Nodup ∧
      ∀ e ∈ calls, 1 ≤ e.ptr ∧ e.ptr ≤ vs.length) ∧
    (∃ calls,
      stack.lifetime_calls (fuel + 1) ord 8
        ((List.range 64).map container_op.push ++ List.replicate 64 container_op.pop) 0 =
          .ok calls ∧
      calls.length = 64) := by
  have key : ∀ (β : Type) (T : Nat) (ws : List β) (u : β), ∃ calls,
      stack.lifetime_calls (fuel + 1) ord T
        (ws.map container_op.push ++ List.replicate ws.length container_op.pop) u =
          .ok calls ∧
      calls.length = ws.length ∧
      (calls.map (fun e => e.ptr)).Nodup ∧
      ∀ e ∈ calls, 1 ≤ e.ptr ∧ e.ptr ≤ ws.length := by
    intro β T ws u
    obtain ⟨s1, c1, hrun, hinv, hlen, hheap, hc, hcount⟩ :=
      stack_run_calls_inv ord
        (ws.map container_op.push ++ List.replicate ws.length container_op.pop)
        (stack.new T) [] u [] (stack_new_inv T)
        ⟨by simp [stack.new, hazard_pointer.new], by simp⟩
    have htp : true_pops (lifo_run
        (ws.map container_op.push ++ List.replicate ws.length container_op.pop) [] u) =
        ws.length := by
      rw [lifo_run_map_push, List.append_nil]
      have := true_pops_lifo_replicate_pop ws.reverse u
      simpa using this
    simp only [List.map_nil, List.length_nil, List.nil_append, Nat.zero_add, htp,
      pushes_map_push] at hrun hlen hheap hc hcount
    have hc1 : c1 = [] := List.length_eq_zero.1 (by omega)
    subst hc1
    obtain ⟨heap1, hdes⟩ := stack_destroy_empty fuel hinv
    have hpl0 : (stack.new T : stack β).__hp.__pending_list = [] := rfl
    have hh0 : (stack.new T : stack β).heap = [] := rfl
    rw [hpl0] at hcount
    rw [hh0] at hheap
    refine ⟨_, by simp only [stack.lifetime_calls, hrun, hdes], ?_, hc.1, ?_⟩
    · simp only [List.length_append, List.length_nil, Nat.zero_add] at hcount ⊢
      exact hcount
    · intro e he
      rcases List.mem_append.1 he with he | he
      · obtain ⟨a, ha, hnone⟩ := hc.2 e he
        have hlt : a < s1.heap.length := (List.getElem?_eq_some_iff.1 hnone).1
        simp only [List.length_nil, Nat.zero_add] at hheap
        omega
      · obtain ⟨a, ha, hl, _⟩ := hinv.pending.2 e he
        have hlt := live_lt hl
        simp only [List.length_nil, Nat.zero_add] at hheap
        omega
  refine ⟨key α threshold vs t, ?_⟩
  obtain ⟨calls, h1, h2, _, _⟩ := key Nat 8 (List.range 64) 0
  rw [List.length_range] at h1 h2
  exact ⟨calls, h1, h2⟩

/-- C13 (amended). After any sequence of `push` and `pop` on a fresh queue or
stack, on one thread, that ends with fewer than 2^31 values pushed and not
popped, `size()` is the number of pushes minus the number of pops that
returned true. -/
theorem size_counts_pushes_minus_pops {α : Type} (fuel : Nat) (ord : IterationOrder)
    (threshold : Nat) (dummy : α) (ops : List (container_op α)) (t : α)
    (hq : pushes ops - true_pops (fifo_run ops [] t) < 2147483648)
    (hs : pushes ops - true_pops (lifo_run ops [] t) < 2147483648) :
    (∃ q1, queue.run (fuel + 1) ord ops (queue.new threshold dummy) t =
        .ok (q1, fifo_run ops [] t) ∧
      q1.size = pushes ops - true_pops (fifo_run ops [] t)) ∧
    (∃ s1, stack.run ord ops (stack.new threshold) t = .ok (s1, lifo_run ops [] t) ∧
      s1.size = pushes ops - true_pops (lifo_run ops [] t)) := by
  constructor
  · obtain ⟨q1, d1, dv1, c1, hrun, _, hlen, hsize⟩ :=
      queue_run_fresh fuel ord threshold dummy ops t
    refine ⟨q1, hrun, ?_⟩
    unfold queue.size
    rw [hsize]
    have : ((pushes ops : Int) - (true_pops (fifo_run ops [] t) : Int)) =
        ((pushes ops - true_pops (fifo_run ops [] t) : Nat) : Int) := by omega
    rw [this, to_size_t_wrap_int_of_lt _ hq]
  · obtain ⟨s1, c1, hrun, _, hlen, hsize⟩ := stack_run_fresh ord threshold ops t
    refine ⟨s1, hrun, ?_⟩
    unfold stack.size
    rw [hsize]
    have : ((pushes ops : Int) - (true_pops (lifo_run ops [] t) : Int)) =
        ((pushes ops - true_pops (lifo_run ops [] t) : Nat) : Int) := by omega
    rw [this, to_size_t_wrap_int_of_lt _ hs]

/-- C13 (amended) on push 1, push 2, pop, push 3: `size()` is 2. -/
theorem size_counts_pushes_minus_pops_witness :
    (pushes [container_op.push 1, .push 2, .pop, .push 3] -
        true_pops (fifo_run [container_op.push 1, .push 2, .pop, .push 3] [] 0) < 2147483648 ∧
      pushes [container_op.push 1, .push 2, .pop, .push 3] -
        true_pops (lifo_run [container_op.push 1, .push 2, .pop, .push 3] [] 0) < 2147483648 ∧
      pushes [container_op.push 1, .push 2, .pop, .push 3] -
        true_pops (fifo_run [container_op.push 1, .push 2, .pop, .push 3] [] 0) = 2) ∧
    ((∃ q1, queue.run 1 insertion_order [container_op.push 1, .push 2, .pop, .push 3]
          (queue.new 10000 0) 0 =
          .ok (q1, fifo_run [container_op.push 1, .push 2, .pop, .push 3] [] 0) ∧
        q1.size = pushes [container_op.push 1, .push 2, .pop, .push 3] -
          true_pops (fifo_run [container_op.push 1, .push 2, .pop, .push 3] [] 0)) ∧
      (∃ s1, stack.run insertion_order [container_op.push 1, .push 2, .pop, .push 3]
          (stack.new 10000) 0 =
          .ok (s1, lifo_run [container_op.push 1, .push 2, .pop, .push 3] [] 0) ∧
        s1.size = pushes [container_op.push 1, .push 2, .pop, .push 3] -
          true_pops (lifo_run [container_op.push 1, .push 2, .pop, .push 3] [] 0))) :=
  ⟨⟨by decide, by decide, by decide⟩,
    size_counts_pushes_minus_pops 0 insertion_order 10000 0
      [container_op.push 1, .push 2, .pop, .push 3] 0 (by decide) (by decide)⟩

/-- C13 as stated fails: after 2^31 pushes on a fresh stack the `int` counter
has wrapped to -2^31 and `size()` is 2^64 - 2^31, not 2^31. -/
theorem size_wraps_after_int_max_pushes :
    ∃ s1 out, stack.run insertion_order (List.replicate 2147483648 (container_op.push 0))
        (stack.new 10000 : stack Nat) 0 = .ok (s1, out) ∧
      s1.size = 18446744071562067968 ∧
      s1.size ≠ pushes (List.replicate 2147483648 (container_op.push 0)) - true_pops out := by
  obtain ⟨s1, c1, hrun, _, hlen, hsize⟩ := stack_run_fresh insertion_order 10000
    (List.replicate 2147483648 (container_op.push (0 : Nat))) 0
  rw [lifo_run_replicate_push] at hrun hsize
  rw [pushes_replicate] at hsize
  have h0 : ((2147483648 : Nat) : Int) - ((true_pops ([] : List (Bool × Nat)) : Nat) : Int) =
      ((2147483648 : Nat) : Int) := by
    simp [true_pops]
  have hsz : s1.size = 18446744071562067968 := by
    unfold stack.size
    rw [hsize, h0, to_size_t_wrap_int_big]
  refine ⟨s1, [], hrun, hsz, ?_⟩
  rw [pushes_replicate, hsz]
  simp [true_pops]

/-- What `delete_ptr_scans` counts: it is 1 exactly when the slot list is not
empty and the incremented count has reached the threshold, and then
`delete_ptr` leaves the count at 0; when it is 0 no deleter is called. -/
theorem delete_ptr_scans_spec (ord : IterationOrder) (hp : hazard_pointer) (p d : Nat) :
    (delete_ptr_scans hp = 1 ↔
      hp.__head ≠ [] ∧ hp.__threshold_of_clean_up ≤ hp.__pending_size + 1) ∧
    (delete_ptr_scans hp = 1 → (hp.delete_ptr ord p d).1.__pending_size = 0) ∧
    (delete_ptr_scans hp = 0 → (hp.delete_ptr ord p d).2 = []) := by
  cases hh : hp.__head with
  | nil =>
    have h1 : hp.delete_ptr ord p d = (hp, []) := by simp [delete_ptr, hh]
    simp [delete_ptr_scans, hh, h1]
  | cons n rest =>
    have hne : hp.__head ≠ [] := by simp [hh]
    obtain ⟨_, hlow, hhigh⟩ := delete_ptr_with_slot ord hp p d hne
    by_cases h : hp.__threshold_of_clean_up ≤ hp.__pending_size + 1
    · have hs : delete_ptr_scans hp = 1 := by
        simp only [delete_ptr_scans, hh]
        rw [if_neg (by omega)]
      exact ⟨by simp [hs, h], fun _ => hhigh h, by simp [hs]⟩
    · have hs : delete_ptr_scans hp = 0 := by
        simp only [delete_ptr_scans, hh]
        rw [if_pos (by omega)]
      refine ⟨by simp [hs, h], by simp [hs], fun _ => ?_⟩
      rw [hlow h]

/-- C14. With a threshold of at least 1, a sequence of calls on a fresh
domain that holds N calls of `delete_ptr` starts at most ceil(N / threshold)
scans; indeed scans times threshold is at most N. -/
theorem scans_at_most_ceil (ord : IterationOrder) (threshold : Nat) (ops : List domain_op)
    (h : 1 ≤ threshold) :
    scans_initiated ord ops { hp := hazard_pointer.new threshold, held := [], calls := [] } ≤
      ((retired_ptrs ops).length + threshold - 1) / threshold ∧
    scans_initiated ord ops { hp := hazard_pointer.new threshold, held := [], calls := [] } *
      threshold ≤ (retired_ptrs ops).length := by
  have hb : scans_initiated ord ops
        { hp := hazard_pointer.new threshold, held := [], calls := [] } * threshold +
      (ops.foldl (domain_step ord)
        { hp := hazard_pointer.new threshold, held := [], calls := [] }).hp.__pending_size ≤
      0 + (retired_ptrs ops).length :=
    scans_initiated_bound ord ops
      { hp := hazard_pointer.new threshold, held := [], calls := [] }
  refine ⟨?_, by omega⟩
  rw [Nat.le_div_iff_mul_le (by omega)]
  omega

/-- C14 at `sample_ops` with threshold 2: three retires, one scan. -/
theorem scans_at_most_ceil_witness :
    (1 ≤ 2 ∧ (retired_ptrs sample_ops).length = 3 ∧
      scans_initiated insertion_order sample_ops
        { hp := hazard_pointer.new 2, held := [], calls := [] } = 1) ∧
    (scans_initiated insertion_order sample_ops
        { hp := hazard_pointer.new 2, held := [], calls := [] } ≤
        ((retired_ptrs sample_ops).length + 2 - 1) / 2 ∧
      scans_initiated insertion_order sample_ops
        { hp := hazard_pointer.new 2, held := [], calls := [] } * 2 ≤
        (retired_ptrs sample_ops).length) :=
  ⟨⟨by decide, by decide, by decide⟩,
    scans_at_most_ceil insertion_order 2 sample_ops (by decide)⟩

/-- C16 fails: in `stack::pop` the slot is released (line 63) before the
value is read from the node (line 64). On a stack holding one value the pop
succeeds and its events come in that order, while `queue::pop` reads the
value (line 76) before it releases the slot (line 77). -/
theorem stack_pop_releases_before_reading :
    (∃ s1, ((stack.new 10000 : stack Nat).push 7).pop insertion_order 0 = .ok (s1, true, 7)) ∧
    ((stack.new 10000 : stack Nat).push 7).pop_events =
      [.protect 1, .read_next 0, .cas_head, .release, .read_value 0, .retire 1] ∧
    List.indexOf pop_event.release ((stack.new 10000 : stack Nat).push 7).pop_events <
      List.indexOf (pop_event.read_value 0) ((stack.new 10000 : stack Nat).push 7).pop_events ∧
    (∃ q1, (queue.new 10000 0 : queue Nat).push 1 7 = .ok q1 ∧
      q1.pop_events =
        [.protect 1, .read_next 0, .protect 2, .cas_head, .read_value 1, .release,
          .retire 1]) :=
  ⟨⟨_, rfl⟩, rfl, by decide, ⟨_, rfl, rfl⟩⟩

/-- C17 fails: `contains` starts at the dummy node and compares its value.
After push 1 and a successful pop no value is left in the queue, yet
`contains(1)` is true; and on a fresh queue `contains` is true of whatever
the dummy node holds. -/
theorem queue_contains_sees_dummy :
    (∃ q1 q2, queue.run 1 insertion_order [.push 1, .pop] (queue.new 10000 0) 0 =
        .ok (q1, [(true, 1)]) ∧
      fifo_run [.push 1, .pop] [] 0 = [(true, 1)] ∧
      q1.contains 2 1 = .ok (q2, true)) ∧
    (∃ q2, (queue.new 10000 5 : queue Nat).contains 2 5 = .ok (q2, true)) :=
  ⟨⟨_, _, rfl, rfl, rfl⟩, ⟨_, rfl⟩⟩

/-- C18 (amended). After any sequence of `push` and `pop` on a fresh queue,
on one thread, with one unit of fuel per `push` (its loop succeeds on the
first iteration): `__head` is not null, the chain from it is finite and
unique, it has one node more than the values pushed and not popped, `__tail`
is its last node and has a null `next`, the node count is `size() + 1` when
fewer than 2^31 values are in the queue, and a further `push` returns with
one unit of fuel. -/
theorem queue_shape_invariant {α : Type} (fuel : Nat) (ord : IterationOrder)
    (threshold : Nat) (dummy : α) (ops : List (container_op α)) (t : α) :
    ∃ q1 d dv c,
      queue.run (fuel + 1) ord ops (queue.new threshold dummy) t =
        .ok (q1, fifo_run ops [] t) ∧
      q1.__head = some d ∧ queue_chain q1.heap d dv c ∧
      (∀ dv1 c1, queue_chain q1.heap d dv1 c1 → c1 = c) ∧
      c.length + true_pops (fifo_run ops [] t) = pushes ops ∧
      q1.__tail = some (last_addr d c) ∧
      (∃ lv, q1.heap[last_addr d c]? = some (some { t := lv, next := none })) ∧
      (c.length < 2147483648 → c.length + 1 = q1.size + 1) ∧
      (∀ v, ∃ q2, q1.push 1 v = .ok q2) := by
  obtain ⟨q1, d, dv, c, hrun, hinv, hlen, hsize⟩ :=
    queue_run_fresh fuel ord threshold dummy ops t
  refine ⟨q1, d, dv, c, hrun, hinv.head, hinv.chain, ?_, hlen, hinv.tail,
    queue_chain_last c d dv hinv.chain, ?_, ?_⟩
  · intro dv1 c1 h1
    exact ((queue_chain_unique c c1 d dv dv1 hinv.chain h1).2).symm
  · intro hlt
    unfold queue.size
    rw [hsize]
    have : ((pushes ops : Int) - (true_pops (fifo_run ops [] t) : Int)) =
        ((c.length : Nat) : Int) := by omega
    rw [this, to_size_t_wrap_int_of_lt _ hlt]
  · intro v
    obtain ⟨q2, hpush, _⟩ := queue_push_inv 0 hinv v
    exact ⟨q2, hpush⟩

/-- C18 as stated fails: after 2^31 pushes on a fresh queue the chain from
`__head` has 2^31 + 1 nodes, while `size() + 1` is 2^64 - 2^31 + 1. -/
theorem queue_chain_exceeds_size :
    ∃ q1 d out, queue.run 1 insertion_order (List.replicate 2147483648 (container_op.push 0))
        (queue.new 10000 (0 : Nat)) 0 = .ok (q1, out) ∧
      q1.__head = some d ∧
      (∃ dv c, queue_chain q1.heap d dv c ∧ c.length + 1 = 2147483649) ∧
      ∀ dv c, queue_chain q1.heap d dv c → c.length + 1 ≠ q1.size + 1 := by
  obtain ⟨q1, d, dv, c, hrun, hinv, hlen, hsize⟩ :=
    queue_run_fresh 0 insertion_order 10000 (0 : Nat)
      (List.replicate 2147483648 (container_op.push (0 : Nat))) 0
  rw [fifo_run_replicate_push] at hrun hlen hsize
  rw [pushes_replicate] at hlen hsize
  simp only [true_pops] at hlen
  refine ⟨q1, d, [], hrun, hinv.head, ⟨dv, c, hinv.chain, by omega⟩, ?_⟩
  intro dv1 c1 h1
  have hc : c1 = c := ((queue_chain_unique c c1 d dv dv1 hinv.chain h1).2).symm
  subst hc
  unfold queue.size
  rw [hsize]
  have h0 : ((2147483648 : Nat) : Int) - ((true_pops ([] : List (Bool × Nat)) : Nat) : Int) =
      ((2147483648 : Nat) : Int) := by
    simp [true_pops]
  rw [h0, to_size_t_wrap_int_big]
  omega

/-- C19. When a scan runs, `pending_size()` is 0 afterwards; if some retired
pointer is protected, its entry is back on the retired list, which is then
longer than `pending_size()` says. -/
theorem pending_size_zero_after_scan (ord : IterationOrder) (hp : hazard_pointer)
    (h : hp.__threshold_of_clean_up ≤ hp.__pending_size) :
    (check_threshold ord hp).1.pending_size = 0 ∧
    ((∃ e ∈ hp.__pending_list, e.ptr ∈ protected_ptrs hp.__head) →
      (check_threshold ord hp).1.pending_size <
        (check_threshold ord hp).1.__pending_list.length) := by
  have h0 : (check_threshold ord hp).1.pending_size = 0 := by
    rw [check_threshold_eq ord hp h]
    rfl
  refine ⟨h0, ?_⟩
  rintro ⟨e, he, hprot⟩
  rw [h0]
  have hi := scan_result_inv hp
  have hperm : ((check_threshold ord hp).1.__pending_list.map (fun e => e.ptr)).Perm
      ((scan_result hp).new_list_filter.map Prod.fst) := by
    rw [check_threshold_eq ord hp h, ← map_ptr_snd _ hi.keys_eq]
    exact (link_survivors_perm ord _).map _
  have hmem : e.ptr ∈ (check_threshold ord hp).1.__pending_list.map (fun e => e.ptr) :=
    hperm.mem_iff.2 ((hi.keys_mem e.ptr).2 ⟨List.mem_map_of_mem _ he, hprot⟩)
  cases hl : (check_threshold ord hp).1.__pending_list with
  | nil => rw [hl] at hmem; simp at hmem
  | cons x rest => simp

/-- C19 at `sample_domain`: after the scan one entry (for the protected 5)
is on the retired list and `pending_size()` is 0. -/
theorem pending_size_zero_after_scan_witness :
    (sample_domain.__threshold_of_clean_up ≤ sample_domain.__pending_size ∧
      (check_threshold insertion_order sample_domain).1.__pending_list.length = 1) ∧
    ((check_threshold insertion_order sample_domain).1.pending_size = 0 ∧
      ((∃ e ∈ sample_domain.__pending_list, e.ptr ∈ protected_ptrs sample_domain.__head) →
        (check_threshold insertion_order sample_domain).1.pending_size <
          (check_threshold insertion_order sample_domain).1.__pending_list.length)) :=
  ⟨⟨by decide, by decide⟩,
    pending_size_zero_after_scan insertion_order sample_domain (by decide)⟩

/-! ## Lemmas on two threads calling `stack::pop` -/

theorem pop_system_run_append {α : Type} (ord : IterationOrder) (l1 l2 : List thread_id) :
    ∀ sys : pop_system α,
      pop_system.run ord (l1 ++ l2) sys =
        match pop_system.run ord l1 sys with
        | .error f => .error f
        | .ok sys1 => pop_system.run ord l2 sys1 := by
  induction l1 with
  | nil => intro sys; rfl
  | cons id l1 ih =>
    intro sys
    simp only [List.cons_append, pop_system.run]
    cases pop_system.step ord sys id with
    | error f => rfl
    | ok sys1 => exact ih sys1

/-- A thread that runs a whole successful `pop` without the other thread
taking a step does what `stack.pop` does. -/
theorem pop_alone_true {α : Type} (ord : IterationOrder) (sys : pop_system α) (s1 : stack α)
    (v : α) (hpc : sys.b.pc = .l54) (h : sys.shared.pop ord sys.b.t = .ok (s1, true, v)) :
    pop_system.run ord (List.replicate 9 thread_id.B) sys =
      .ok { shared := s1
            a := sys.a
            b := { pc := .l54
                   hazard_node := sys.shared.__hp.reference.2
                   hn := sys.shared.__head
                   t := v
                   returned := sys.b.returned ++ [(true, v)] } } := by
  obtain ⟨s, a, b⟩ := sys
  obtain ⟨pc, hz, hn0, t, ret⟩ := b
  simp only at hpc h
  subst hpc
  unfold stack.pop at h
  cases hhd : s.__head with
  | none => simp [hhd] at h
  | some hn =>
    simp only [hhd] at h
    cases hl : load s.heap hn with
    | error f => simp [hl] at h
    | ok node =>
      simp only [hl] at h
      cases hr : run_deleters s.heap
          (((s.__hp.reference.1.set s.__hp.reference.2 (to_void (some hn))).dereference
            s.__hp.reference.2).delete_ptr ord (to_void (some hn)) 0).2 with
      | error f => simp [hr] at h
      | ok heap1 =>
        simp only [hr, Except.ok.injEq, Prod.mk.injEq, true_and] at h
        obtain ⟨h1, h2⟩ := h
        subst h1
        subst h2
        simp [List.replicate, pop_system.run, pop_system.step, stack.pop_step, hhd, hl, hr]

/-- A thread that runs a whole `pop` on an empty stack without the other
thread taking a step does what `stack.pop` does. -/
theorem pop_alone_false {α : Type} (ord : IterationOrder) (sys : pop_system α) (s1 : stack α)
    (v : α) (hpc : sys.b.pc = .l54) (h : sys.shared.pop ord sys.b.t = .ok (s1, false, v)) :
    pop_system.run ord (List.replicate 5 thread_id.B) sys =
      .ok { shared := s1
            a := sys.a
            b := { pc := .l54
                   hazard_node := sys.shared.__hp.reference.2
                   hn := sys.shared.__head
                   t := v
                   returned := sys.b.returned ++ [(false, v)] } } := by
  obtain ⟨s, a, b⟩ := sys
  obtain ⟨pc, hz, hn0, t, ret⟩ := b
  simp only at hpc h
  subst hpc
  unfold stack.pop at h
  cases hhd : s.__head with
  | none =>
    simp only [hhd, Except.ok.injEq, Prod.mk.injEq, true_and] at h
    obtain ⟨h1, h2⟩ := h
    subst h1
    subst h2
    simp [List.replicate, pop_system.run, pop_system.step, stack.pop_step, hhd]
  | some hn =>
    simp only [hhd] at h
    cases hl : load s.heap hn with
    | error f => simp [hl] at h
    | ok node =>
      simp only [hl] at h
      cases hr : run_deleters s.heap
          (((s.__hp.reference.1.set s.__hp.reference.2 (to_void (some hn))).dereference
            s.__hp.reference.2).delete_ptr ord (to_void (some hn)) 0).2 with
      | error f => simp [hr] at h
      | ok heap1 => simp [hr] at h

theorem protected_ptrs_clear {slots : List hazard_node} (h : slots_clear slots) :
    protected_ptrs slots = [] := by
  unfold protected_ptrs
  rw [List.filter_eq_nil_iff]
  intro p hp
  obtain ⟨n, hn, rfl⟩ := List.mem_map.1 hp
  rw [h n hn]
  simp

theorem update_node_clear (f : hazard_node → hazard_node)
    (hf : ∀ n, n.hazard_ptr = 0 → (f n).hazard_ptr = 0) (l : List hazard_node) (h : Nat)
    (hl : slots_clear l) : slots_clear (update_node f l h) := by
  induction l with
  | nil => intro n hn; simp [update_node] at hn
  | cons a rest ih =>
    have ha : a.hazard_ptr = 0 := hl a (List.mem_cons_self _ _)
    have hrest : slots_clear rest := fun m hm => hl m (List.mem_cons_of_mem _ hm)
    unfold update_node
    by_cases hh : h = rest.length
    · rw [if_pos hh]
      intro n hn
      rcases List.mem_cons.1 hn with h1 | h1
      · rw [h1]; exact hf a ha
      · exact hrest n h1
    · rw [if_neg hh]
      intro n hn
      rcases List.mem_cons.1 hn with h1 | h1
      · rw [h1]; exact ha
      · exact ih hrest n h1

theorem update_node_ne_nil (f : hazard_node → hazard_node) (l : List hazard_node) (h : Nat)
    (hl : l ≠ []) : update_node f l h ≠ [] := by
  intro e
  have := update_node_length f l h
  rw [e] at this
  exact hl (List.length_eq_zero.1 this.symm)

/-- The domain after `reference()` and then `dereference()` on the slot
obtained, when no slot protected a pointer before. -/
theorem reference_dereference_clear (hp : hazard_pointer) (h : slots_clear hp.__head) :
    slots_clear (hp.reference.1.dereference hp.reference.2).__head ∧
    (hp.reference.1.dereference hp.reference.2).__head ≠ [] ∧
    (hp.reference.1.dereference hp.reference.2).__pending_list = hp.__pending_list ∧
    (hp.reference.1.dereference hp.reference.2).__pending_size = hp.__pending_size ∧
    (hp.reference.1.dereference hp.reference.2).__threshold_of_clean_up =
      hp.__threshold_of_clean_up := by
  have hq : (hp.reference.1.dereference hp.reference.2).__pending_list = hp.__pending_list ∧
      (hp.reference.1.dereference hp.reference.2).__pending_size = hp.__pending_size ∧
      (hp.reference.1.dereference hp.reference.2).__threshold_of_clean_up =
        hp.__threshold_of_clean_up := by
    unfold reference
    cases claim_idle hp.__head with
    | none => exact ⟨rfl, rfl, rfl⟩
    | some r => exact ⟨rfl, rfl, rfl⟩
  have hr : slots_clear hp.reference.1.__head ∧ hp.reference.1.__head ≠ [] := by
    unfold reference
    cases hc : claim_idle hp.__head with
    | none =>
      refine ⟨?_, by simp⟩
      intro n hn
      rcases List.mem_cons.1 hn with h1 | h1
      · rw [h1]
      · exact h n h1
    | some r =>
      obtain ⟨h0, l1⟩ := r
      obtain ⟨⟨n0, hn0, _⟩, hupd⟩ := claim_idle_some hc
      have hne : hp.__head ≠ [] := by
        intro e
        rw [e] at hn0
        simp [node_at] at hn0
      simp only
      rw [hupd]
      exact ⟨update_node_clear (fun n => { n with occupied := true }) (fun n hn => hn) _ _ h,
        update_node_ne_nil _ _ _ hne⟩
  refine ⟨?_, ?_, hq⟩
  · exact update_node_clear _ (fun _ _ => rfl) _ _ hr.1
  · exact update_node_ne_nil _ _ _ hr.2

/-- The call `delete_ptr(a + 1)` on a domain none of whose slots protects a
pointer, with its effect on the node store: below the threshold the entry is
linked and nothing is freed; at the threshold the scan frees every retired
node, the one just linked included. -/
theorem delete_ptr_run_unprotected {γ : Type} (ord : IterationOrder) (hp : hazard_pointer)
    (heap : List (Option γ)) (a d : Nat) (keep : List Nat)
    (hslots : hp.__head ≠ []) (hclear : slots_clear hp.__head)
    (hpend : pending_ok heap hp.__pending_list (a :: keep))
    (hlive : live heap a) (ha : a ∉ keep) :
    ∃ heap1, run_deleters heap (hp.delete_ptr ord (a + 1) d).2 = .ok heap1 ∧
      (∀ b ∈ keep, heap1[b]? = heap[b]?) ∧
      pending_ok heap1 (hp.delete_ptr ord (a + 1) d).1.__pending_list keep ∧
      (hp.delete_ptr ord (a + 1) d).1.__head = hp.__head ∧
      (hp.delete_ptr ord (a + 1) d).1.__threshold_of_clean_up = hp.__threshold_of_clean_up ∧
      ((hp.__threshold_of_clean_up ≤ hp.__pending_size + 1 ∧
          (hp.delete_ptr ord (a + 1) d).1.__pending_size = 0 ∧
          (hp.delete_ptr ord (a + 1) d).1.__pending_list = [] ∧
          ∀ e ∈ ({ ptr := a + 1, deleter := d } :: hp.__pending_list :
              List hazard_pending_node), ∃ b, e.ptr = b + 1 ∧ heap1[b]? = some none) ∨
        (¬ hp.__threshold_of_clean_up ≤ hp.__pending_size + 1 ∧
          (hp.delete_ptr ord (a + 1) d).1.__pending_size = hp.__pending_size + 1 ∧
          (hp.delete_ptr ord (a + 1) d).1.__pending_list =
            { ptr := a + 1, deleter := d } :: hp.__pending_list ∧
          heap1 = heap)) := by
  obtain ⟨h1, hlow, _⟩ := delete_ptr_with_slot ord hp (a + 1) d hslots
  have hR : pending_ok heap ({ ptr := a + 1, deleter := d } :: hp.__pending_list) keep := by
    obtain ⟨hnd, hall⟩ := hpend
    constructor
    · simp only [List.map_cons, List.nodup_cons]
      refine ⟨?_, hnd⟩
      intro hmem
      obtain ⟨e, he, hea⟩ := List.mem_map.1 hmem
      obtain ⟨b, hb, _, hnot⟩ := hall e he
      apply hnot
      have : b = a := by omega
      rw [this]
      exact List.mem_cons_self _ _
    · intro e he
      rcases List.mem_cons.1 he with he | he
      · subst he
        exact ⟨a, rfl, hlive, ha⟩
      · obtain ⟨b, hb, hl, hnot⟩ := hall e he
        exact ⟨b, hb, hl, fun hm => hnot (List.mem_cons_of_mem _ hm)⟩
  by_cases hthr : hp.__threshold_of_clean_up ≤ hp.__pending_size + 1
  · obtain ⟨hst, hnd, hsub⟩ := check_threshold_idle ord
      { hp with
          __pending_list := { ptr := a + 1, deleter := d } :: hp.__pending_list,
          __pending_size := hp.__pending_size + 1 }
      (protected_ptrs_clear hclear) hthr
    have hperm := check_threshold_idle_perm ord
      { hp with
          __pending_list := { ptr := a + 1, deleter := d } :: hp.__pending_list,
          __pending_size := hp.__pending_size + 1 }
      (protected_ptrs_clear hclear) hthr hR.1
    rw [← h1] at hst hnd hsub hperm
    obtain ⟨heap1, hrun, _, hsame, hfreed⟩ := run_deleters_frees _ heap hnd
      (fun e he => by
        obtain ⟨b, hb, hl, _⟩ := hR.2 e (hsub.subset he)
        exact ⟨b, hb, hl⟩)
    refine ⟨heap1, hrun, ?_, ?_, ?_, ?_, Or.inl ⟨hthr, ?_, ?_, ?_⟩⟩
    · intro b hb
      apply hsame
      intro hmem
      obtain ⟨e, he, heb⟩ := List.mem_map.1 hmem
      obtain ⟨b1, hb1, _, hnot⟩ := hR.2 e (hsub.subset he)
      have : b1 = b := by omega
      rw [this] at hnot
      exact hnot hb
    · rw [hst]
      exact ⟨by simp, by intro e he; simp at he⟩
    · rw [hst]
    · rw [hst]
    · rw [hst]
    · rw [hst]
    · intro e he
      exact hfreed e (hperm.symm.subset he)
  · rw [hlow hthr]
    exact ⟨heap, rfl, fun _ _ => rfl, hR, rfl, rfl, Or.inr ⟨hthr, rfl, rfl, rfl⟩⟩

/-- A `pop` on a non-empty shared stack none of whose slots protects a
pointer. -/
theorem stack_pop_cons_clear {α : Type} (ord : IterationOrder) {s : stack α} {a : Nat} {v : α}
    {rest : List (Nat × α)} (h : stack_inv_clear s ((a, v) :: rest)) (t : α) :
    ∃ s1, s.pop ord t = .ok (s1, true, v) ∧ stack_inv_clear s1 rest ∧
      s1.__hp.__threshold_of_clean_up = s.__hp.__threshold_of_clean_up ∧
      ((s.__hp.__threshold_of_clean_up ≤ s.__hp.__pending_size + 1 ∧
          s1.__hp.__pending_size = 0 ∧ s1.__hp.__pending_list = [] ∧
          ∀ e ∈ ({ ptr := a + 1, deleter := 0 } :: s.__hp.__pending_list :
              List hazard_pending_node), ∃ b, e.ptr = b + 1 ∧ s1.heap[b]? = some none) ∨
        (¬ s.__hp.__threshold_of_clean_up ≤ s.__hp.__pending_size + 1 ∧
          s1.__hp.__pending_size = s.__hp.__pending_size + 1 ∧
          s1.__hp.__pending_list = { ptr := a + 1, deleter := 0 } :: s.__hp.__pending_list ∧
          s1.heap = s.heap)) := by
  obtain ⟨hhd, nxt, ha, hrest⟩ := h.chain
  obtain ⟨hclear, hne, hpl, hps, hth⟩ := reference_dereference_clear s.__hp h.clear
  have hnd := h.nodup
  simp only [List.map_cons, List.nodup_cons] at hnd
  have hpend : pending_ok s.heap
      (s.__hp.reference.1.dereference s.__hp.reference.2).__pending_list
      (a :: rest.map Prod.fst) := by
    rw [hpl]
    exact h.pending
  obtain ⟨heap1, hrun, hsame, hpend1, hhead1, hth1, hcase⟩ :=
    delete_ptr_run_unprotected ord (s.__hp.reference.1.dereference s.__hp.reference.2) s.heap a 0
      (rest.map Prod.fst) hne hclear hpend ⟨_, ha⟩ hnd.1
  rw [hpl, hps, hth] at hcase
  refine ⟨{ __hp := ((s.__hp.reference.1.dereference s.__hp.reference.2).delete_ptr ord
                (a + 1) 0).1
            __size := wrap_int (s.__size - 1)
            __head := nxt
            heap := heap1 }, ?_, ?_, ?_, hcase⟩
  · simp only [stack.pop, hhd, load, ha, set_dereference, to_void, hrun]
  · refine ⟨stack_chain_congr hsame hrest, hnd.2, ?_, hpend1⟩
    show slots_clear (hazard_pointer.delete_ptr ord _ (a + 1) 0).1.__head
    rw [hhead1]
    exact hclear
  · show (hazard_pointer.delete_ptr ord _ (a + 1) 0).1.__threshold_of_clean_up = _
    rw [hth1, hth]


theorem delete_final_none_stays {γ : Type} (x : Nat) (heap heap2 : List (Option γ)) :
    ∀ p : Nat, delete_final heap p = .ok heap2 → heap[x]? = some none →
      heap2[x]? = some none := by
  intro p hd hx
  cases p with
  | zero =>
    simp only [delete_final, Except.ok.injEq] at hd
    rw [← hd]
    exact hx
  | succ a =>
    simp only [delete_final] at hd
    cases hcell : heap[a]? with
    | none => simp [hcell] at hd
    | some cell =>
      cases cell with
      | none => simp [hcell] at hd
      | some node =>
        simp only [hcell, Except.ok.injEq] at hd
        rw [← hd]
        by_cases hax : a = x
        · subst hax
          rw [hcell] at hx
          simp at hx
        · rw [List.getElem?_set_ne hax]
          exact hx

theorem run_deleters_none_stays {γ : Type} (calls : List hazard_pending_node) (x : Nat) :
    ∀ heap heap1 : List (Option γ), run_deleters heap calls = .ok heap1 →
      heap[x]? = some none → heap1[x]? = some none := by
  induction calls with
  | nil =>
    intro heap heap1 h hx
    simp only [run_deleters, Except.ok.injEq] at h
    rw [← h]
    exact hx
  | cons c calls ih =>
    intro heap heap1 h hx
    simp only [run_deleters] at h
    cases hd : delete_final heap c.ptr with
    | error f => simp [hd] at h
    | ok heap2 =>
      simp only [hd] at h
      exact ih heap2 heap1 h (delete_final_none_stays x heap heap2 c.ptr hd hx)

theorem stack_pop_none_stays {α : Type} {ord : IterationOrder} {s s1 : stack α} {t t1 : α}
    {b : Bool} (h : s.pop ord t = .ok (s1, b, t1)) (x : Nat) (hx : s.heap[x]? = some none) :
    s1.heap[x]? = some none :=
  run_deleters_none_stays _ x _ _ (stack_pop_applies_calls h) hx

theorem replicate_nine_succ (n : Nat) :
    List.replicate (9 * (n + 1)) thread_id.B =
      List.replicate 9 thread_id.B ++ List.replicate (9 * n) thread_id.B := by
  rw [← List.replicate_add]
  congr 1
  omega

/-- Thread B pops every node of the shared stack, nine lines a call, while
thread A stands still. If the node at `x` is retired, or is the top node,
and the pops to come take the count to the threshold, then the node at `x`
has been deleted when B is done. -/
theorem b_pops_all {α : Type} (ord : IterationOrder) (x : Nat) (c : List (Nat × α)) :
    ∀ sys : pop_system α, stack_inv_clear sys.shared c → sys.b.pc = .l54 →
      (sys.shared.heap[x]? = some none ∨
        (((∃ e ∈ sys.shared.__hp.__pending_list, e.ptr = x + 1) ∨
            ∃ v rest, c = (x, v) :: rest) ∧
          sys.shared.__hp.__threshold_of_clean_up ≤
            sys.shared.__hp.__pending_size + c.length ∧
          sys.shared.__hp.__pending_size < sys.shared.__hp.__threshold_of_clean_up)) →
      ∃ sys1, pop_system.run ord (List.replicate (9 * c.length) thread_id.B) sys = .ok sys1 ∧
        sys1.a = sys.a ∧ sys1.shared.heap[x]? = some none ∧ sys1.b.pc = .l54 ∧
        sys1.b.returned.length = sys.b.returned.length + c.length := by
  induction c with
  | nil =>
    intro sys _ hpc hx
    refine ⟨sys, rfl, rfl, ?_, hpc, rfl⟩
    rcases hx with hx | ⟨_, h1, h2⟩
    · exact hx
    · simp only [List.length_nil, Nat.add_zero] at h1
      omega
  | cons y rest ih =>
    obtain ⟨a, v⟩ := y
    intro sys hinv hpc hx
    obtain ⟨s1, hpop, hinv1, hth, hcase⟩ := stack_pop_cons_clear ord hinv sys.b.t
    have hrun9 := pop_alone_true ord sys s1 v hpc hpop
    have hx1 : s1.heap[x]? = some none ∨
        (((∃ e ∈ s1.__hp.__pending_list, e.ptr = x + 1) ∨
            ∃ v1 rest1, rest = (x, v1) :: rest1) ∧
          s1.__hp.__threshold_of_clean_up ≤ s1.__hp.__pending_size + rest.length ∧
          s1.__hp.__pending_size < s1.__hp.__threshold_of_clean_up) := by
      rcases hx with hx | ⟨hwho, h1, h2⟩
      · exact Or.inl (stack_pop_none_stays hpop x hx)
      · have hin : ∃ e ∈ ({ ptr := a + 1, deleter := 0 } :: sys.shared.__hp.__pending_list :
            List hazard_pending_node), e.ptr = x + 1 := by
          rcases hwho with ⟨e, he, hex⟩ | ⟨v1, rest1, hc⟩
          · exact ⟨e, List.mem_cons_of_mem _ he, hex⟩
          · simp only [List.cons.injEq, Prod.mk.injEq] at hc
            exact ⟨_, List.mem_cons_self _ _, by rw [hc.1.1]⟩
        obtain ⟨e, he, hex⟩ := hin
        rcases hcase with ⟨_, _, _, hfreed⟩ | ⟨hlow, hps, hpl, _⟩
        · left
          obtain ⟨b, hb, hnone⟩ := hfreed e he
          have : b = x := by omega
          rw [← this]
          exact hnone
        · right
          refine ⟨Or.inl ⟨e, by rw [hpl]; exact he, hex⟩, ?_, ?_⟩
          · rw [hth, hps]
            simp only [List.length_cons] at h1
            omega
          · rw [hth, hps]
            omega
    obtain ⟨sys2, hrun, ha, hnone, hpc2, hret⟩ := ih
      { shared := s1
        a := sys.a
        b := { pc := .l54
               hazard_node := sys.shared.__hp.reference.2
               hn := sys.shared.__head
               t := v
               returned := sys.b.returned ++ [(true, v)] } } hinv1 rfl hx1
    refine ⟨sys2, ?_, ha, hnone, hpc2, ?_⟩
    · rw [List.length_cons, replicate_nine_succ, pop_system_run_append, hrun9]
      exact hrun
    · rw [hret]
      simp only [List.length_append, List.length_cons, List.length_nil]
      omega

theorem stack_foldl_push_inv {α : Type} (vals : List α) :
    ∀ (s : stack α) (c : List (Nat × α)), stack_inv s c →
      ∃ c1, stack_inv (vals.foldl stack.push s) c1 ∧ c1.length = c.length + vals.length ∧
        (vals.foldl stack.push s).__hp = s.__hp := by
  induction vals with
  | nil => intro s c h; exact ⟨c, h, rfl, rfl⟩
  | cons v vals ih =>
    intro s c h
    obtain ⟨c1, hinv, hlen, hhp⟩ := ih (s.push v) _ (stack_push_inv h v)
    refine ⟨c1, hinv, ?_, ?_⟩
    · rw [hlen]
      simp only [List.length_cons]
      omega
    · rw [List.foldl_cons, hhp]
      rfl


theorem a_starts {α : Type} (ord : IterationOrder) (s : stack α) (t : α) :
    pop_system.run ord [thread_id.A, thread_id.A] (pop_system.init s t) =
      .ok { shared := { s with __hp := s.__hp.reference.1 }
            a := { pc := .l57
                   hazard_node := s.__hp.reference.2
                   hn := s.__head
                   t := t
                   returned := [] }
            b := pop_thread.init t } := by
  simp [pop_system.run, pop_system.step, stack.pop_step, pop_system.init, pop_thread.init]

theorem a_resumes {α : Type} (ord : IterationOrder) (sys : pop_system α) (x : Nat)
    (hpc : sys.a.pc = .l57) (hhn : sys.a.hn = some x) :
    pop_system.run ord [thread_id.A, thread_id.A] sys =
      .ok { shared := { sys.shared with
                          __hp := sys.shared.__hp.set sys.a.hazard_node (x + 1) }
            a := { sys.a with pc := .l62 }
            b := sys.b } := by
  simp [pop_system.run, pop_system.step, stack.pop_step, hpc, hhn, to_void]

theorem a_faults {α : Type} (ord : IterationOrder) (sys : pop_system α) (x : Nat)
    (hpc : sys.a.pc = .l62) (hhn : sys.a.hn = some x)
    (hx : sys.shared.heap[x]? = some none) :
    sys.step ord thread_id.A = .error .invalid_access := by
  simp [pop_system.step, stack.pop_step, hpc, hhn, load, hx]

/-- Two threads pop a stack that holds as many values as the threshold: thread
A loads `__head` (line 55) and stands still, thread B pops every node, the
last retire starting the scan that frees them all, and thread A, back at line
62, reads `hn->next` from a node whose deleter has run. -/
theorem stack_pop_race {α : Type} (ord : IterationOrder) (v : α) (vs : List α) (t : α) :
    ∃ sys x,
      ((v :: vs).foldl stack.push (stack.new (vs.length + 1))).__head = some x ∧
      live ((v :: vs).foldl stack.push (stack.new (vs.length + 1))).heap x ∧
      pop_system.run ord
          ([thread_id.A, thread_id.A] ++ List.replicate (9 * (vs.length + 1)) thread_id.B ++
            [thread_id.A, thread_id.A])
          (pop_system.init ((v :: vs).foldl stack.push (stack.new (vs.length + 1))) t) =
        .ok sys ∧
      sys.b.returned.length = vs.length + 1 ∧
      sys.a.pc = .l62 ∧ sys.a.hn = some x ∧ sys.shared.heap[x]? = some none ∧
      sys.step ord thread_id.A = .error .invalid_access := by
  obtain ⟨c1, hinv, hlen, hhp⟩ := stack_foldl_push_inv (v :: vs)
    (stack.new (vs.length + 1)) [] (stack_new_inv (vs.length + 1))
  simp only [List.length_nil, List.length_cons, Nat.zero_add] at hlen
  have hhp1 : ((v :: vs).foldl stack.push (stack.new (vs.length + 1))).__hp =
      hazard_pointer.new (vs.length + 1) := hhp
  generalize (v :: vs).foldl stack.push (stack.new (vs.length + 1)) = S at hinv hhp1 ⊢
  cases c1 with
  | nil => simp at hlen
  | cons y rest =>
    obtain ⟨x, w⟩ := y
    obtain ⟨hhd, nxt, hcell, hrest⟩ := hinv.chain
    have hslots : S.__hp.reference.1
        = { __size := 1
            __head := [{ occupied := true, hazard_ptr := 0 }]
            __pending_size := 0
            __threshold_of_clean_up := vs.length + 1
            __pending_list := [] } := by
      rw [hhp1]
      rfl
    have hinvc : stack_inv_clear ({ S with __hp := S.__hp.reference.1 } : stack α)
        ((x, w) :: rest) := by
      refine ⟨hinv.chain, hinv.nodup, ?_, ?_⟩
      · show slots_clear (hazard_pointer.reference _).1.__head
        rw [hslots]
        intro n hn
        simp only [List.mem_singleton] at hn
        rw [hn]
      · show pending_ok _ (hazard_pointer.reference _).1.__pending_list _
        rw [hslots]
        exact ⟨by simp, by intro e he; simp at he⟩
    obtain ⟨sysB, hrunB, haB, hnoneB, _, hretB⟩ := b_pops_all ord x ((x, w) :: rest)
      { shared := { S with __hp := S.__hp.reference.1 }
        a := { pc := .l57
               hazard_node := S.__hp.reference.2
               hn := S.__head
               t := t
               returned := [] }
        b := pop_thread.init t } hinvc rfl
      (Or.inr ⟨Or.inr ⟨w, rest, rfl⟩, by
        show (hazard_pointer.reference _).1.__threshold_of_clean_up ≤
          (hazard_pointer.reference _).1.__pending_size + _
        rw [hslots]
        simp only [List.length_cons] at hlen ⊢
        omega, by
        show (hazard_pointer.reference _).1.__pending_size <
          (hazard_pointer.reference _).1.__threshold_of_clean_up
        rw [hslots]
        simp⟩)
    have hpcB : sysB.a.pc = .l57 := by rw [haB]
    have hhnB : sysB.a.hn = some x := by rw [haB]; exact hhd
    rw [hlen] at hrunB
    refine ⟨{ shared := { sysB.shared with
                            __hp := sysB.shared.__hp.set sysB.a.hazard_node (x + 1) }
              a := { sysB.a with pc := .l62 }
              b := sysB.b }, x, hhd, ⟨_, hcell⟩, ?_, ?_, rfl, hhnB, hnoneB, ?_⟩
    · rw [pop_system_run_append, pop_system_run_append, a_starts]
      simp only [hrunB]
      exact a_resumes ord sysB x hpcB hhnB
    · show sysB.b.returned.length = vs.length + 1
      rw [hretB, hlen]
      show 0 + (vs.length + 1) = vs.length + 1
      omega
    · exact a_faults ord _ x rfl hhnB hnoneB

/-! ## Use after free under two threads -/

/-- C15 fails: `stack::pop` does not load `__head` again after `set(hn)`, so a
node can be deleted between lines 55 and 62 of a thread. For a stack that
holds as many values as the threshold of its domain, under the schedule
"A runs lines 54-55, B runs whole pops until the stack is empty, A runs
lines 57-58", every pop of B returns true, thread A then stands at line 62
with `hn` the address of a node whose deleter has run, and its next step,
the read of `hn->next`, is an access to deleted storage. This holds for
every threshold, and in particular for the 10000 of the source with 10000
values on the stack. -/
theorem stack_pop_use_after_free {α : Type} (ord : IterationOrder) (v : α) (vs : List α)
    (t : α) :
    (∃ sys x,
      ((v :: vs).foldl stack.push (stack.new (vs.length + 1))).__head = some x ∧
      live ((v :: vs).foldl stack.push (stack.new (vs.length + 1))).heap x ∧
      pop_system.run ord
          ([thread_id.A, thread_id.A] ++ List.replicate (9 * (vs.length + 1)) thread_id.B ++
            [thread_id.A, thread_id.A])
          (pop_system.init ((v :: vs).foldl stack.push (stack.new (vs.length + 1))) t) =
        .ok sys ∧
      sys.b.returned.length = vs.length + 1 ∧
      sys.a.pc = .l62 ∧ sys.a.hn = some x ∧ sys.shared.heap[x]? = some none ∧
      sys.step ord thread_id.A = .error .invalid_access) ∧
    (∃ sys x,
      ((List.replicate 10000 (0 : Nat)).foldl stack.push (stack.new 10000)).__head = some x ∧
      live ((List.replicate 10000 (0 : Nat)).foldl stack.push (stack.new 10000)).heap x ∧
      pop_system.run ord
          ([thread_id.A, thread_id.A] ++ List.replicate 90000 thread_id.B ++
            [thread_id.A, thread_id.A])
          (pop_system.init ((List.replicate 10000 (0 : Nat)).foldl stack.push
            (stack.new 10000)) 0) =
        .ok sys ∧
      sys.b.returned.length = 10000 ∧
      sys.a.pc = .l62 ∧ sys.a.hn = some x ∧ sys.shared.heap[x]? = some none ∧
      sys.step ord thread_id.A = .error .invalid_access) := by
  refine ⟨stack_pop_race ord v vs t, ?_⟩
  have h := stack_pop_race ord (0 : Nat) (List.replicate 9999 0) 0
  rw [List.length_replicate] at h
  rw [show List.replicate 10000 (0 : Nat) = 0 :: List.replicate 9999 0 from rfl]
  exact h

end threads
